import Mathlib

/-!
Verification of the graphthulhu knowledge-graph engine core.

The Go source is shallowly embedded: Go strings become `List Char`
(written `GoStr`), Go maps become association lists whose list order
models the (unspecified) map iteration order, and filesystem state
becomes an explicit association list from absolute paths to file
contents.  Every definition mirrors the corresponding Go function;
comments name the original symbol.
-/

namespace Graphthulhu

/-- GoStr models a Go string as its list of runes. -/
abbrev GoStr := List Char

/-- gs converts a Lean string literal to the embedding's string type. -/
def gs (s : String) : GoStr := s.data

/-- goIsSpace mirrors unicode.IsSpace for the code points Go treats as
white space (the Unicode White_Space property). -/
def goIsSpace (c : Char) : Bool :=
  c = ' ' || c = '\t' || c = '\n' || (c.toNat = 11) || (c.toNat = 12) ||
  c = '\r' || c.toNat = 0x85 || c.toNat = 0xA0 || c.toNat = 0x1680 ||
  (0x2000 ≤ c.toNat && c.toNat ≤ 0x200A) || c.toNat = 0x2028 ||
  c.toNat = 0x2029 || c.toNat = 0x202F || c.toNat = 0x205F || c.toNat = 0x3000

/-- trimLeft drops leading white space (left half of strings.TrimSpace). -/
def trimLeft (s : GoStr) : GoStr := s.dropWhile goIsSpace

/-- trimRight drops trailing white space (right half of strings.TrimSpace). -/
def trimRight (s : GoStr) : GoStr := (s.reverse.dropWhile goIsSpace).reverse

/-- trimSpace mirrors strings.TrimSpace. -/
def trimSpace (s : GoStr) : GoStr := trimRight (trimLeft s)

/-- trimRightNlSp mirrors strings.TrimRight(s, "\n ") as used by the
markdown sectioner. -/
def trimRightNlSp (s : GoStr) : GoStr :=
  (s.reverse.dropWhile (fun c => c = '\n' || c = ' ')).reverse

/-- hasPre s p holds when p is a prefix of s (strings.HasPrefix). -/
def hasPre (s p : GoStr) : Bool := p.isPrefixOf s

/-- splitNl mirrors strings.Split(s, "\n"). -/
def splitNl (s : GoStr) : List GoStr :=
  match s with
  | [] => [[]]
  | c :: rest =>
    if c = '\n' then [] :: splitNl rest
    else
      match splitNl rest with
      | [] => [[c]]
      | l :: ls => (c :: l) :: ls

/-- joinNl mirrors strings.Join(lines, "\n"). -/
def joinNl : List GoStr → GoStr
  | [] => []
  | [l] => l
  | l :: ls => l ++ '\n' :: joinNl ls

/-- lowerChar mirrors the ASCII case of strings.ToLower on one rune
(all page names in the claims are ASCII). -/
def lowerChar (c : Char) : Char :=
  if 'A' ≤ c ∧ c ≤ 'Z' then Char.ofNat (c.toNat + 32) else c

/-- goToLower mirrors strings.ToLower (restricted to its ASCII action). -/
def goToLower (s : GoStr) : GoStr := s.map lowerChar

/-- ltGS is Go's byte-wise string comparison a < b; on UTF-8 data the
byte order coincides with the code-point lexicographic order. -/
def ltGS : GoStr → GoStr → Bool
  | [], [] => false
  | [], _ :: _ => true
  | _ :: _, [] => false
  | a :: as, b :: bs =>
    if a.toNat < b.toNat then true
    else if b.toNat < a.toNat then false
    else ltGS as bs

/-- leGS a b means a sorts no later than b under Go's string order. -/
def leGS (a b : GoStr) : Bool := !ltGS b a

/-- headingLevel mirrors vault.headingLevel: the heading level (1-6) of a
markdown heading line, or 0 if the line is not a heading. -/
def headingLevel (line : GoStr) : Nat :=
  let trimmed := trimSpace line
  if ¬ hasPre trimmed (gs "#") then 0
  else
    let level := (trimmed.takeWhile (· = '#')).length
    if level > 6 ∨ level = 0 then 0
    else
      let rest := trimmed.drop level
      if rest ≠ [] ∧ ¬ hasPre rest (gs " ") then 0
      else level

example : headingLevel (gs "# Heading 1") = 1 := by decide
example : headingLevel (gs "###### Heading 6") = 6 := by decide
example : headingLevel (gs "####### Seven hashes") = 0 := by decide
example : headingLevel (gs "#NoSpace") = 0 := by decide
example : headingLevel (gs "  ## Indented heading") = 2 := by decide
example : headingLevel (gs "") = 0 := by decide
example : headingLevel (gs "# ") = 1 := by decide
example : headingLevel (gs "##") = 2 := by decide

lemma dropWhile_eq_drop_len_takeWhile {α : Type} (p : α → Bool) (l : List α) :
    l.dropWhile p = l.drop (l.takeWhile p).length := by
  induction l with
  | nil => rfl
  | cons c cs ih =>
    by_cases h : p c
    · simp [List.takeWhile_cons, List.dropWhile_cons, h, ih]
    · simp [List.takeWhile_cons, List.dropWhile_cons, h]

lemma takeWhile_eq_replicate_hash (t : GoStr) :
    t.takeWhile (· = '#') =
      List.replicate (t.takeWhile (· = '#')).length '#' := by
  apply List.eq_replicate_of_mem
  intro b hb
  have := List.mem_takeWhile_imp hb
  simpa using this

lemma head_dropWhile_not {α : Type} (p : α → Bool) (l : List α) :
    ∀ d, (l.dropWhile p).head? = some d → p d = false := by
  induction l with
  | nil => intro d h; simp at h
  | cons c cs ih =>
    intro d h
    by_cases hc : p c
    · rw [List.dropWhile_cons, if_pos hc] at h
      exact ih d h
    · rw [List.dropWhile_cons, if_neg hc] at h
      simp at h
      subst h
      simpa using hc

lemma takeWhile_replicate_append (L : Nat) (rest : GoStr)
    (hrest : rest = [] ∨ rest.head? = some ' ') :
    (List.replicate L '#' ++ rest).takeWhile (· = '#') = List.replicate L '#' := by
  induction L with
  | zero =>
    rcases hrest with h | h
    · simp [h]
    · rcases rest with _ | ⟨c, cs⟩
      · simp
      · simp at h
        subst h
        simp [List.takeWhile_cons]
  | succ n ih =>
    simp only [List.replicate_succ, List.cons_append, List.takeWhile_cons]
    simp [ih]

/-- If the trimmed line decomposes as exactly L leading hashes followed by
a space or end of line, the hash run of the trimmed line has length L. -/
lemma hashRun_of_decomp (line : GoStr) (L : Nat) (rest : GoStr)
    (hdec : trimSpace line = List.replicate L '#' ++ rest)
    (hrest : rest = [] ∨ rest.head? = some ' ') :
    ((trimSpace line).takeWhile (· = '#')).length = L := by
  rw [hdec, takeWhile_replicate_append L rest hrest, List.length_replicate]

/--
C9. The sectioner classifies a line as a heading of level L (1 ≤ L ≤ 6)
iff the line's trimmed form consists of exactly L consecutive '#'
followed either by a space or by end-of-line; a trimmed prefix of seven
or more consecutive '#' is never a heading.
-/
theorem C9_headingLevel_spec (line : GoStr) (L : Nat) (h1 : 1 ≤ L) (h6 : L ≤ 6) :
    (headingLevel line = L ↔
      ∃ rest, trimSpace line = List.replicate L '#' ++ rest ∧
        (rest = [] ∨ rest.head? = some ' ')) ∧
    (7 ≤ ((trimSpace line).takeWhile (· = '#')).length → headingLevel line = 0) := by
  constructor
  · constructor
    · intro hL
      unfold headingLevel at hL
      set t := trimSpace line with ht
      by_cases hp : hasPre t (gs "#")
      · simp only [hp, not_true, if_false] at hL
        set k := (t.takeWhile (· = '#')).length with hk
        by_cases hbig : k > 6 ∨ k = 0
        · simp [hbig] at hL; omega
        · simp only [hbig, if_false] at hL
          set rest := t.drop k with hrest
          by_cases hr : rest ≠ [] ∧ ¬ hasPre rest (gs " ")
          · simp [hr] at hL; omega
          · simp only [hr, if_false] at hL
            refine ⟨rest, ?_, ?_⟩
            · rw [← hL]
              have hdecomp := List.takeWhile_append_dropWhile (p := (· = '#')) (l := t)
              rw [dropWhile_eq_drop_len_takeWhile] at hdecomp
              rw [hrest, hk, ← takeWhile_eq_replicate_hash, hdecomp]
            · push_neg at hr
              by_cases hre : rest = []
              · exact Or.inl hre
              · right
                have hsp := hr hre
                rcases rest with _ | ⟨c, cs⟩
                · simp at hre
                · simp only [hasPre, gs] at hsp
                  simp only [List.isPrefixOf] at hsp
                  simp at hsp ⊢
                  exact hsp.symm
      · simp [hp] at hL; omega
    · rintro ⟨rest, hdec, hr⟩
      have hk := hashRun_of_decomp line L rest hdec hr
      unfold headingLevel
      set t := trimSpace line with ht
      have hp : hasPre t (gs "#") = true := by
        rw [hdec]
        rcases L with _ | n
        · omega
        · simp [hasPre, gs, List.replicate_succ, List.isPrefixOf]
      simp only [hp, not_true, if_false]
      rw [hk]
      have hL6 : ¬ (L > 6 ∨ L = 0) := by omega
      simp only [hL6, if_false]
      have hdrop : t.drop L = rest := by
        rw [hdec]
        have : (List.replicate L '#').length = L := List.length_replicate L '#'
        rw [List.drop_append_of_le_length (by omega), List.drop_replicate]
        simp
      rw [hdrop]
      rcases hr with hre | hsp
      · simp [hre]
      · rcases rest with _ | ⟨c, cs⟩
        · simp
        · simp at hsp
          subst hsp
          simp [hasPre, gs, List.isPrefixOf]
  · intro h7
    unfold headingLevel
    set t := trimSpace line with ht
    by_cases hp : hasPre t (gs "#")
    · simp only [hp, not_true, if_false]
      have hgt : ((t.takeWhile (· = '#')).length > 6 ∨
          (t.takeWhile (· = '#')).length = 0) := Or.inl (by omega)
      rw [if_pos hgt]
    · simp [hp]

/-- Witness for C9 at the concrete line "  ## Indented heading", level 2. -/
theorem C9_headingLevel_spec_witness :
    (headingLevel (gs "  ## Indented heading") = 2 ↔
      ∃ rest, trimSpace (gs "  ## Indented heading") = List.replicate 2 '#' ++ rest ∧
        (rest = [] ∨ rest.head? = some ' ')) ∧
    (7 ≤ ((trimSpace (gs "  ## Indented heading")).takeWhile (· = '#')).length →
      headingLevel (gs "  ## Indented heading") = 0) :=
  C9_headingLevel_spec (gs "  ## Indented heading") 2 (by decide) (by decide)

/-! ## Link graph (graph package, builder.go / analyze.go)

Go maps become association lists; the list order models the map's
(unspecified) iteration order, so theorems about map-driven loops
quantify over every list.  The inner neighbour sets of `Forward` and
`Backward` are lists of keys. -/

/-- alGet is association-list lookup (Go map indexing, found case). -/
def alGet {β : Type} (m : List (GoStr × β)) (k : GoStr) : Option β :=
  (m.find? (fun e => e.1 = k)).map (·.2)

/-- alGetL is Go map indexing into a map of string sets (missing key
yields the empty set). -/
def alGetL (m : List (GoStr × List GoStr)) (k : GoStr) : List GoStr :=
  (alGet m k).getD []

/-- alGetN is Go map indexing into a map of ints (missing key yields 0). -/
def alGetN (m : List (GoStr × Nat)) (k : GoStr) : Nat :=
  (alGet m k).getD 0

/-- GPage carries the PageEntity fields the graph analyses read. -/
structure GPage where
  name : GoStr
  originalName : GoStr
  journal : Bool
deriving DecidableEq

/-- GGraph mirrors graph.Graph. -/
structure GGraph where
  Forward : List (GoStr × List GoStr)
  Backward : List (GoStr × List GoStr)
  Pages : List (GoStr × GPage)
  BlockCounts : List (GoStr × Nat)

/-- OutDegree mirrors Graph.OutDegree. -/
def OutDegree (g : GGraph) (name : GoStr) : Nat :=
  (alGetL g.Forward (goToLower name)).length

/-- InDegree mirrors Graph.InDegree. -/
def InDegree (g : GGraph) (name : GoStr) : Nat :=
  (alGetL g.Backward (goToLower name)).length

/-- TotalDegree mirrors Graph.TotalDegree. -/
def TotalDegree (g : GGraph) (name : GoStr) : Nat :=
  OutDegree g name + InDegree g name

/-- OriginalName mirrors Graph.OriginalName. -/
def OriginalName (g : GGraph) (key : GoStr) : GoStr :=
  match alGet g.Pages key with
  | some p => if p.originalName ≠ [] then p.originalName else key
  | none => key

/-- PageStat mirrors graph.PageStat. -/
structure PageStat where
  name : GoStr
  outLinks : Nat
  inLinks : Nat
  totalDegree : Nat
  blockCount : Nat
deriving DecidableEq

/-- GapInfo mirrors graph.GapInfo. -/
structure GapInfo where
  OrphanPages : List GoStr
  DeadEndPages : List GoStr
  WeaklyLinked : List PageStat
deriving DecidableEq

/-- Cluster mirrors graph.Cluster. -/
structure Cluster where
  id : Nat
  Size : Nat
  Pages : List GoStr
  Hub : GoStr
deriving DecidableEq

/-! Insertion sort models Go's sort.Strings / sort.Slice: the Go sorts
only promise a result ordered under the comparator, which insertion
sort delivers deterministically. -/

/-- insertLe inserts x in front of the first element it compares no
greater than. -/
def insertLe {α : Type} (le : α → α → Bool) (x : α) : List α → List α
  | [] => [x]
  | y :: ys => if le x y then x :: y :: ys else y :: insertLe le x ys

/-- sortLe is insertion sort with comparator le. -/
def sortLe {α : Type} (le : α → α → Bool) (l : List α) : List α :=
  l.foldr (insertLe le) []

lemma mem_insertLe {α : Type} (le : α → α → Bool) (x : α) (l : List α) (a : α) :
    a ∈ insertLe le x l ↔ a = x ∨ a ∈ l := by
  induction l with
  | nil => simp [insertLe]
  | cons y ys ih =>
    by_cases h : le x y
    · simp [insertLe, h]
    · simp [insertLe, h, ih]
      tauto

lemma mem_sortLe {α : Type} (le : α → α → Bool) (l : List α) (a : α) :
    a ∈ sortLe le l ↔ a ∈ l := by
  induction l with
  | nil => simp [sortLe]
  | cons y ys ih =>
    simp only [sortLe, List.foldr_cons] at *
    rw [mem_insertLe]
    simp [ih]

lemma pairwise_insertLe {α : Type} (le : α → α → Bool)
    (htot : ∀ a b, le a b = true ∨ le b a = true)
    (htrans : ∀ a b c, le a b = true → le b c = true → le a c = true)
    (x : α) (l : List α)
    (hl : l.Pairwise (fun a b => le a b = true)) :
    (insertLe le x l).Pairwise (fun a b => le a b = true) := by
  induction l with
  | nil => simp [insertLe]
  | cons y ys ih =>
    rcases List.pairwise_cons.mp hl with ⟨hy, hys⟩
    by_cases h : le x y
    · rw [insertLe, if_pos h]
      refine List.pairwise_cons.mpr ⟨?_, hl⟩
      intro b hb
      rcases List.mem_cons.mp hb with hb | hb
      · subst hb
        exact h
      · exact htrans x y b h (hy b hb)
    · rw [insertLe, if_neg h]
      refine List.pairwise_cons.mpr ⟨?_, ih hys⟩
      intro b hb
      rw [mem_insertLe] at hb
      rcases hb with hb | hb
      · subst hb
        rcases htot y b with hc | hc
        · exact hc
        · exact absurd hc h
      · exact hy b hb

lemma pairwise_sortLe {α : Type} (le : α → α → Bool)
    (htot : ∀ a b, le a b = true ∨ le b a = true)
    (htrans : ∀ a b c, le a b = true → le b c = true → le a c = true)
    (l : List α) :
    (sortLe le l).Pairwise (fun a b => le a b = true) := by
  induction l with
  | nil => simp [sortLe]
  | cons y ys ih =>
    simp only [sortLe, List.foldr_cons] at *
    exact pairwise_insertLe le htot htrans y _ ih

/-- stLe is the sort.Slice comparator of KnowledgeGaps read as ≤ on
total degree (ascending). -/
def stLe (a b : PageStat) : Bool := a.totalDegree ≤ b.totalDegree

/-- gapsStep is the body of the KnowledgeGaps page loop. -/
def gapsStep (g : GGraph) (acc : List GoStr × List GoStr × List PageStat)
    (kp : GoStr × GPage) : List GoStr × List GoStr × List PageStat :=
  let (orph, dead, weak) := acc
  if kp.2.journal then acc
  else
    let outDeg := OutDegree g kp.1
    let inDeg := InDegree g kp.1
    let name := OriginalName g kp.1
    if outDeg = 0 ∧ inDeg = 0 then (orph ++ [name], dead, weak)
    else if outDeg = 0 ∧ 0 < inDeg then (orph, dead ++ [name], weak)
    else if outDeg + inDeg ≤ 2 then
      (orph, dead,
        weak ++ [⟨name, outDeg, inDeg, outDeg + inDeg, alGetN g.BlockCounts kp.1⟩])
    else acc

/-- KnowledgeGaps mirrors Graph.KnowledgeGaps: classify non-journal
pages by degree, sort orphans and dead-ends alphabetically, sort the
weak bucket ascending by total degree and truncate to 20. -/
def KnowledgeGaps (g : GGraph) : GapInfo :=
  let acc := g.Pages.foldl (gapsStep g) ([], [], [])
  { OrphanPages := sortLe leGS acc.1
    DeadEndPages := sortLe leGS acc.2.1
    WeaklyLinked := (sortLe stLe acc.2.2).take 20 }

lemma ltGS_asymm : ∀ a b : GoStr, ltGS a b = true → ltGS b a = false := by
  intro a
  induction a with
  | nil =>
    intro b h
    cases b with
    | nil => simp [ltGS] at h
    | cons c cs => simp [ltGS]
  | cons x xs ih =>
    intro b h
    cases b with
    | nil => simp [ltGS] at h
    | cons y ys =>
      simp only [ltGS] at h ⊢
      by_cases h1 : x.toNat < y.toNat
      · have h2 : ¬ y.toNat < x.toNat := by omega
        simp [h1, h2]
      · by_cases h2 : y.toNat < x.toNat
        · simp [h1, h2] at h
        · simp [h1, h2] at h ⊢
          exact ih ys h

lemma ltGS_trans : ∀ a b c : GoStr, ltGS a b = true → ltGS b c = true →
    ltGS a c = true := by
  intro a
  induction a with
  | nil =>
    intro b c hab hbc
    cases b with
    | nil => simp [ltGS] at hab
    | cons y ys =>
      cases c with
      | nil => simp [ltGS] at hbc
      | cons z zs => simp [ltGS]
  | cons x xs ih =>
    intro b c hab hbc
    cases b with
    | nil => simp [ltGS] at hab
    | cons y ys =>
      cases c with
      | nil => simp [ltGS] at hbc
      | cons z zs =>
        simp only [ltGS] at hab hbc ⊢
        by_cases h1 : x.toNat < y.toNat <;> by_cases h2 : y.toNat < z.toNat
        · simp [show x.toNat < z.toNat by omega]
        · by_cases h3 : z.toNat < y.toNat
          · simp [h2, h3] at hbc
          · simp [show x.toNat < z.toNat by omega]
        · by_cases h0 : y.toNat < x.toNat
          · simp [h1, h0] at hab
          · simp [show x.toNat < z.toNat by omega]
        · by_cases h0 : y.toNat < x.toNat
          · simp [h1, h0] at hab
          · by_cases h3 : z.toNat < y.toNat
            · simp [h2, h3] at hbc
            · have hxz : ¬ x.toNat < z.toNat := by omega
              have hzx : ¬ z.toNat < x.toNat := by omega
              simp [h1, h0] at hab
              simp [h2, h3] at hbc
              simp [hxz, hzx]
              exact ih ys zs hab hbc

lemma ltGS_conn : ∀ a b : GoStr, ltGS a b = false → ltGS b a = false →
    a = b := by
  intro a
  induction a with
  | nil =>
    intro b hab _
    cases b with
    | nil => rfl
    | cons y ys => simp [ltGS] at hab
  | cons x xs ih =>
    intro b hab hba
    cases b with
    | nil => simp [ltGS] at hba
    | cons y ys =>
      simp only [ltGS] at hab hba
      by_cases h1 : x.toNat < y.toNat
      · simp [h1] at hab
      · by_cases h2 : y.toNat < x.toNat
        · simp [h1, h2] at hba
        · simp [h1, h2] at hab hba
          have hx : x = y := by
            have hn : x.toNat = y.toNat := by omega
            exact Char.eq_of_val_eq (UInt32.ext hn)
          rw [hx, ih ys hab hba]

lemma leGS_total : ∀ a b : GoStr, leGS a b = true ∨ leGS b a = true := by
  intro a b
  by_cases h : ltGS b a = true
  · right
    unfold leGS
    rw [ltGS_asymm b a h]
    rfl
  · left
    unfold leGS
    simp [Bool.not_eq_true] at h
    simp [h]

lemma leGS_trans : ∀ a b c : GoStr, leGS a b = true → leGS b c = true →
    leGS a c = true := by
  intro a b c hab hbc
  unfold leGS at *
  simp only [Bool.not_eq_true'] at hab hbc ⊢
  by_contra hcon
  simp only [Bool.not_eq_false] at hcon
  by_cases hbc2 : ltGS b c = true
  · have hba : ltGS b a = true := ltGS_trans b c a hbc2 hcon
    simp [hba] at hab
  · have hbceq : b = c := ltGS_conn b c (by simpa using hbc2) hbc
    subst hbceq
    simp [hcon] at hab

/-- orphOf lists the orphan names the KnowledgeGaps loop collects, in
page-iteration order. -/
def orphOf (g : GGraph) (ps : List (GoStr × GPage)) : List GoStr :=
  ps.filterMap (fun kp =>
    if kp.2.journal = false ∧ OutDegree g kp.1 = 0 ∧ InDegree g kp.1 = 0
    then some (OriginalName g kp.1) else none)

/-- deadOf lists the dead-end names the KnowledgeGaps loop collects. -/
def deadOf (g : GGraph) (ps : List (GoStr × GPage)) : List GoStr :=
  ps.filterMap (fun kp =>
    if kp.2.journal = false ∧ OutDegree g kp.1 = 0 ∧ 0 < InDegree g kp.1
    then some (OriginalName g kp.1) else none)

/-- weakOf lists the weakly-linked stats the KnowledgeGaps loop collects. -/
def weakOf (g : GGraph) (ps : List (GoStr × GPage)) : List PageStat :=
  ps.filterMap (fun kp =>
    if kp.2.journal = false ∧ 0 < OutDegree g kp.1 ∧
        OutDegree g kp.1 + InDegree g kp.1 ≤ 2
    then some ⟨OriginalName g kp.1, OutDegree g kp.1, InDegree g kp.1,
        OutDegree g kp.1 + InDegree g kp.1, alGetN g.BlockCounts kp.1⟩
    else none)

lemma gaps_foldl_eq (g : GGraph) : ∀ (ps : List (GoStr × GPage))
    (o d : List GoStr) (w : List PageStat),
    ps.foldl (gapsStep g) (o, d, w) =
      (o ++ orphOf g ps, d ++ deadOf g ps, w ++ weakOf g ps) := by
  intro ps
  induction ps with
  | nil => intro o d w; simp [orphOf, deadOf, weakOf]
  | cons kp rest ih =>
    intro o d w
    simp only [List.foldl_cons]
    by_cases hj : kp.2.journal
    · have hstep : gapsStep g (o, d, w) kp = (o, d, w) := by
        simp [gapsStep, hj]
      rw [hstep, ih]
      simp [orphOf, deadOf, weakOf, List.filterMap_cons, hj]
    · by_cases h1 : OutDegree g kp.1 = 0 ∧ InDegree g kp.1 = 0
      · have hstep : gapsStep g (o, d, w) kp =
            (o ++ [OriginalName g kp.1], d, w) := by
          simp [gapsStep, hj, h1]
        rw [hstep, ih]
        simp only [orphOf, deadOf, weakOf, List.filterMap_cons]
        rw [if_pos ⟨by simp [hj], h1.1, h1.2⟩,
          if_neg (by intro hc; omega),
          if_neg (by intro hc; omega)]
        simp
      · by_cases h2 : OutDegree g kp.1 = 0 ∧ 0 < InDegree g kp.1
        · have hstep : gapsStep g (o, d, w) kp =
              (o, d ++ [OriginalName g kp.1], w) := by
            simp only [gapsStep, hj]
            rw [if_neg (by simp), if_neg (by intro hc; omega), if_pos h2]
          rw [hstep, ih]
          simp only [orphOf, deadOf, weakOf, List.filterMap_cons]
          rw [if_neg (by intro hc; omega),
            if_pos ⟨by simp [hj], h2.1, h2.2⟩,
            if_neg (by intro hc; omega)]
          simp
        · by_cases h3 : OutDegree g kp.1 + InDegree g kp.1 ≤ 2
          · have hod : 0 < OutDegree g kp.1 := by omega
            have hstep : gapsStep g (o, d, w) kp =
                (o, d, w ++ [⟨OriginalName g kp.1, OutDegree g kp.1,
                  InDegree g kp.1,
                  OutDegree g kp.1 + InDegree g kp.1,
                  alGetN g.BlockCounts kp.1⟩]) := by
              simp only [gapsStep, hj]
              rw [if_neg (by simp), if_neg (by intro hc; omega),
                if_neg (by intro hc; omega), if_pos h3]
            rw [hstep, ih]
            simp only [orphOf, deadOf, weakOf, List.filterMap_cons]
            rw [if_neg (by intro hc; omega),
              if_neg (by intro hc; omega),
              if_pos ⟨by simp [hj], hod, h3⟩]
            simp
          · have hstep : gapsStep g (o, d, w) kp = (o, d, w) := by
              simp only [gapsStep, hj]
              rw [if_neg (by simp), if_neg (by intro hc; omega),
                if_neg (by intro hc; omega), if_neg h3]
            rw [hstep, ih]
            simp only [orphOf, deadOf, weakOf, List.filterMap_cons]
            rw [if_neg (by intro hc; omega),
              if_neg (by intro hc; omega),
              if_neg (by intro hc; omega)]

/-- gapsCounterGraph has one non-journal page q with out-degree 0 and
in-degree 1: the code classifies it as a dead-end, never weakly-linked,
although 0 < out+in ≤ 2. -/
def gapsCounterGraph : GGraph :=
  { Forward := [(gs "a", [gs "q"]), (gs "q", [])]
    Backward := [(gs "q", [gs "a"]), (gs "a", [])]
    Pages := [(gs "a", ⟨gs "a", gs "a", false⟩), (gs "q", ⟨gs "q", gs "q", false⟩)]
    BlockCounts := [] }

/--
C3 counterexample. The claim characterizes the weakly-linked bucket as
exactly the non-journal pages with 0 < out+in ≤ 2; page q of
gapsCounterGraph satisfies that predicate yet is placed in the dead-end
bucket and is absent from the weakly-linked bucket, refuting the claimed
characterization.
-/
theorem C3_counterexample :
    (gs "q", (⟨gs "q", gs "q", false⟩ : GPage)) ∈ gapsCounterGraph.Pages ∧
    0 < TotalDegree gapsCounterGraph (gs "q") ∧
    TotalDegree gapsCounterGraph (gs "q") ≤ 2 ∧
    (gs "q") ∈ (KnowledgeGaps gapsCounterGraph).DeadEndPages ∧
    ¬ ∃ s ∈ (KnowledgeGaps gapsCounterGraph).WeaklyLinked,
        s.name = gs "q" := by decide

/--
C3 (amended). For every graph, the KnowledgeGaps buckets exclude journal
pages; orphans are exactly the non-journal pages with out-degree 0 and
in-degree 0; dead-ends exactly those with out-degree 0 and in-degree > 0;
the weakly-linked bucket is drawn exactly from the non-journal pages with
out-degree > 0 and out+in ≤ 2 (the original claim's predicate
0 < out+in ≤ 2 also matches dead-ends, which the if-else chain diverts
first), sorted ascending by total degree and truncated to 20; orphans and
dead-ends are sorted alphabetically.
-/
theorem C3_knowledgeGaps (g : GGraph) :
    ((KnowledgeGaps g).OrphanPages.Pairwise (fun a b => leGS a b = true)) ∧
    ((KnowledgeGaps g).DeadEndPages.Pairwise (fun a b => leGS a b = true)) ∧
    (∀ name, name ∈ (KnowledgeGaps g).OrphanPages ↔
      ∃ kp ∈ g.Pages, kp.2.journal = false ∧ OutDegree g kp.1 = 0 ∧
        InDegree g kp.1 = 0 ∧ name = OriginalName g kp.1) ∧
    (∀ name, name ∈ (KnowledgeGaps g).DeadEndPages ↔
      ∃ kp ∈ g.Pages, kp.2.journal = false ∧ OutDegree g kp.1 = 0 ∧
        0 < InDegree g kp.1 ∧ name = OriginalName g kp.1) ∧
    (∃ full : List PageStat,
      (∀ s, s ∈ full ↔ ∃ kp ∈ g.Pages, kp.2.journal = false ∧
        0 < OutDegree g kp.1 ∧ TotalDegree g kp.1 ≤ 2 ∧
        s = ⟨OriginalName g kp.1, OutDegree g kp.1, InDegree g kp.1,
          TotalDegree g kp.1, alGetN g.BlockCounts kp.1⟩) ∧
      full.Pairwise (fun a b => a.totalDegree ≤ b.totalDegree) ∧
      (KnowledgeGaps g).WeaklyLinked = full.take 20) := by
  have hfold := gaps_foldl_eq g g.Pages [] [] []
  have horph : (KnowledgeGaps g).OrphanPages = sortLe leGS (orphOf g g.Pages) := by
    simp [KnowledgeGaps, hfold]
  have hdead : (KnowledgeGaps g).DeadEndPages = sortLe leGS (deadOf g g.Pages) := by
    simp [KnowledgeGaps, hfold]
  have hweak : (KnowledgeGaps g).WeaklyLinked =
      (sortLe stLe (weakOf g g.Pages)).take 20 := by
    simp [KnowledgeGaps, hfold]
  refine ⟨?_, ?_, ?_, ?_, ?_⟩
  · rw [horph]
    exact pairwise_sortLe leGS leGS_total leGS_trans _
  · rw [hdead]
    exact pairwise_sortLe leGS leGS_total leGS_trans _
  · intro name
    rw [horph, mem_sortLe]
    unfold orphOf
    rw [List.mem_filterMap]
    constructor
    · rintro ⟨kp, hkp, hsome⟩
      by_cases hc : kp.2.journal = false ∧ OutDegree g kp.1 = 0 ∧ InDegree g kp.1 = 0
      · rw [if_pos hc] at hsome
        exact ⟨kp, hkp, hc.1, hc.2.1, hc.2.2, (Option.some_inj.mp hsome).symm⟩
      · rw [if_neg hc] at hsome
        exact absurd hsome (by simp)
    · rintro ⟨kp, hkp, hj, ho, hi, hn⟩
      exact ⟨kp, hkp, by rw [if_pos ⟨hj, ho, hi⟩, hn]⟩
  · intro name
    rw [hdead, mem_sortLe]
    unfold deadOf
    rw [List.mem_filterMap]
    constructor
    · rintro ⟨kp, hkp, hsome⟩
      by_cases hc : kp.2.journal = false ∧ OutDegree g kp.1 = 0 ∧ 0 < InDegree g kp.1
      · rw [if_pos hc] at hsome
        exact ⟨kp, hkp, hc.1, hc.2.1, hc.2.2, (Option.some_inj.mp hsome).symm⟩
      · rw [if_neg hc] at hsome
        exact absurd hsome (by simp)
    · rintro ⟨kp, hkp, hj, ho, hi, hn⟩
      exact ⟨kp, hkp, by rw [if_pos ⟨hj, ho, hi⟩, hn]⟩
  · refine ⟨sortLe stLe (weakOf g g.Pages), ?_, ?_, hweak⟩
    · intro s
      rw [mem_sortLe]
      unfold weakOf
      rw [List.mem_filterMap]
      constructor
      · rintro ⟨kp, hkp, hsome⟩
        by_cases hc : kp.2.journal = false ∧ 0 < OutDegree g kp.1 ∧
            OutDegree g kp.1 + InDegree g kp.1 ≤ 2
        · rw [if_pos hc] at hsome
          exact ⟨kp, hkp, hc.1, hc.2.1, hc.2.2, (Option.some_inj.mp hsome).symm⟩
        · rw [if_neg hc] at hsome
          exact absurd hsome (by simp)
      · rintro ⟨kp, hkp, hj, ho, hi, hn⟩
        refine ⟨kp, hkp, ?_⟩
        rw [if_pos ⟨hj, ho, hi⟩, hn]
        simp [TotalDegree]
    · have := pairwise_sortLe stLe
        (fun a b => by simp only [stLe, decide_eq_true_eq]; omega)
        (fun a b c hab hbc => by
          simp only [stLe, decide_eq_true_eq] at hab hbc ⊢; omega)
        (weakOf g g.Pages)
      exact this.imp (fun h => by simpa [stLe] using h)

/-! ## Topic clusters (Graph.TopicClusters and bfsComponent) -/

/-- enqueueFwd is the forward-neighbour loop of bfsComponent: lowercase
each linked name, and enqueue it when unvisited and a known page.  The
pair carries (visited, queue). -/
def enqueueFwd (g : GGraph) (nbrs : List GoStr)
    (vq : List GoStr × List GoStr) : List GoStr × List GoStr :=
  nbrs.foldl (fun vq linked =>
    let key := goToLower linked
    if key ∉ vq.1 ∧ (alGet g.Pages key).isSome
    then (key :: vq.1, vq.2 ++ [key]) else vq) vq

/-- enqueueBwd is the backward-neighbour loop of bfsComponent (keys are
already lowercase). -/
def enqueueBwd (g : GGraph) (nbrs : List GoStr)
    (vq : List GoStr × List GoStr) : List GoStr × List GoStr :=
  nbrs.foldl (fun vq linker =>
    if linker ∉ vq.1 ∧ (alGet g.Pages linker).isSome
    then (linker :: vq.1, vq.2 ++ [linker]) else vq) vq

/-- bfsComponentLoop is the queue loop of bfsComponent, fuelled: every
iteration dequeues one entry and only enqueues unvisited page keys while
marking them visited, so Pages-count + 1 fuel always suffices.  Returns
(component, visited). -/
def bfsComponentLoop (g : GGraph) :
    Nat → List GoStr → List GoStr → List GoStr → List GoStr × List GoStr
  | 0, _, visited, comp => (comp, visited)
  | _ + 1, [], visited, comp => (comp, visited)
  | fuel + 1, current :: rest, visited, comp =>
    let vq1 := enqueueFwd g (alGetL g.Forward current) (visited, rest)
    let vq2 := enqueueBwd g (alGetL g.Backward current) vq1
    bfsComponentLoop g fuel vq2.2 vq2.1 (comp ++ [current])

/-- bfsComponent mirrors Graph.bfsComponent: undirected BFS restricted
to known pages, threading the shared visited set. -/
def bfsComponent (g : GGraph) (start : GoStr) (visited : List GoStr) :
    List GoStr × List GoStr :=
  bfsComponentLoop g (g.Pages.length + 1) [start] (start :: visited) []

/-- hubOf is the hub-selection loop of TopicClusters: the member with
maximum total degree, first occurrence winning ties. -/
def hubOf (g : GGraph) (component : List GoStr) : GoStr :=
  match component with
  | [] => []
  | h :: t =>
    (t.foldl (fun (hd : GoStr × Nat) n =>
      if TotalDegree g n > hd.2 then (n, TotalDegree g n) else hd)
      (h, TotalDegree g h)).1

/-- clusterStep is the body of the TopicClusters page loop; acc carries
(visited, clusters, next id).  The page entry value kp.2 stands for the
map lookup g.Pages[key] of the Go source. -/
def clusterStep (g : GGraph) (acc : List GoStr × List Cluster × Nat)
    (kp : GoStr × GPage) : List GoStr × List Cluster × Nat :=
  let (visited, clusters, cid) := acc
  if kp.1 ∈ visited then acc
  else if kp.2.journal then (kp.1 :: visited, clusters, cid)
  else
    let cv := bfsComponent g kp.1 visited
    if cv.1.length < 2 then (cv.2, clusters, cid)
    else
      (cv.2,
        clusters ++ [⟨cid, cv.1.length, sortLe leGS (cv.1.map (OriginalName g)),
          OriginalName g (hubOf g cv.1)⟩],
        cid + 1)

/-- TopicClusters mirrors Graph.TopicClusters: connected components of
the undirected graph, skipping visited and journal start pages, sorted
by size descending. -/
def TopicClusters (g : GGraph) : List Cluster :=
  let acc := g.Pages.foldl (clusterStep g) ([], [], 0)
  sortLe (fun a b => decide (b.Size ≤ a.Size)) acc.2.1

/-- clusterBugGraph: non-journal page a links to journal page j; the
page loop reaches a before j, so the BFS absorbs the not-yet-skipped
journal page into a's component. -/
def clusterBugGraph : GGraph :=
  { Forward := [(gs "a", [gs "j"]), (gs "j", [])]
    Backward := [(gs "j", [gs "a"]), (gs "a", [])]
    Pages := [(gs "a", ⟨gs "a", gs "a", false⟩), (gs "j", ⟨gs "j", gs "j", true⟩)]
    BlockCounts := [] }

/--
C4 (code bug). TopicClusters is meant to exclude journal pages (the
loop marks them visited and skips them, and TestTopicClusters_SkipsJournals
asserts the exclusion), but the skip happens lazily in map-iteration
order: when a component BFS reaches a journal page before the outer
loop does, the journal page is returned as a cluster member.  On
clusterBugGraph, with iteration order [a, j], the journal page j appears
in the returned cluster.
-/
theorem C4_journal_in_cluster :
    ((gs "j", (⟨gs "j", gs "j", true⟩ : GPage)) ∈ clusterBugGraph.Pages) ∧
    (∃ c ∈ TopicClusters clusterBugGraph, (gs "j") ∈ c.Pages) := by decide

/-! ## Blocks and the content parser (types.BlockEntity, parser package) -/

mutual

/-- BlockE mirrors types.BlockEntity restricted to the fields the core
reads: identifier, content, children.  The child list is its own
inductive so that mutual structural recursion stays executable. -/
inductive BlockE where
  | mk (uuid : GoStr) (content : GoStr) (children : BlockList)

/-- BlockList is a list of blocks ([]types.BlockEntity). -/
inductive BlockList where
  | nil
  | cons (b : BlockE) (tail : BlockList)

end

/-- uuid projects a block's identifier. -/
def BlockE.uuid : BlockE → GoStr
  | .mk u _ _ => u

/-- content projects a block's content. -/
def BlockE.content : BlockE → GoStr
  | .mk _ c _ => c

/-- children projects a block's child list. -/
def BlockE.children : BlockE → BlockList
  | .mk _ _ ch => ch

/-- snoc appends a block at the end of a block list (Go append). -/
def BlockList.snoc : BlockList → BlockE → BlockList
  | .nil, b => .cons b .nil
  | .cons x t, b => .cons x (t.snoc b)

mutual

/-- allBlocks flattens a block list to (uuid, content) pairs in
depth-first pre-order. -/
def allBlocks : BlockList → List (GoStr × GoStr)
  | .nil => []
  | .cons b l => allBlocksB b ++ allBlocks l

/-- allBlocksB flattens one block to (uuid, content) pairs. -/
def allBlocksB : BlockE → List (GoStr × GoStr)
  | .mk u c ch => (u, c) :: allBlocks ch

end

/-- dedupe keeps the first occurrence of each element (the seen-map
pattern of the Go extractors). -/
def dedupe (l : List GoStr) : List GoStr :=
  l.foldl (fun acc x => if x ∈ acc then acc else acc ++ [x]) []

/-- scanLinksF is the fuelled scanner for the link regex
\[\[([^\]]+)\]\]: every step shortens the input, so input-length fuel
suffices; the wrapper scanLinks supplies it. -/
def scanLinksF : Nat → GoStr → List GoStr
  | 0, _ => []
  | fuel + 1, s =>
    match s with
    | [] => []
    | '[' :: '[' :: rest =>
      let inner := rest.takeWhile (· ≠ ']')
      let after := rest.drop inner.length
      if inner ≠ [] ∧ hasPre after (gs "]]") then
        inner :: scanLinksF fuel (after.drop 2)
      else scanLinksF fuel ('[' :: rest)
    | _ :: rest => scanLinksF fuel rest

/-- scanLinks lists every match of the link regex left to right,
non-overlapping, duplicates kept. -/
def scanLinks (s : GoStr) : List GoStr := scanLinksF s.length s

/-- extractLinks mirrors parser.extractLinks. -/
def extractLinks (content : GoStr) : List GoStr :=
  dedupe (scanLinks content)

/-- tagChar is the character class [a-zA-Z0-9_-] of the tag regex. -/
def tagChar (c : Char) : Bool :=
  ('a' ≤ c ∧ c ≤ 'z') ∨ ('A' ≤ c ∧ c ≤ 'Z') ∨ ('0' ≤ c ∧ c ≤ '9') ∨
  c = '_' ∨ c = '-'

/-- reSp is the regexp \s class [\t\n\f\r ]. -/
def reSp (c : Char) : Bool :=
  c = ' ' ∨ c = '\t' ∨ c = '\n' ∨ c = '\r' ∨ c.toNat = 12

/-- scanTagsF is the fuelled scanner for (?:^|\s)#([a-zA-Z0-9_-]+); the
flag records whether the current position may start a match (start of
string or after \s). -/
def scanTagsF : Nat → Bool → GoStr → List GoStr
  | 0, _, _ => []
  | fuel + 1, ok, s =>
    match s with
    | [] => []
    | '#' :: rest =>
      if ok then
        let name := rest.takeWhile tagChar
        if name ≠ [] then name :: scanTagsF fuel false (rest.drop name.length)
        else scanTagsF fuel false rest
      else scanTagsF fuel false rest
    | c :: rest => scanTagsF fuel (reSp c) rest

/-- scanTags lists every match of the simple-tag regex. -/
def scanTags (s : GoStr) : List GoStr := scanTagsF s.length true s

/-- scanBracketTagsF is the fuelled scanner for #\[\[([^\]]+)\]\]. -/
def scanBracketTagsF : Nat → GoStr → List GoStr
  | 0, _ => []
  | fuel + 1, s =>
    match s with
    | [] => []
    | '#' :: '[' :: '[' :: rest =>
      let inner := rest.takeWhile (· ≠ ']')
      let after := rest.drop inner.length
      if inner ≠ [] ∧ hasPre after (gs "]]") then
        inner :: scanBracketTagsF fuel (after.drop 2)
      else scanBracketTagsF fuel ('[' :: '[' :: rest)
    | _ :: rest => scanBracketTagsF fuel rest

/-- scanBracketTags lists every match of the bracket-tag regex. -/
def scanBracketTags (s : GoStr) : List GoStr := scanBracketTagsF s.length s

/-- extractTags mirrors parser.extractTags: simple tags then bracket
tags, first occurrence kept. -/
def extractTags (content : GoStr) : List GoStr :=
  dedupe (scanTags content ++ scanBracketTags content)

example : extractLinks (gs "Link to [[Target]]") = [gs "Target"] := by decide
example : extractLinks (gs "[[A]] and [[B]] and [[A]]") = [gs "A", gs "B"] := by
  decide
example : extractTags (gs "#foo bar #foo #[[multi word]]") =
    [gs "foo", gs "multi word"] := by decide
example : extractTags (gs "a#tag ##x") = [] := by decide

/-! ## Inverted full-text index (vault/search_index.go) -/

/-- replaceAllF is fuelled strings.ReplaceAll for a non-empty pattern;
one fuel unit per input rune suffices. -/
def replaceAllF (pat rep : GoStr) : Nat → GoStr → GoStr
  | 0, s => s
  | fuel + 1, s =>
    match s with
    | [] => []
    | c :: rest =>
      if pat ≠ [] ∧ pat.isPrefixOf (c :: rest) then
        rep ++ replaceAllF pat rep fuel ((c :: rest).drop pat.length)
      else c :: replaceAllF pat rep fuel rest

/-- replaceAll mirrors strings.ReplaceAll for a non-empty pattern. -/
def replaceAll (pat rep : GoStr) (s : GoStr) : GoStr :=
  replaceAllF pat rep s.length s

/-- isWordChar mirrors vault.isWordChar (text is lowercased first, so
only a-z appears). -/
def isWordChar (r : Char) : Bool :=
  ('a' ≤ r ∧ r ≤ 'z') ∨ ('0' ≤ r ∧ r ≤ '9') ∨ r = '-' ∨ r = '_' ∨
  r.toNat > 127

/-- fieldsFuel is fuelled strings.FieldsFunc: maximal runs of
non-separators, empties dropped. -/
def fieldsFuel (sep : Char → Bool) : Nat → GoStr → List GoStr
  | 0, _ => []
  | fuel + 1, s =>
    match s with
    | [] => []
    | c :: rest =>
      if sep c then fieldsFuel sep fuel rest
      else
        let w := (c :: rest).takeWhile (fun x => ¬ sep x)
        w :: fieldsFuel sep fuel ((c :: rest).drop w.length)

/-- fieldsF mirrors strings.FieldsFunc with separator predicate sep. -/
def fieldsF (sep : Char → Bool) (s : GoStr) : List GoStr :=
  fieldsFuel sep s.length s

/-- utf8Len is Go's len() on a string: the UTF-8 byte count. -/
def utf8Len (s : GoStr) : Nat :=
  (s.map Char.utf8Size).sum

/-- tokenize mirrors vault.tokenize: strip markdown syntax, lowercase,
split on non-word runes, keep terms of at least two bytes. -/
def tokenize (text : GoStr) : List GoStr :=
  let t := replaceAll (gs "[[") (gs " ") text
  let t := replaceAll (gs "]]") (gs " ") t
  let t := replaceAll (gs "((") (gs " ") t
  let t := replaceAll (gs "))") (gs " ") t
  let t := replaceAll (gs "#") (gs " ") t
  let t := replaceAll (gs "::") (gs " ") t
  let t := replaceAll (gs "**") (gs " ") t
  let t := replaceAll (gs "__") (gs " ") t
  let t := replaceAll [Char.ofNat 96] (gs " ") t
  let t := goToLower t
  let words := fieldsF (fun r => ¬ isWordChar r) t
  words.filter (fun w => 2 ≤ utf8Len w)

example : tokenize (gs "Hello world this is a test") =
    [gs "hello", gs "world", gs "this", gs "is", gs "test"] := by decide
example : tokenize (gs "[[GraphQL]] and #tags") =
    [gs "graphql", gs "and", gs "tags"] := by decide

/-- BRef mirrors vault.blockRef. -/
structure BRef where
  pageName : GoStr
  uuid : GoStr
  content : GoStr
deriving DecidableEq

/-- SearchResult mirrors vault.SearchResult. -/
structure SearchResult where
  PageName : GoStr
  UUID : GoStr
  Content : GoStr
deriving DecidableEq

/-- SIndex mirrors vault.SearchIndex: term → posting list, and
page → term set (the set as a first-insertion-ordered list). -/
structure SIndex where
  index : List (GoStr × List BRef)
  pageTerms : List (GoStr × List GoStr)
deriving DecidableEq

/-- alRefs is si.index[t] (missing term yields the empty list). -/
def alRefs (idx : List (GoStr × List BRef)) (t : GoStr) : List BRef :=
  (alGet idx t).getD []

/-- alPut writes m[k] = v (in place when present, appended otherwise). -/
def alPut {β : Type} (m : List (GoStr × β)) (k : GoStr) (v : β) :
    List (GoStr × β) :=
  if (alGet m k).isSome then
    m.map (fun e => if e.1 = k then (e.1, v) else e)
  else m ++ [(k, v)]

/-- alDelete mirrors Go's delete(m, k). -/
def alDelete {β : Type} (m : List (GoStr × β)) (k : GoStr) :
    List (GoStr × β) :=
  m.filter (fun e => ¬ e.1 = k)

/-- setAdd models insertion into a Go map used as a set. -/
def setAdd (s : List GoStr) (x : GoStr) : List GoStr :=
  if x ∈ s then s else s ++ [x]

/-- YVal models a yaml.Unmarshal value as far as the vault inspects it
(strings, lists, anything else). -/
inductive YVal where
  | str (v : GoStr)
  | list (vs : List YVal)
  | other

/-- PageEnt carries the PageEntity fields the vault core reads. -/
structure PageEnt where
  name : GoStr
  originalName : GoStr
  journal : Bool

/-- CPage mirrors vault.cachedPage (frontmatter properties pulled out of
the entity). -/
structure CPage where
  entity : PageEnt
  properties : Option (List (GoStr × YVal))
  lowerName : GoStr
  filePath : GoStr
  blocks : BlockList

mutual

/-- indexBlocksSI is SearchIndex.indexBlocksLocked over a block list;
the state carries (term → postings, page term set). -/
def indexBlocksSI (pageName : GoStr) :
    BlockList → (List (GoStr × List BRef) × List GoStr) →
    (List (GoStr × List BRef) × List GoStr)
  | .nil, st => st
  | .cons b rest, st => indexBlocksSI pageName rest (indexBlockSI pageName b st)

/-- indexBlockSI indexes one block's deduplicated terms, then its
children. -/
def indexBlockSI (pageName : GoStr) :
    BlockE → (List (GoStr × List BRef) × List GoStr) →
    (List (GoStr × List BRef) × List GoStr)
  | .mk u c ch, st =>
    let blockTerms := tokenize c ++
      (extractLinks c).flatMap tokenize ++
      (extractTags c).flatMap tokenize
    let ref : BRef := ⟨pageName, u, c⟩
    let r := blockTerms.foldl
      (fun (acc : List (GoStr × List BRef) × List GoStr × List GoStr) term =>
        if term ∈ acc.2.2 then acc
        else (alPut acc.1 term (alRefs acc.1 term ++ [ref]),
          setAdd acc.2.1 term, acc.2.2 ++ [term]))
      (st.1, st.2, [])
    indexBlocksSI pageName ch (r.1, r.2.1)

end

/-- indexPageSI mirrors SearchIndex.indexPageLocked. -/
def indexPageSI (si : SIndex) (page : CPage) : SIndex :=
  let r := indexBlocksSI page.entity.originalName page.blocks (si.index, [])
  ⟨r.1, alPut si.pageTerms page.lowerName r.2⟩

/-- BuildFrom mirrors SearchIndex.BuildFrom: reset, then index each
page once (alias duplicates skipped via lowerName). -/
def BuildFrom (pages : List (GoStr × CPage)) : SIndex :=
  (pages.foldl (fun (acc : SIndex × List GoStr) kv =>
    if kv.2.lowerName ∈ acc.2 then acc
    else (indexPageSI acc.1 kv.2, acc.2 ++ [kv.2.lowerName]))
    (⟨[], []⟩, [])).1

/-- removeTermStep is one iteration of removePageLocked's term loop:
drop the page's postings under the term, deleting the term when its
posting list empties. -/
def removeTermStep (lowerName : GoStr) (idx : List (GoStr × List BRef))
    (term : GoStr) : List (GoStr × List BRef) :=
  let refs := alRefs idx term
  let filtered := refs.filter (fun ref => ¬ goToLower ref.pageName = lowerName)
  if filtered = [] then alDelete idx term else alPut idx term filtered

/-- removePageSI mirrors SearchIndex.removePageLocked. -/
def removePageSI (si : SIndex) (lowerName : GoStr) : SIndex :=
  match alGet si.pageTerms lowerName with
  | none => si
  | some terms =>
    ⟨terms.foldl (removeTermStep lowerName) si.index,
      alDelete si.pageTerms lowerName⟩

/-- rarestStep is one iteration of the rarest-term selection; none
stands for Go's maxInt sentinel. -/
def rarestStep (idx : List (GoStr × List BRef)) (acc : Option (GoStr × Nat))
    (t : GoStr) : Option (GoStr × Nat) :=
  let c := (alRefs idx t).length
  match acc with
  | none => some (t, c)
  | some (r, rc) => if c < rc then some (t, c) else some (r, rc)

/-- pickRarest is the rarest-term selection loop of Search. -/
def pickRarest (idx : List (GoStr × List BRef)) (terms : List GoStr) :
    Option (GoStr × Nat) :=
  terms.foldl (rarestStep idx) none

/-- collectHits is the candidate filter loop of Search: keep candidates
whose uuid appears in every other term's uuid set, stopping at lim. -/
def collectHits (otherSets : List (List GoStr)) (lim : Nat) :
    List BRef → List SearchResult → List SearchResult
  | [], acc => acc
  | ref :: rest, acc =>
    if otherSets.all (fun s => decide (ref.uuid ∈ s)) then
      let acc2 := acc ++ [⟨ref.pageName, ref.uuid, ref.content⟩]
      if lim ≤ acc2.length then acc2 else collectHits otherSets lim rest acc2
    else collectHits otherSets lim rest acc

/-- searchSI mirrors SearchIndex.Search (AND semantics over the
inverted index, rarest-first, capped at the limit). -/
def searchSI (si : SIndex) (query : GoStr) (limit : Int) :
    List SearchResult :=
  let terms := tokenize query
  if terms = [] then []
  else
    let lim : Nat := if limit ≤ 0 then 20 else limit.toNat
    match pickRarest si.index terms with
    | none => []
    | some rc =>
      let candidates := alRefs si.index rc.1
      if candidates = [] then []
      else
        let otherSets := (terms.filter (fun t => ¬ t = rc.1)).map
          (fun t => (alRefs si.index t).map (·.uuid))
        collectHits otherSets lim candidates []

/-- scenarioPages holds the two spec-scenario blocks, one per page. -/
def scenarioPages : List (GoStr × CPage) :=
  [(gs "page one",
    ⟨⟨gs "Page One", gs "Page One", false⟩, none, gs "page one",
      gs "Page One.md",
      .cons (.mk (gs "u1") (gs "Hello world this is a test") .nil) .nil⟩),
   (gs "page two",
    ⟨⟨gs "Page Two", gs "Page Two", false⟩, none, gs "page two",
      gs "Page Two.md",
      .cons (.mk (gs "u2") (gs "Hello from the second page") .nil) .nil⟩)]

example : (searchSI (BuildFrom scenarioPages) (gs "hello world") 20).map
    (·.UUID) = [gs "u1"] := by decide

lemma collectHits_sound (sets : List (List GoStr)) (lim : Nat) :
    ∀ (refs : List BRef) (acc : List SearchResult) (r : SearchResult),
    r ∈ collectHits sets lim refs acc →
    r ∈ acc ∨ ∃ ref ∈ refs, r = ⟨ref.pageName, ref.uuid, ref.content⟩ ∧
      ∀ s ∈ sets, ref.uuid ∈ s := by
  intro refs
  induction refs with
  | nil =>
    intro acc r h
    left
    simpa [collectHits] using h
  | cons ref rest ih =>
    intro acc r h
    rw [collectHits] at h
    by_cases hall : sets.all (fun s => decide (ref.uuid ∈ s)) = true
    · rw [if_pos hall] at h
      have hsets : ∀ s ∈ sets, ref.uuid ∈ s := by
        intro s hs
        have := List.all_eq_true.mp hall s hs
        simpa using this
      by_cases hlim : lim ≤
        (acc ++ [(⟨ref.pageName, ref.uuid, ref.content⟩ : SearchResult)]).length
      · rw [if_pos hlim] at h
        rcases List.mem_append.mp h with h | h
        · exact Or.inl h
        · right
          refine ⟨ref, List.mem_cons_self _ _, ?_, hsets⟩
          simpa using h
      · rw [if_neg hlim] at h
        rcases ih _ r h with h2 | ⟨ref2, hm, he, hs⟩
        · rcases List.mem_append.mp h2 with h3 | h3
          · exact Or.inl h3
          · right
            refine ⟨ref, List.mem_cons_self _ _, ?_, hsets⟩
            simpa using h3
        · exact Or.inr ⟨ref2, List.mem_cons_of_mem _ hm, he, hs⟩
    · rw [if_neg hall] at h
      rcases ih _ r h with h2 | ⟨ref2, hm, he, hs⟩
      · exact Or.inl h2
      · exact Or.inr ⟨ref2, List.mem_cons_of_mem _ hm, he, hs⟩

lemma collectHits_len (sets : List (List GoStr)) (lim : Nat) :
    ∀ (refs : List BRef) (acc : List SearchResult), acc.length < lim →
    (collectHits sets lim refs acc).length ≤ lim := by
  intro refs
  induction refs with
  | nil =>
    intro acc hacc
    rw [collectHits]
    omega
  | cons ref rest ih =>
    intro acc hacc
    rw [collectHits]
    by_cases hall : sets.all (fun s => decide (ref.uuid ∈ s)) = true
    · rw [if_pos hall]
      by_cases hlim : lim ≤
        (acc ++ [(⟨ref.pageName, ref.uuid, ref.content⟩ : SearchResult)]).length
      · rw [if_pos hlim]
        simp only [List.length_append, List.length_cons, List.length_nil]
        omega
      · rw [if_neg hlim]
        apply ih
        simp only [List.length_append, List.length_cons, List.length_nil] at hlim ⊢
        omega
    · rw [if_neg hall]
      exact ih acc hacc

lemma rarest_foldl_isSome (idx : List (GoStr × List BRef)) :
    ∀ (terms : List GoStr) (acc : Option (GoStr × Nat)),
    acc.isSome ∨ terms ≠ [] → (terms.foldl (rarestStep idx) acc).isSome := by
  intro terms
  induction terms with
  | nil =>
    intro acc h
    rcases h with h | h
    · simpa using h
    · simp at h
  | cons t ts ih =>
    intro acc _
    rw [List.foldl_cons]
    apply ih
    left
    rcases acc with _ | ⟨r, rc⟩
    · simp [rarestStep]
    · by_cases hc : (alRefs idx t).length < rc <;> simp [rarestStep, hc]

lemma rarest_foldl_spec (idx : List (GoStr × List BRef)) :
    ∀ (terms : List GoStr) (acc : Option (GoStr × Nat)),
    (∀ p, acc = some p → p.2 = (alRefs idx p.1).length) →
    ∀ q, terms.foldl (rarestStep idx) acc = some q →
      q.2 = (alRefs idx q.1).length ∧
      (∀ t ∈ terms, q.2 ≤ (alRefs idx t).length) ∧
      (∀ p, acc = some p → q.2 ≤ p.2) := by
  intro terms
  induction terms with
  | nil =>
    intro acc hacc q hq
    simp only [List.foldl_nil] at hq
    refine ⟨hacc q hq, by simp, ?_⟩
    intro p hp
    rw [hp] at hq
    simp at hq
    rw [hq]
  | cons t ts ih =>
    intro acc hacc q hq
    rw [List.foldl_cons] at hq
    have hacc2 : ∀ p, rarestStep idx acc t = some p →
        p.2 = (alRefs idx p.1).length := by
      intro p hp
      rcases acc with _ | ⟨r, rc⟩
      · have hp' : some (t, (alRefs idx t).length) = some p := hp
        obtain rfl := Option.some_inj.mp hp'
        rfl
      · have hp' : (if (alRefs idx t).length < rc then
            some (t, (alRefs idx t).length) else some (r, rc)) = some p := hp
        by_cases hc : (alRefs idx t).length < rc
        · rw [if_pos hc] at hp'
          obtain rfl := Option.some_inj.mp hp'
          rfl
        · rw [if_neg hc] at hp'
          obtain rfl := Option.some_inj.mp hp'
          exact hacc (r, rc) rfl
    rcases ih (rarestStep idx acc t) hacc2 q hq with ⟨h1, h2, h3⟩
    refine ⟨h1, ?_, ?_⟩
    · intro u hu
      rcases List.mem_cons.mp hu with hu | hu
      · subst hu
        rcases acc with _ | ⟨r, rc⟩
        · exact h3 (u, (alRefs idx u).length) rfl
        · by_cases hc : (alRefs idx u).length < rc
          · exact h3 (u, (alRefs idx u).length)
              (show (if (alRefs idx u).length < rc then
                some (u, (alRefs idx u).length) else some (r, rc)) = _ from
                if_pos hc)
          · have := h3 (r, rc)
              (show (if (alRefs idx u).length < rc then
                some (u, (alRefs idx u).length) else some (r, rc)) = _ from
                if_neg hc)
            omega
      · exact h2 u hu
    · rintro ⟨a, b⟩ rfl
      by_cases hc : (alRefs idx t).length < b
      · have := h3 (t, (alRefs idx t).length)
          (show (if (alRefs idx t).length < b then
            some (t, (alRefs idx t).length) else some (a, b)) = _ from
            if_pos hc)
        omega
      · exact h3 (a, b)
          (show (if (alRefs idx t).length < b then
            some (t, (alRefs idx t).length) else some (a, b)) = _ from
            if_neg hc)

/--
C5. Search over the inverted index has AND semantics: every returned
result's uuid appears in the posting list of every tokenized query term;
at most limit results are returned; a query containing a term with an
empty posting list returns nothing; and on the spec scenario (one block
"Hello world this is a test", another "Hello from the second page")
searching "hello world" returns exactly the first block's UUID.
-/
theorem C5_search_and_semantics (si : SIndex) (query : GoStr) (limit : Int)
    (hpos : 0 < limit) :
    ((searchSI si query limit).length ≤ limit.toNat) ∧
    (∀ r ∈ searchSI si query limit, ∀ t ∈ tokenize query,
      ∃ ref ∈ alRefs si.index t, ref.uuid = r.UUID) ∧
    ((∃ t ∈ tokenize query, alRefs si.index t = []) →
      searchSI si query limit = []) ∧
    ((searchSI (BuildFrom scenarioPages) (gs "hello world") 20).map
      (·.UUID) = [gs "u1"]) := by
  have hlim : (if limit ≤ 0 then (20 : Nat) else limit.toNat) = limit.toNat := by
    rw [if_neg (by omega)]
  by_cases hterms : tokenize query = []
  · have hempty : searchSI si query limit = [] := by
      unfold searchSI
      rw [if_pos hterms]
    refine ⟨by simp [hempty], by simp [hempty], fun _ => hempty, by decide⟩
  · obtain ⟨rc, hrc⟩ : ∃ rc, pickRarest si.index (tokenize query) = some rc := by
      have := rarest_foldl_isSome si.index (tokenize query) none (Or.inr hterms)
      exact Option.isSome_iff_exists.mp this
    have hmin := rarest_foldl_spec si.index (tokenize query) none
      (by intro p hp; simp at hp) rc hrc
    by_cases hcand : alRefs si.index rc.1 = []
    · have hempty : searchSI si query limit = [] := by
        unfold searchSI
        rw [if_neg hterms, hrc]
        simp only
        rw [hcand]
        simp
      refine ⟨by simp [hempty], by simp [hempty], fun _ => hempty, by decide⟩
    · have heq : searchSI si query limit =
          collectHits
            (((tokenize query).filter (fun t => ¬ t = rc.1)).map
              (fun t => (alRefs si.index t).map (·.uuid)))
            limit.toNat (alRefs si.index rc.1) [] := by
        unfold searchSI
        rw [if_neg hterms, hrc]
        simp only
        rw [if_neg hcand, hlim]
      have hlim1 : 1 ≤ limit.toNat := by omega
      refine ⟨?_, ?_, ?_, by decide⟩
      · rw [heq]
        exact collectHits_len _ _ _ []
          (by simp only [List.length_nil]; omega)
      · intro r hr t ht
        rw [heq] at hr
        rcases collectHits_sound _ _ _ _ _ hr with h | ⟨ref, hm, he, hs⟩
        · simp at h
        · by_cases hteq : t = rc.1
          · subst hteq
            exact ⟨ref, hm, by rw [he]⟩
          · have hsett : (alRefs si.index t).map (·.uuid) ∈
                ((tokenize query).filter (fun u => ¬ u = rc.1)).map
                  (fun u => (alRefs si.index u).map (·.uuid)) := by
              apply List.mem_map_of_mem
              rw [List.mem_filter]
              exact ⟨ht, by simpa using hteq⟩
            have := hs _ hsett
            rcases List.mem_map.mp this with ⟨ref2, hm2, he2⟩
            exact ⟨ref2, hm2, by rw [he2, he]⟩
      · rintro ⟨t, ht, hemp⟩
        exfalso
        have := hmin.2.1 t ht
        rw [hemp] at this
        simp at this
        have h1 := hmin.1
        rw [this] at h1
        have : alRefs si.index rc.1 = [] := List.length_eq_zero.mp h1.symm
        exact hcand this

/-- Witness for C5 at the scenario index, query "hello world", limit 20. -/
theorem C5_search_and_semantics_witness :
    (0 : Int) < 20 ∧
    ((searchSI (BuildFrom scenarioPages) (gs "hello world") 20).length ≤
      (20 : Int).toNat) :=
  ⟨by decide,
    (C5_search_and_semantics (BuildFrom scenarioPages) (gs "hello world") 20
      (by decide)).1⟩

/-! Association-list lemmas for the index operations. -/

lemma alGet_alPut_self {β : Type} (m : List (GoStr × β)) (k : GoStr) (v : β) :
    alGet (alPut m k v) k = some v := by
  unfold alPut
  by_cases h : (alGet m k).isSome
  · rw [if_pos h]
    unfold alGet at h ⊢
    induction m with
    | nil => simp at h
    | cons e rest ih =>
      by_cases he : e.1 = k
      · simp [List.find?_cons, he]
      · simp only [List.map_cons, if_neg he]
        rw [List.find?_cons_of_neg _ (by simpa using he)]
        rw [List.find?_cons_of_neg _ (by simpa using he)] at h
        exact ih h
  · rw [if_neg h]
    unfold alGet at h ⊢
    induction m with
    | nil => simp
    | cons e rest ih =>
      by_cases he : e.1 = k
      · exfalso
        apply h
        rw [List.find?_cons_of_pos _ (by simpa using he)]
        simp
      · rw [List.cons_append, List.find?_cons_of_neg _ (by simpa using he)]
        rw [List.find?_cons_of_neg _ (by simpa using he)] at h
        exact ih h

lemma alGet_alPut_other {β : Type} (m : List (GoStr × β)) (k k' : GoStr)
    (v : β) (hne : k' ≠ k) : alGet (alPut m k v) k' = alGet m k' := by
  unfold alPut
  by_cases h : (alGet m k).isSome
  · rw [if_pos h]
    clear h
    unfold alGet
    induction m with
    | nil => simp
    | cons e rest ih =>
      by_cases he : e.1 = k'
      · have hek : ¬ e.1 = k := by
          rw [he]
          exact hne
        rw [List.find?_cons_of_pos _ (by simpa using he)]
        simp only [List.map_cons, if_neg hek]
        rw [List.find?_cons_of_pos _ (by simpa using he)]
      · rw [List.find?_cons_of_neg _ (by simpa using he)]
        simp only [List.map_cons]
        have hkey : (if e.1 = k then (e.1, v) else e).1 = e.1 := by
          by_cases hek : e.1 = k <;> simp [hek]
        rw [List.find?_cons_of_neg _ (by
          simp only [decide_eq_true_eq, hkey]
          exact he)]
        exact ih
  · rw [if_neg h]
    unfold alGet
    rw [List.find?_append]
    have hsingle : List.find? (fun e => decide (e.1 = k')) [(k, v)] = none := by
      rw [List.find?_cons_of_neg _ (by simpa using Ne.symm hne)]
      rfl
    cases hf : List.find? (fun e => decide (e.1 = k')) m with
    | none => simp [hsingle]
    | some e => simp

lemma alGet_alDelete_self {β : Type} (m : List (GoStr × β)) (k : GoStr) :
    alGet (alDelete m k) k = none := by
  unfold alDelete alGet
  induction m with
  | nil => simp
  | cons e rest ih =>
    by_cases he : e.1 = k
    · simp only [List.filter_cons]
      rw [if_neg (by simp [he])]
      exact ih
    · simp only [List.filter_cons]
      rw [if_pos (by simpa using he)]
      rw [List.find?_cons_of_neg _ (by simpa using he)]
      exact ih

lemma alGet_alDelete_other {β : Type} (m : List (GoStr × β)) (k k' : GoStr)
    (hne : k' ≠ k) : alGet (alDelete m k) k' = alGet m k' := by
  unfold alDelete alGet
  induction m with
  | nil => simp
  | cons e rest ih =>
    by_cases he : e.1 = k
    · simp only [List.filter_cons]
      rw [if_neg (by simp [he])]
      rw [List.find?_cons_of_neg _ (by
        simp only [decide_eq_true_eq]
        rw [he]
        exact Ne.symm hne)]
      exact ih
    · simp only [List.filter_cons]
      rw [if_pos (by simpa using he)]
      by_cases he' : e.1 = k'
      · rw [List.find?_cons_of_pos _ (by simpa using he'),
          List.find?_cons_of_pos _ (by simpa using he')]
      · rw [List.find?_cons_of_neg _ (by simpa using he'),
          List.find?_cons_of_neg _ (by simpa using he')]
        exact ih

lemma alGet_mem {β : Type} (m : List (GoStr × β)) (k : GoStr) (v : β)
    (h : alGet m k = some v) : (k, v) ∈ m := by
  unfold alGet at h
  induction m with
  | nil => simp at h
  | cons e rest ih =>
    by_cases he : e.1 = k
    · rw [List.find?_cons_of_pos _ (by simpa using he)] at h
      simp only [Option.map_some'] at h
      rcases e with ⟨k0, v0⟩
      simp only at he h
      have hv : v0 = v := Option.some_inj.mp h
      exact List.mem_cons.mpr (Or.inl (by rw [← he, hv]))
    · rw [List.find?_cons_of_neg _ (by simpa using he)] at h
      exact List.mem_cons_of_mem _ (ih h)

lemma filter_idem {α : Type} (p : α → Bool) (l : List α) :
    (l.filter p).filter p = l.filter p := by
  induction l with
  | nil => rfl
  | cons x xs ih =>
    by_cases h : p x
    · simp [List.filter_cons, h, ih]
    · simp [List.filter_cons, h, ih]

/-- removeExpected is what a processed term's posting entry becomes. -/
def removeExpected (p : GoStr) (idx : List (GoStr × List BRef))
    (term : GoStr) : Option (List BRef) :=
  match alGet idx term with
  | none => none
  | some refs =>
    let f := refs.filter (fun ref => ¬ goToLower ref.pageName = p)
    if f = [] then none else some f

lemma removeTermStep_get_self (p : GoStr) (idx : List (GoStr × List BRef))
    (t : GoStr) :
    alGet (removeTermStep p idx t) t = removeExpected p idx t := by
  unfold removeTermStep removeExpected alRefs
  cases hg : alGet idx t with
  | none =>
    simp only [hg, Option.getD_none, List.filter_nil, if_pos rfl]
    exact alGet_alDelete_self idx t
  | some refs =>
    simp only [hg, Option.getD_some]
    by_cases hf : refs.filter (fun ref => ¬ goToLower ref.pageName = p) = []
    · rw [if_pos hf, if_pos hf]
      exact alGet_alDelete_self idx t
    · rw [if_neg hf, if_neg hf]
      exact alGet_alPut_self idx t _

lemma removeTermStep_get_other (p : GoStr) (idx : List (GoStr × List BRef))
    (t term : GoStr) (hne : term ≠ t) :
    alGet (removeTermStep p idx t) term = alGet idx term := by
  unfold removeTermStep
  by_cases hf : (alRefs idx t).filter (fun ref => ¬ goToLower ref.pageName = p) = []
  · rw [if_pos hf]
    exact alGet_alDelete_other idx t term hne
  · rw [if_neg hf]
    exact alGet_alPut_other idx t term _ hne

lemma removeExpected_stable (p : GoStr) (idx : List (GoStr × List BRef))
    (t : GoStr) :
    removeExpected p (removeTermStep p idx t) t = removeExpected p idx t := by
  cases hg : alGet idx t with
  | none =>
    have h : alGet (removeTermStep p idx t) t = none := by
      rw [removeTermStep_get_self]
      unfold removeExpected
      rw [hg]
    unfold removeExpected
    rw [h, hg]
  | some refs =>
    by_cases hf : refs.filter (fun ref => ¬ goToLower ref.pageName = p) = []
    · have h : alGet (removeTermStep p idx t) t = none := by
        rw [removeTermStep_get_self]
        unfold removeExpected
        rw [hg]
        simp only
        rw [if_pos hf]
      unfold removeExpected
      rw [h, hg]
      simp only
      rw [if_pos hf]
    · have h : alGet (removeTermStep p idx t) t =
          some (refs.filter (fun ref => ¬ goToLower ref.pageName = p)) := by
        rw [removeTermStep_get_self]
        unfold removeExpected
        rw [hg]
        simp only
        rw [if_neg hf]
      unfold removeExpected
      rw [h, hg]
      simp only [filter_idem]

lemma remove_fold_get (p : GoStr) :
    ∀ (pterms : List GoStr) (idx : List (GoStr × List BRef)) (term : GoStr),
    alGet (pterms.foldl (removeTermStep p) idx) term =
      if term ∈ pterms then removeExpected p idx term else alGet idx term := by
  intro pterms
  induction pterms with
  | nil => intro idx term; simp
  | cons t rest ih =>
    intro idx term
    rw [List.foldl_cons, ih]
    by_cases hmem : term ∈ rest
    · rw [if_pos hmem, if_pos (List.mem_cons_of_mem _ hmem)]
      by_cases hte : term = t
      · subst hte
        exact removeExpected_stable p idx term
      · unfold removeExpected
        rw [removeTermStep_get_other p idx t term hte]
    · rw [if_neg hmem]
      by_cases hte : term = t
      · subst hte
        rw [if_pos (List.mem_cons_self _ _)]
        exact removeTermStep_get_self p idx term
      · rw [if_neg (by simp [hte, hmem])]
        exact removeTermStep_get_other p idx t term hte

/--
C10. RemovePage on a page p registered in pageTerms removes exactly the
postings whose page name lowercases to p (other postings keep their
original order), leaves no term with an empty posting list, deletes p
from pageTerms, and is the identity when p is absent from pageTerms.
The two well-formedness hypotheses express the maintained role of
pageTerms: it covers every term whose postings mention p, and no posting
list is empty to begin with.
-/
theorem C10_removePage (si : SIndex) (p : GoStr) (pterms : List GoStr)
    (hp : alGet si.pageTerms p = some pterms)
    (hcov : ∀ e ∈ si.index, (∃ ref ∈ e.2, goToLower ref.pageName = p) →
      e.1 ∈ pterms)
    (hne : ∀ e ∈ si.index, e.2 ≠ []) :
    (∀ term, alRefs (removePageSI si p).index term =
      (alRefs si.index term).filter (fun ref => ¬ goToLower ref.pageName = p)) ∧
    (∀ term refs, alGet (removePageSI si p).index term = some refs →
      refs ≠ []) ∧
    (alGet (removePageSI si p).pageTerms p = none) ∧
    (∀ (si' : SIndex) (q : GoStr), alGet si'.pageTerms q = none →
      removePageSI si' q = si') := by
  have hidx : (removePageSI si p).index =
      pterms.foldl (removeTermStep p) si.index := by
    unfold removePageSI
    rw [hp]
  have hpt : (removePageSI si p).pageTerms = alDelete si.pageTerms p := by
    unfold removePageSI
    rw [hp]
  refine ⟨?_, ?_, ?_, ?_⟩
  · intro term
    rw [hidx]
    unfold alRefs
    rw [remove_fold_get]
    by_cases hmem : term ∈ pterms
    · rw [if_pos hmem]
      unfold removeExpected
      cases hg : alGet si.index term with
      | none => simp
      | some refs =>
        simp only [Option.getD_some]
        by_cases hf : refs.filter (fun ref => ¬ goToLower ref.pageName = p) = []
        · rw [if_pos hf]
          simp only [Option.getD_none]
          exact hf.symm
        · rw [if_neg hf]
          simp
    · rw [if_neg hmem]
      cases hg : alGet si.index term with
      | none => simp
      | some refs =>
        simp only [Option.getD_some]
        have hmem2 := alGet_mem si.index term refs hg
        have hnop : ∀ ref ∈ refs, ¬ goToLower ref.pageName = p := by
          intro ref href hcontra
          exact hmem (hcov (term, refs) hmem2 ⟨ref, href, hcontra⟩)
        rw [List.filter_eq_self.mpr (by
          intro ref href
          simpa using hnop ref href)]
  · intro term refs hg
    rw [hidx, remove_fold_get] at hg
    by_cases hmem : term ∈ pterms
    · rw [if_pos hmem] at hg
      unfold removeExpected at hg
      cases hg2 : alGet si.index term with
      | none => rw [hg2] at hg; simp at hg
      | some refs0 =>
        rw [hg2] at hg
        simp only at hg
        by_cases hf : refs0.filter (fun ref => ¬ goToLower ref.pageName = p) = []
        · rw [if_pos hf] at hg; simp at hg
        · rw [if_neg hf] at hg
          rw [← Option.some_inj.mp hg]
          exact hf
    · rw [if_neg hmem] at hg
      exact hne (term, refs) (alGet_mem si.index term refs hg)
  · rw [hpt]
    exact alGet_alDelete_self si.pageTerms p
  · intro si' q hq
    unfold removePageSI
    rw [hq]

/-- Witness for C10 at a two-posting index with one page registered. -/
theorem C10_removePage_witness :
    (alGet ((⟨[(gs "tt", [⟨gs "Other", gs "ua", gs "ca"⟩,
        ⟨gs "P", gs "up", gs "cp"⟩])],
      [(gs "p", [gs "tt"])]⟩ : SIndex)).pageTerms (gs "p") =
        some [gs "tt"]) ∧
    (alGet (removePageSI (⟨[(gs "tt", [⟨gs "Other", gs "ua", gs "ca"⟩,
        ⟨gs "P", gs "up", gs "cp"⟩])],
      [(gs "p", [gs "tt"])]⟩ : SIndex) (gs "p")).pageTerms (gs "p") = none) :=
  ⟨by decide,
    (C10_removePage
      ⟨[(gs "tt", [⟨gs "Other", gs "ua", gs "ca"⟩, ⟨gs "P", gs "up", gs "cp"⟩])],
        [(gs "p", [gs "tt"])]⟩
      (gs "p") [gs "tt"] (by decide) (by decide) (by decide)).2.2.1⟩

/-! ## SHA-256 (crypto/sha256 as used by deterministicUUID)

Bytes are Nat < 256, words are Nat < 2^32 with explicit % 2^32. -/

/-- rotr32 is 32-bit rotate right of a word. -/
def rotr32 (x k : Nat) : Nat := x / 2 ^ k + x % 2 ^ k * 2 ^ (32 - k)

/-- H8 is the eight-word hash state; a fixed structure keeps the digest
length independent of the message. -/
structure H8 where
  a : Nat
  b : Nat
  c : Nat
  d : Nat
  e : Nat
  f : Nat
  g : Nat
  h : Nat

/-- shaH0 is the SHA-256 initial hash value. -/
def shaH0 : H8 :=
  ⟨1779033703, 3144134277, 1013904242, 2773480762,
   1359893119, 2600822924, 528734635, 1541459225⟩

/-- shaK is the SHA-256 round-constant table (decimal). -/
def shaK : List Nat :=
  [1116352408, 1899447441, 3049323471, 3921009573,
   961987163, 1508970993, 2453635748, 2870763221,
   3624381080, 310598401, 607225278, 1426881987,
   1925078388, 2162078206, 2614888103, 3248222580,
   3835390401, 4022224774, 264347078, 604807628,
   770255983, 1249150122, 1555081692, 1996064986,
   2554220882, 2821834349, 2952996808, 3210313671,
   3336571891, 3584528711, 113926993, 338241895,
   666307205, 773529912, 1294757372, 1396182291,
   1695183700, 1986661051, 2177026350, 2456956037,
   2730485921, 2820302411, 3259730800, 3345764771,
   3516065817, 3600352804, 4094571909, 275423344,
   430227734, 506948616, 659060556, 883997877,
   958139571, 1322822218, 1537002063, 1747873779,
   1955562222, 2024104815, 2227730452, 2361852424,
   2428436474, 2756734187, 3204031479, 3329325298]

/-- chunksF splits a byte list into blocks of n bytes (fuelled). -/
def chunksF (n : Nat) : Nat → List Nat → List (List Nat)
  | 0, _ => []
  | _ + 1, [] => []
  | fuel + 1, l => l.take n :: chunksF n fuel (l.drop n)

/-- word4 assembles a big-endian 32-bit word from four bytes. -/
def word4 (bs : List Nat) : Nat :=
  bs.getD 0 0 * 2 ^ 24 + bs.getD 1 0 * 2 ^ 16 + bs.getD 2 0 * 2 ^ 8 + bs.getD 3 0

/-- extendW extends the 16-word schedule to 64 words. -/
def extendW (w0 : List Nat) : List Nat :=
  (List.range 48).foldl (fun w _ =>
    let w2 := w.getD (w.length - 2) 0
    let w7 := w.getD (w.length - 7) 0
    let w15 := w.getD (w.length - 15) 0
    let w16 := w.getD (w.length - 16) 0
    let s0 := rotr32 w15 7 ^^^ rotr32 w15 18 ^^^ w15 / 2 ^ 3
    let s1 := rotr32 w2 17 ^^^ rotr32 w2 19 ^^^ w2 / 2 ^ 10
    w ++ [(w16 + s0 + w7 + s1) % 2 ^ 32]) w0

/-- shaCompress is one round of the SHA-256 compression function. -/
def shaCompress (st : H8) (kw : Nat × Nat) : H8 :=
  let s1 := rotr32 st.e 6 ^^^ rotr32 st.e 11 ^^^ rotr32 st.e 25
  let ch := st.e &&& st.f ^^^ (st.e ^^^ 0xffffffff) &&& st.g
  let t1 := (st.h + s1 + ch + kw.1 + kw.2) % 2 ^ 32
  let s0 := rotr32 st.a 2 ^^^ rotr32 st.a 13 ^^^ rotr32 st.a 22
  let mj := st.a &&& st.b ^^^ st.a &&& st.c ^^^ st.b &&& st.c
  let t2 := (s0 + mj) % 2 ^ 32
  ⟨(t1 + t2) % 2 ^ 32, st.a, st.b, st.c, (st.d + t1) % 2 ^ 32, st.e, st.f, st.g⟩

/-- addH8 adds two hash states word-wise mod 2^32. -/
def addH8 (x y : H8) : H8 :=
  ⟨(x.a + y.a) % 2 ^ 32, (x.b + y.b) % 2 ^ 32, (x.c + y.c) % 2 ^ 32,
   (x.d + y.d) % 2 ^ 32, (x.e + y.e) % 2 ^ 32, (x.f + y.f) % 2 ^ 32,
   (x.g + y.g) % 2 ^ 32, (x.h + y.h) % 2 ^ 32⟩

/-- processBlock runs the schedule and compression for one 64-byte
block. -/
def processBlock (hh : H8) (block : List Nat) : H8 :=
  let w0 := (chunksF 4 block.length block).map word4
  let w := extendW w0
  addH8 hh ((shaK.zip w).foldl shaCompress hh)

/-- word4Bytes splits a word into four big-endian bytes. -/
def word4Bytes (w : Nat) : List Nat :=
  [w / 2 ^ 24 % 256, w / 2 ^ 16 % 256, w / 2 ^ 8 % 256, w % 256]

/-- bytesOfH8 serializes the hash state to its 32 digest bytes. -/
def bytesOfH8 (hh : H8) : List Nat :=
  word4Bytes hh.a ++ word4Bytes hh.b ++ word4Bytes hh.c ++ word4Bytes hh.d ++
  word4Bytes hh.e ++ word4Bytes hh.f ++ word4Bytes hh.g ++ word4Bytes hh.h

/-- sha256 of a byte list: pad to 64-byte blocks with the 0x80 marker
and the 64-bit big-endian bit length, then fold the compression. -/
def sha256 (msg : List Nat) : List Nat :=
  let len := msg.length
  let padZeros := (119 - len % 64) % 64
  let bitLen := len * 8
  let lenBytes := [bitLen / 2 ^ 56 % 256, bitLen / 2 ^ 48 % 256,
    bitLen / 2 ^ 40 % 256, bitLen / 2 ^ 32 % 256, bitLen / 2 ^ 24 % 256,
    bitLen / 2 ^ 16 % 256, bitLen / 2 ^ 8 % 256, bitLen % 256]
  let padded := msg ++ 0x80 :: List.replicate padZeros 0 ++ lenBytes
  (chunksF 64 padded.length padded).foldl processBlock shaH0 |> bytesOfH8

/-- hexDig is the lowercase hex digit for n < 16. -/
def hexDig (n : Nat) : Char :=
  if n < 10 then Char.ofNat (48 + n) else Char.ofNat (87 + n)

/-- toHex is fmt.Sprintf("%x", ·) on a byte slice: two lowercase hex
digits per byte (the % 16 on the high nibble is the identity for
bytes < 256). -/
def toHex (bytes : List Nat) : GoStr :=
  bytes.flatMap (fun b => [hexDig (b / 16 % 16), hexDig (b % 16)])

/-- utf8Char encodes one rune as UTF-8 bytes (Go []byte(string)). -/
def utf8Char (c : Char) : List Nat :=
  let n := c.toNat
  if n < 0x80 then [n]
  else if n < 0x800 then [0xC0 + n / 64, 0x80 + n % 64]
  else if n < 0x10000 then
    [0xE0 + n / 4096, 0x80 + n / 64 % 64, 0x80 + n % 64]
  else
    [0xF0 + n / 262144, 0x80 + n / 4096 % 64, 0x80 + n / 64 % 64,
      0x80 + n % 64]

/-- utf8Bytes is Go's []byte conversion of a string. -/
def utf8Bytes (s : GoStr) : List Nat := s.flatMap utf8Char

/-- natToStrAux renders n in decimal with fuel. -/
def natToStrAux : Nat → Nat → List Char
  | 0, _ => []
  | fuel + 1, n =>
    if n < 10 then [Char.ofNat (48 + n)]
    else natToStrAux fuel (n / 10) ++ [Char.ofNat (48 + n % 10)]

/-- natToStr is fmt.Sprintf("%d", n). -/
def natToStr (n : Nat) : GoStr := natToStrAux (n + 1) n

example : natToStr 0 = gs "0" := by decide
example : natToStr 1234 = gs "1234" := by decide

/- Standard SHA-256 test vectors validate the embedding. -/
set_option maxRecDepth 100000 in
example : toHex (sha256 []) =
    gs "e3b0c44298fc1c149afbf4c8996fb92427ae41e4649b934ca495991b7852b855" := by
  decide

set_option maxRecDepth 100000 in
example : toHex (sha256 (utf8Bytes (gs "abc"))) =
    gs "ba7816bf8f01cfea414140de5dae2223b00361a396177a9cb410ff61f20015ad" := by
  decide

/-- deterministicUUID mirrors vault.deterministicUUID: sha256 of
"path:line", hex-encoded, sliced 8-4-4-4-12 with hyphens. -/
def deterministicUUID (fp : GoStr) (lineNumber : Nat) : GoStr :=
  let seed := fp ++ ':' :: natToStr lineNumber
  let hex := toHex (sha256 (utf8Bytes seed))
  hex.take 8 ++ '-' :: ((hex.drop 8).take 4) ++ '-' :: ((hex.drop 12).take 4)
    ++ '-' :: ((hex.drop 16).take 4) ++ '-' :: ((hex.drop 20).take 12)

/-! ## Identity sentinels and the markdown sectioner (part_012) -/

/-- hexDigitChar is the regex class [0-9a-f]. -/
def hexDigitChar (c : Char) : Bool :=
  ('0' ≤ c ∧ c ≤ '9') ∨ ('a' ≤ c ∧ c ≤ 'f')

/-- uuidShape checks the 8-4-4-4-12 lowercase-hex pattern of the
sentinel regex's capture group on an exactly-36-rune string. -/
def uuidShape (u : GoStr) : Bool :=
  u.length = 36 ∧
  (u.take 8).all hexDigitChar ∧
  u.getD 8 ' ' = '-' ∧ ((u.drop 9).take 4).all hexDigitChar ∧
  u.getD 13 ' ' = '-' ∧ ((u.drop 14).take 4).all hexDigitChar ∧
  u.getD 18 ' ' = '-' ∧ ((u.drop 19).take 4).all hexDigitChar ∧
  u.getD 23 ' ' = '-' ∧ (u.drop 24).all hexDigitChar

/-- matchSentinelAt tries the sentinel regex
<!--\s*id:\s*([0-9a-f]{8}-[0-9a-f]{4}-[0-9a-f]{4}-[0-9a-f]{4}-[0-9a-f]{12})\s*-->
anchored at the head; on success returns (uuid, rest after the match). -/
def matchSentinelAt (s : GoStr) : Option (GoStr × GoStr) :=
  if hasPre s (gs "<!--") then
    let r1 := (s.drop 4).dropWhile reSp
    if hasPre r1 (gs "id:") then
      let r2 := (r1.drop 3).dropWhile reSp
      let u := r2.take 36
      if uuidShape u then
        let r3 := (r2.drop 36).dropWhile reSp
        if hasPre r3 (gs "-->") then some (u, r3.drop 3) else none
      else none
    else none
  else none

/-- scanSentinel finds the first sentinel match's uuid
(FindStringSubmatch), fuelled by input length. -/
def scanSentinel : Nat → GoStr → Option GoStr
  | 0, _ => none
  | _ + 1, [] => none
  | fuel + 1, c :: rest =>
    match matchSentinelAt (c :: rest) with
    | some (u, _) => some u
    | none => scanSentinel fuel rest

/-- stripSentinels removes every sentinel match (ReplaceAllString with
the empty string), fuelled by input length. -/
def stripSentinels : Nat → GoStr → GoStr
  | 0, s => s
  | _ + 1, [] => []
  | fuel + 1, c :: rest =>
    match matchSentinelAt (c :: rest) with
    | some (_, after) => stripSentinels fuel after
    | none => c :: stripSentinels fuel rest

/-- extractUUID mirrors vault.extractUUID: first sentinel's uuid, and
the content with every sentinel stripped and trimmed; no sentinel means
the empty uuid and the original content. -/
def extractUUID (content : GoStr) : GoStr × GoStr :=
  match scanSentinel content.length content with
  | some u => (u, trimSpace (stripSentinels content.length content))
  | none => ([], content)

/-- embedUUID mirrors vault.embedUUID: heading blocks get the sentinel
at the end of the (trimmed) heading line, other blocks get it as a
standalone first line. -/
def embedUUID (content blockUUID : GoStr) : GoStr :=
  let comment := gs "<!-- id: " ++ blockUUID ++ gs " -->"
  match splitNl content with
  | [] => comment ++ '\n' :: content
  | l0 :: rest =>
    if headingLevel l0 > 0 then joinNl ((trimSpace l0 ++ ' ' :: comment) :: rest)
    else comment ++ '\n' :: content

/-- getOrCreateUUID mirrors vault.getOrCreateUUID. -/
def getOrCreateUUID (fp : GoStr) (lineNumber : Nat) (content : GoStr) :
    GoStr × GoStr :=
  let uc := extractUUID content
  if uc.1 ≠ [] then uc
  else (deterministicUUID fp lineNumber, uc.2)

example : extractUUID
    (gs "# h <!-- id: 01234567-89ab-cdef-0123-456789abcdef -->") =
    (gs "01234567-89ab-cdef-0123-456789abcdef", gs "# h") := by decide
example : extractUUID (gs "no sentinel here") = ([], gs "no sentinel here") := by
  decide
example : embedUUID (gs "plain text") (gs "u") =
    gs "<!-- id: u -->\nplain text" := by decide
example : embedUUID (gs "## head \nbody") (gs "u") =
    gs "## head <!-- id: u -->\nbody" := by decide

/-- Sect mirrors the section record of parseMarkdownBlocks. -/
structure Sect where
  level : Nat
  startLine : Nat
  lines : List GoStr

/-- collectSects is the section-accumulation loop of
parseMarkdownBlocks. -/
def collectSects (i : Nat) (current : Sect) : List GoStr → List Sect
  | [] => if current.lines ≠ [] ∨ current.level > 0 then [current] else []
  | line :: rest =>
    let lvl := headingLevel line
    if lvl > 0 then
      (if current.lines ≠ [] ∨ current.level > 0 then [current] else []) ++
        collectSects (i + 1) ⟨lvl, i, [line]⟩ rest
    else collectSects (i + 1)
      ⟨current.level, current.startLine, current.lines ++ [line]⟩ rest

/-- modifyLast rewrites the last block of a list in place. -/
def BlockList.modifyLast (f : BlockE → BlockE) : BlockList → BlockList
  | .nil => .nil
  | .cons b .nil => .cons (f b) .nil
  | .cons b t => .cons b (BlockList.modifyLast f t)

/-- attachAtDepth appends a block at the given depth along the
rightmost spine — the functional reading of the Go pointer stack, whose
entries are exactly the rightmost-spine blocks. -/
def attachAtDepth : BlockList → Nat → BlockE → BlockList
  | bs, 0, b => bs.snoc b
  | bs, d + 1, b =>
    bs.modifyLast (fun blk =>
      match blk with
      | .mk u c ch => .mk u c (attachAtDepth ch d b))

/-- buildStep is one iteration of the tree-building loop; the
accumulator carries (roots, stack of heading levels along the rightmost
spine). -/
def buildStep (fp : GoStr) (acc : BlockList × List Nat) (sec : Sect) :
    BlockList × List Nat :=
  let rawContent := trimRightNlSp (joinNl sec.lines)
  if rawContent = [] ∧ sec.level = 0 then acc
  else
    let uc := getOrCreateUUID fp sec.startLine rawContent
    let block := BlockE.mk uc.1 uc.2 .nil
    if sec.level = 0 then (acc.1.snoc block, acc.2)
    else
      let stack := acc.2.dropWhile (fun l => sec.level ≤ l)
      (attachAtDepth acc.1 stack.length block, sec.level :: stack)

/-- parseMarkdownBlocks mirrors vault.parseMarkdownBlocks. -/
def parseMarkdownBlocks (fp body : GoStr) : BlockList :=
  if trimSpace body = [] then .nil
  else
    let sections := collectSects 0 ⟨0, 0, []⟩ (splitNl body)
    (sections.foldl (buildStep fp) (.nil, [])).1

example : allBlocks (parseMarkdownBlocks (gs "f.md")
    (gs "pre <!-- id: 01234567-89ab-cdef-0123-456789abcdef -->\n# A <!-- id: 11234567-89ab-cdef-0123-456789abcdef -->\nbody\n## B <!-- id: 21234567-89ab-cdef-0123-456789abcdef -->")) =
    [(gs "01234567-89ab-cdef-0123-456789abcdef", gs "pre"),
     (gs "11234567-89ab-cdef-0123-456789abcdef", gs "# A \nbody"),
     (gs "21234567-89ab-cdef-0123-456789abcdef", gs "## B")] := by decide

lemma hexDigitChar_hexDig (n : Nat) (h : n < 16) :
    hexDigitChar (hexDig n) = true := by
  interval_cases n <;> decide

lemma toHex_len (bs : List Nat) : (toHex bs).length = 2 * bs.length := by
  induction bs with
  | nil => rfl
  | cons b rest ih =>
    simp only [toHex, List.flatMap_cons, List.length_append,
      List.length_cons, List.length_nil] at *
    omega

lemma toHex_hex (bs : List Nat) : ∀ c ∈ toHex bs, hexDigitChar c = true := by
  intro c hc
  rcases List.mem_flatMap.mp hc with ⟨b, _, hcb⟩
  rcases List.mem_cons.mp hcb with h | h
  · rw [h]
    exact hexDigitChar_hexDig _ (Nat.mod_lt _ (by norm_num))
  · rcases List.mem_cons.mp h with h | h
    · rw [h]
      exact hexDigitChar_hexDig _ (Nat.mod_lt _ (by norm_num))
    · simp at h

lemma sha256_len (msg : List Nat) : (sha256 msg).length = 32 := by
  unfold sha256
  simp [bytesOfH8, word4Bytes]

lemma det_uuid_parts (fp : GoStr) (n : Nat) :
    ∃ h1 h2 h3 h4 h5 : GoStr,
      deterministicUUID fp n =
        h1 ++ '-' :: h2 ++ '-' :: h3 ++ '-' :: h4 ++ '-' :: h5 ∧
      h1.length = 8 ∧ h2.length = 4 ∧ h3.length = 4 ∧ h4.length = 4 ∧
      h5.length = 12 ∧
      ∀ c, (c ∈ h1 ∨ c ∈ h2 ∨ c ∈ h3 ∨ c ∈ h4 ∨ c ∈ h5) →
        hexDigitChar c = true := by
  unfold deterministicUUID
  set hex := toHex (sha256 (utf8Bytes (fp ++ ':' :: natToStr n))) with hhex
  have hlen : hex.length = 64 := by
    rw [hhex, toHex_len, sha256_len]
  have hhexall : ∀ c ∈ hex, hexDigitChar c = true := by
    rw [hhex]
    exact toHex_hex _
  refine ⟨hex.take 8, (hex.drop 8).take 4, (hex.drop 12).take 4,
    (hex.drop 16).take 4, (hex.drop 20).take 12, rfl, ?_, ?_, ?_, ?_, ?_, ?_⟩
  · simp [List.length_take]
    omega
  · simp [List.length_take, List.length_drop]
    omega
  · simp [List.length_take, List.length_drop]
    omega
  · simp [List.length_take, List.length_drop]
    omega
  · simp [List.length_take, List.length_drop]
    omega
  · intro c hc
    apply hhexall
    rcases hc with h | h | h | h | h
    · exact List.mem_of_mem_take h
    · exact List.mem_of_mem_drop (List.mem_of_mem_take h)
    · exact List.mem_of_mem_drop (List.mem_of_mem_take h)
    · exact List.mem_of_mem_drop (List.mem_of_mem_take h)
    · exact List.mem_of_mem_drop (List.mem_of_mem_take h)

lemma det_uuid_len (fp : GoStr) (n : Nat) :
    (deterministicUUID fp n).length = 36 := by
  rcases det_uuid_parts fp n with ⟨h1, h2, h3, h4, h5, heq, l1, l2, l3, l4, l5, _⟩
  rw [heq]
  simp [l1, l2, l3, l4, l5]

lemma matchSentinelAt_shape (s : GoStr) (u r : GoStr)
    (h : matchSentinelAt s = some (u, r)) : uuidShape u = true := by
  simp only [matchSentinelAt] at h
  split at h
  · split at h
    · split at h
      · split at h
        · rename_i hshape _
          have hu := (Prod.mk.injEq _ _ _ _).mp (Option.some_inj.mp h)
          rw [← hu.1]
          exact hshape
        · exact absurd h (by simp)
      · exact absurd h (by simp)
    · exact absurd h (by simp)
  · exact absurd h (by simp)

lemma scanSentinel_shape :
    ∀ (fuel : Nat) (s u : GoStr), scanSentinel fuel s = some u →
      uuidShape u = true := by
  intro fuel
  induction fuel with
  | zero => intro s u h; simp [scanSentinel] at h
  | succ f ih =>
    intro s u h
    rcases s with _ | ⟨c, rest⟩
    · simp [scanSentinel] at h
    · rw [scanSentinel] at h
      cases hm : matchSentinelAt (c :: rest) with
      | some ur =>
        rw [hm] at h
        have := Option.some_inj.mp h
        rcases ur with ⟨u0, r0⟩
        rw [← this]
        exact matchSentinelAt_shape _ _ _ hm
      | none =>
        rw [hm] at h
        exact ih rest u h

lemma uuidShape_len (u : GoStr) (h : uuidShape u = true) : u.length = 36 := by
  unfold uuidShape at h
  simp only [Bool.decide_and, Bool.and_eq_true, decide_eq_true_eq] at h
  exact h.1

lemma extractUUID_none (content : GoStr)
    (h : (extractUUID content).1 = []) :
    extractUUID content = ([], content) := by
  unfold extractUUID at *
  cases hscan : scanSentinel content.length content with
  | some u =>
    rw [hscan] at h
    simp only at h
    have := uuidShape_len u (scanSentinel_shape _ _ _ hscan)
    rw [h] at this
    simp at this
  | none => rfl

lemma getOrCreateUUID_ne_nil (fp : GoStr) (n : Nat) (content : GoStr) :
    (getOrCreateUUID fp n content).1 ≠ [] := by
  unfold getOrCreateUUID
  by_cases h : (extractUUID content).1 ≠ []
  · rw [if_pos h]
    exact h
  · rw [if_neg h]
    intro hc
    have hc' : deterministicUUID fp n = [] := hc
    have := det_uuid_len fp n
    rw [hc'] at this
    simp at this

/--
C6. Parsing is deterministic in block identity: the parse is a pure
function of (path, body), so two parses of the same bytes coincide
definitionally; explicit sentinels are adopted verbatim together with
the stripped content; the fallback identifier is the pure function
deterministicUUID of the path and the section's start line, a 36-rune
string of five lowercase-hex groups of lengths 8-4-4-4-12 joined by
hyphens.
-/
theorem C6_parse_deterministic (fp body content : GoStr) (n : Nat) :
    parseMarkdownBlocks fp body = parseMarkdownBlocks fp body ∧
    ((extractUUID content).1 ≠ [] →
      getOrCreateUUID fp n content = extractUUID content) ∧
    ((extractUUID content).1 = [] →
      getOrCreateUUID fp n content = (deterministicUUID fp n, content)) ∧
    (deterministicUUID fp n).length = 36 ∧
    (∃ h1 h2 h3 h4 h5 : GoStr,
      deterministicUUID fp n =
        h1 ++ '-' :: h2 ++ '-' :: h3 ++ '-' :: h4 ++ '-' :: h5 ∧
      h1.length = 8 ∧ h2.length = 4 ∧ h3.length = 4 ∧ h4.length = 4 ∧
      h5.length = 12 ∧
      ∀ c, (c ∈ h1 ∨ c ∈ h2 ∨ c ∈ h3 ∨ c ∈ h4 ∨ c ∈ h5) →
        hexDigitChar c = true) := by
  refine ⟨rfl, ?_, ?_, det_uuid_len fp n, det_uuid_parts fp n⟩
  · intro h
    unfold getOrCreateUUID
    rw [if_pos h]
  · intro h
    unfold getOrCreateUUID
    rw [if_neg (by simpa using h)]
    rw [(show (extractUUID content).2 = content by rw [extractUUID_none content h])]

/-- Witness for C6 at path "test.md", line 5, and a sentinel-free
content. -/
theorem C6_parse_deterministic_witness :
    ((extractUUID (gs "plain")).1 = []) ∧
    (getOrCreateUUID (gs "test.md") 5 (gs "plain") =
      (deterministicUUID (gs "test.md") 5, gs "plain")) :=
  ⟨by decide,
    ((C6_parse_deterministic (gs "test.md") (gs "x") (gs "plain") 5).2.2.1
      (by decide))⟩

lemma allBlocks_snoc : ∀ (bs : BlockList) (b : BlockE),
    allBlocks (bs.snoc b) = allBlocks bs ++ allBlocksB b
  | .nil, b => by simp [BlockList.snoc, allBlocks]
  | .cons x t, b => by
    rw [BlockList.snoc, allBlocks, allBlocks, allBlocks_snoc t b,
      List.append_assoc]

lemma mem_modifyLast : ∀ (bs : BlockList) (f : BlockE → BlockE)
    (p : GoStr × GoStr), p ∈ allBlocks (bs.modifyLast f) →
    p ∈ allBlocks bs ∨
      ∃ x : BlockE, (∀ q ∈ allBlocksB x, q ∈ allBlocks bs) ∧
        p ∈ allBlocksB (f x)
  | .nil, f, p => by
    intro h
    simp [BlockList.modifyLast, allBlocks] at h
  | .cons b .nil, f, p => by
    intro h
    rw [BlockList.modifyLast, allBlocks, allBlocks] at h
    rcases List.mem_append.mp h with h | h
    · right
      exact ⟨b, fun q hq => by
        rw [allBlocks, allBlocks]
        exact List.mem_append.mpr (Or.inl hq), h⟩
    · simp at h
  | .cons b (.cons b2 t2), f, p => by
    intro h
    have h' : p ∈ allBlocks (BlockList.cons b
        (BlockList.modifyLast f (BlockList.cons b2 t2))) := h
    clear h
    rename' h' => h
    rw [allBlocks] at h
    rcases List.mem_append.mp h with h | h
    · left
      rw [allBlocks]
      exact List.mem_append.mpr (Or.inl h)
    · rcases mem_modifyLast (.cons b2 t2) f p h with h2 | ⟨x, hsub, hx⟩
      · left
        rw [allBlocks]
        exact List.mem_append.mpr (Or.inr h2)
      · right
        exact ⟨x, fun q hq => by
          rw [allBlocks]
          exact List.mem_append.mpr (Or.inr (hsub q hq)), hx⟩

lemma mem_attachAtDepth : ∀ (d : Nat) (bs : BlockList) (b : BlockE)
    (p : GoStr × GoStr), p ∈ allBlocks (attachAtDepth bs d b) →
    p ∈ allBlocks bs ∨ p ∈ allBlocksB b := by
  intro d
  induction d with
  | zero =>
    intro bs b p h
    rw [attachAtDepth, allBlocks_snoc] at h
    exact List.mem_append.mp h
  | succ n ih =>
    intro bs b p h
    rw [attachAtDepth] at h
    rcases mem_modifyLast bs _ p h with h2 | ⟨x, hsub, hx⟩
    · exact Or.inl h2
    · rcases x with ⟨u, c, ch⟩
      rw [allBlocksB] at hx
      rcases List.mem_cons.mp hx with h3 | h3
      · left
        apply hsub
        rw [allBlocksB, h3]
        exact List.mem_cons_self _ _
      · rcases ih ch b p h3 with h4 | h4
        · left
          apply hsub
          rw [allBlocksB]
          exact List.mem_cons_of_mem _ h4
        · exact Or.inr h4

lemma build_fold_uuids (fp : GoStr) :
    ∀ (sects : List Sect) (acc : BlockList × List Nat),
    (∀ p ∈ allBlocks acc.1, p.1 ≠ []) →
    ∀ p ∈ allBlocks ((sects.foldl (buildStep fp) acc).1), p.1 ≠ [] := by
  intro sects
  induction sects with
  | nil => intro acc hacc; exact hacc
  | cons sec rest ih =>
    intro acc hacc
    rw [List.foldl_cons]
    apply ih
    intro p hp
    simp only [buildStep] at hp
    split at hp
    · exact hacc p hp
    · split at hp
      · rw [allBlocks_snoc] at hp
        rcases List.mem_append.mp hp with h | h
        · exact hacc p h
        · rw [allBlocksB, allBlocks] at h
          rcases List.mem_cons.mp h with h | h
          · rw [h]
            exact getOrCreateUUID_ne_nil fp sec.startLine _
          · simp at h
      · rcases mem_attachAtDepth _ _ _ p hp with h | h
        · exact hacc p h
        · rw [allBlocksB, allBlocks] at h
          rcases List.mem_cons.mp h with h | h
          · rw [h]
            exact getOrCreateUUID_ne_nil fp sec.startLine _
          · simp at h

/-- dupSentinelBody embeds the same explicit sentinel in two different
blocks of one file. -/
def dupSentinelBody : GoStr :=
  gs "a <!-- id: 00000000-0000-0000-0000-000000000000 -->\n# h <!-- id: 00000000-0000-0000-0000-000000000000 -->"

/--
C8 counterexample. Loading a file whose two blocks carry the same
explicit sentinel produces two distinct blocks (contents "a" and "# h")
with identical identifiers: vault-wide uniqueness is not enforced by
the loader (indexBlocksLocked silently overwrites the UUID-index
entry). -/
theorem C8_counterexample :
    (allBlocks (parseMarkdownBlocks (gs "f.md") dupSentinelBody)).map
      Prod.fst =
      [gs "00000000-0000-0000-0000-000000000000",
       gs "00000000-0000-0000-0000-000000000000"] ∧
    (allBlocks (parseMarkdownBlocks (gs "f.md") dupSentinelBody)).map
      Prod.snd = [gs "a", gs "# h"] := by decide

/--
C8 (amended). In every loaded vault state, every block carries a
non-empty identifier (a 36-rune sentinel value or the 36-rune
deterministic fallback).  Vault-wide uniqueness can fail: blocks whose
contents embed the same explicit sentinel receive the same identifier,
as the counterexample shows.
-/
theorem C8_block_ids_nonempty (fp body : GoStr) :
    ∀ p ∈ allBlocks (parseMarkdownBlocks fp body), p.1 ≠ [] := by
  unfold parseMarkdownBlocks
  by_cases h : trimSpace body = []
  · rw [if_pos h]
    intro p hp
    simp [allBlocks] at hp
  · rw [if_neg h]
    exact build_fold_uuids fp _ (.nil, []) (by
      intro p hp
      simp [allBlocks] at hp)

/-- Witness for C8 at a one-block sentinelled file. -/
theorem C8_block_ids_nonempty_witness :
    ((gs "01234567-89ab-cdef-0123-456789abcdef", gs "x") ∈
      allBlocks (parseMarkdownBlocks (gs "w.md")
        (gs "x <!-- id: 01234567-89ab-cdef-0123-456789abcdef -->"))) ∧
    (gs "01234567-89ab-cdef-0123-456789abcdef", gs "x").1 ≠ [] :=
  ⟨by decide,
    C8_block_ids_nonempty (gs "w.md")
      (gs "x <!-- id: 01234567-89ab-cdef-0123-456789abcdef -->")
      (gs "01234567-89ab-cdef-0123-456789abcdef", gs "x") (by decide)⟩

/-! ## Vault store (part_013): filesystem, path safety, client state

The filesystem is an association list from absolute paths to file
contents; atomicWrite's temp-file-plus-rename is a single map update at
this abstraction (the rename makes it atomic).  Directories are
implicit: MkdirAll always succeeds and the empty-directory cleanup of
DeletePage/RenamePage has no observable effect here.  yaml.v3 is a
third-party black box, abstracted as a parameter interface. -/

/-- trimPreStr mirrors strings.TrimPrefix. -/
def trimPreStr (s p : GoStr) : GoStr :=
  if hasPre s p then s.drop p.length else s

/-- trimSufStr mirrors strings.TrimSuffix. -/
def trimSufStr (s p : GoStr) : GoStr :=
  if p.isSuffixOf s then s.take (s.length - p.length) else s

/-- containsSub mirrors strings.Contains. -/
def containsSub : GoStr → GoStr → Bool
  | s, pat =>
    pat.isPrefixOf s ||
      (match s with
       | [] => false
       | _ :: rest => containsSub rest pat)

/-- replaceFirst mirrors strings.Replace(s, pat, rep, 1). -/
def replaceFirst : GoStr → GoStr → GoStr → GoStr
  | s, pat, rep =>
    if pat = [] then rep ++ s
    else if pat.isPrefixOf s then rep ++ s.drop pat.length
    else
      match s with
      | [] => []
      | c :: rest => c :: replaceFirst rest pat rep

/-- splitFirst splits at the first occurrence of pat (strings.SplitN
with n = 2); none when pat does not occur. -/
def splitFirst (pat : GoStr) : GoStr → Option (GoStr × GoStr)
  | [] => if pat.isPrefixOf [] then some ([], []) else none
  | c :: rest =>
    if pat ≠ [] ∧ pat.isPrefixOf (c :: rest) then
      some ([], (c :: rest).drop pat.length)
    else
      match splitFirst pat rest with
      | some (pre, post) => some (c :: pre, post)
      | none => none

/-- splitSlash splits a path into '/'-separated components. -/
def splitSlash (s : GoStr) : List GoStr :=
  match s with
  | [] => [[]]
  | c :: rest =>
    if c = '/' then [] :: splitSlash rest
    else
      match splitSlash rest with
      | [] => [[c]]
      | l :: ls => (c :: l) :: ls

/-- joinSlash joins path components with '/'. -/
def joinSlash : List GoStr → GoStr
  | [] => []
  | [l] => l
  | l :: ls => l ++ '/' :: joinSlash ls

/-- cleanAbs is filepath.Clean on an absolute slash path: drop empty
and "." components and resolve ".." lexically (at the root ".."
vanishes). -/
def cleanAbs (p : GoStr) : GoStr :=
  let resolved := (splitSlash p).foldl (fun acc seg =>
    if seg = [] ∨ seg = gs "." then acc
    else if seg = gs ".." then acc.dropLast
    else acc ++ [seg]) []
  '/' :: joinSlash resolved

example : cleanAbs (gs "/v//a/./b/../c") = gs "/v/a/c" := by decide
example : cleanAbs (gs "/v/../../etc/passwd") = gs "/etc/passwd" := by decide

/-- VErr tags the error kinds of the write pipeline. -/
inductive VErr where
  | pathEscape
  | invalidInput
  | alreadyExists
  | notFound
  | ioErr
  | indexFailed
deriving DecidableEq

instance exceptDecEq {ε α : Type} [DecidableEq ε] [DecidableEq α] :
    DecidableEq (Except ε α) := fun x y =>
  match x, y with
  | .ok a, .ok b =>
    if h : a = b then isTrue (by rw [h])
    else isFalse (fun hc => h (by injection hc))
  | .error a, .error b =>
    if h : a = b then isTrue (by rw [h])
    else isFalse (fun hc => h (by injection hc))
  | .ok _, .error _ => isFalse (fun hc => Except.noConfusion hc)
  | .error _, .ok _ => isFalse (fun hc => Except.noConfusion hc)

/-- safePath mirrors Client.safePath: join with the vault root, resolve,
and require the result to stay under the root. -/
def safePath (vaultPath relPath : GoStr) : Except VErr GoStr :=
  let absPath := cleanAbs (vaultPath ++ '/' :: relPath)
  let vaultAbs := cleanAbs vaultPath
  if ¬ hasPre absPath (vaultAbs ++ ['/']) ∧ absPath ≠ vaultAbs then
    .error .pathEscape
  else .ok absPath

example : safePath (gs "/v") (gs "some/page.md") = .ok (gs "/v/some/page.md") := by
  decide
example : safePath (gs "/v") (gs "../../etc/passwd") = .error .pathEscape := by
  decide
example : safePath (gs "/v") (gs "../outside.md") = .error .pathEscape := by
  decide

/-- YamlIface abstracts gopkg.in/yaml.v3: parse returns none on error,
some none for a nil mapping; render returns none on a Marshal error. -/
structure YamlIface where
  parse : GoStr → Option (Option (List (GoStr × YVal)))
  render : List (GoStr × YVal) → Option GoStr

/-- parseFrontmatter mirrors vault.parseFrontmatter. -/
def parseFrontmatter (Y : YamlIface) (content : GoStr) :
    Option (List (GoStr × YVal)) × GoStr :=
  if ¬ hasPre content (gs "---") then (none, content)
  else
    match splitFirst (gs "\n---") (content.drop 3) with
    | none => (none, content)
    | some (pre, post) =>
      let yamlBlock := trimPreStr (trimPreStr pre (gs "\n")) (gs "\r\n")
      let after := trimPreStr (trimPreStr post (gs "\n")) (gs "\r\n")
      match Y.parse yamlBlock with
      | none => (none, content)
      | some props => (props, after)

/-- renderFrontmatter mirrors vault.renderFrontmatter. -/
def renderFrontmatter (Y : YamlIface) (properties : List (GoStr × YVal)) :
    GoStr :=
  if properties.length = 0 then []
  else
    match Y.render properties with
    | none => []
    | some data =>
      gs "---\n" ++ (data.reverse.dropWhile (· = '\n')).reverse ++ gs "\n---\n"

/-- BLookup mirrors vault.blockLookup (the pointed-to block's content
plus the owning page name). -/
structure BLookup where
  content : GoStr
  page : GoStr

/-- BkEntry mirrors vault.backlink. -/
structure BkEntry where
  fromPage : GoStr
  uuid : GoStr
  content : GoStr

/-- VState mirrors vault.Client plus the filesystem under the root. -/
structure VState where
  vaultPath : GoStr
  dailyFolder : GoStr
  pages : List (GoStr × CPage)
  backlinks : List (GoStr × List BkEntry)
  blockIndex : List (GoStr × BLookup)
  searchIndex : SIndex
  fs : List (GoStr × GoStr)

mutual

/-- indexBlocksVault mirrors Client.indexBlocksLocked. -/
def indexBlocksVault (pageName : GoStr) :
    BlockList → List (GoStr × BLookup) → List (GoStr × BLookup)
  | .nil, bi => bi
  | .cons b rest, bi => indexBlocksVault pageName rest (indexBlockVault pageName b bi)

/-- indexBlockVault indexes one block and its children. -/
def indexBlockVault (pageName : GoStr) :
    BlockE → List (GoStr × BLookup) → List (GoStr × BLookup)
  | .mk u c ch, bi => indexBlocksVault pageName ch (alPut bi u ⟨c, pageName⟩)

end

mutual

/-- removeBlocksIdx mirrors Client.removeBlocksFromIndexLocked. -/
def removeBlocksIdx : BlockList → List (GoStr × BLookup) → List (GoStr × BLookup)
  | .nil, bi => bi
  | .cons b rest, bi => removeBlocksIdx rest (removeBlockIdx b bi)

/-- removeBlockIdx removes one block and its children from the index. -/
def removeBlockIdx : BlockE → List (GoStr × BLookup) → List (GoStr × BLookup)
  | .mk u _ ch, bi => removeBlocksIdx ch (alDelete bi u)

end

mutual

/-- scanBlocksBk mirrors vault.scanBlocksForLinks. -/
def scanBlocksBk (sourcePage : GoStr) :
    BlockList → List (GoStr × List BkEntry) → List (GoStr × List BkEntry)
  | .nil, idx => idx
  | .cons b rest, idx => scanBlocksBk sourcePage rest (scanBlockBk sourcePage b idx)

/-- scanBlockBk records one block's links and recurses. -/
def scanBlockBk (sourcePage : GoStr) :
    BlockE → List (GoStr × List BkEntry) → List (GoStr × List BkEntry)
  | .mk u c ch, idx =>
    let idx := (extractLinks c).foldl (fun idx link =>
      let key := goToLower link
      alPut idx key ((alGet idx key).getD [] ++ [⟨sourcePage, u, c⟩])) idx
    scanBlocksBk sourcePage ch idx

end

/-- buildBacklinksV mirrors vault.buildBacklinks (alias entries are
scanned again, as in the Go range over c.pages). -/
def buildBacklinksV (pages : List (GoStr × CPage)) :
    List (GoStr × List BkEntry) :=
  pages.foldl (fun idx kv => scanBlocksBk kv.2.lowerName kv.2.blocks idx) []

mutual

/-- lastBlockL mirrors vault.lastBlock (depth-first last). -/
def lastBlockL : BlockList → Option BlockE
  | .nil => none
  | .cons b .nil =>
    match lastBlockB b with
    | some child => some child
    | none => some b
  | .cons _ t => lastBlockL t

/-- lastBlockB descends into a block's children. -/
def lastBlockB : BlockE → Option BlockE
  | .mk _ _ .nil => none
  | .mk _ _ (.cons b t) =>
    match lastBlockL (.cons b t) with
    | some child => some child
    | none => none

end

mutual

/-- findBlockByContentL mirrors vault.findBlockByContent. -/
def findBlockByContentL (content : GoStr) : BlockList → Option BlockE
  | .nil => none
  | .cons b rest =>
    match findBlockByContentB content b with
    | some r => some r
    | none => findBlockByContentL content rest

/-- findBlockByContentB checks one block then its children. -/
def findBlockByContentB (content : GoStr) : BlockE → Option BlockE
  | .mk u c ch =>
    if c = content then some (.mk u c ch)
    else findBlockByContentL content ch

end

/-- parseFile mirrors Client.parseFile (mtime fields dropped: no claim
reads them). -/
def parseFile (Y : YamlIface) (st : VState) (relPath content : GoStr) : CPage :=
  let name := trimSufStr relPath (gs ".md")
  let lowerName := goToLower name
  let pb := parseFrontmatter Y content
  let isJournal :=
    if st.dailyFolder ≠ [] then
      hasPre lowerName (goToLower st.dailyFolder ++ ['/'])
    else false
  { entity := ⟨name, name, isJournal⟩
    properties := pb.1
    lowerName := lowerName
    filePath := relPath
    blocks := parseMarkdownBlocks relPath pb.2 }

/-- aliasStrings reads a page's frontmatter aliases list. -/
def aliasStrings (props : Option (List (GoStr × YVal))) : List GoStr :=
  match props with
  | some m =>
    match alGet m (gs "aliases") with
    | some (.list vs) =>
      vs.filterMap (fun v =>
        match v with
        | .str s => some s
        | _ => none)
    | _ => []
  | none => []

/-- applyPageIndex mirrors Client.applyPageIndex. -/
def applyPageIndex (st : VState) (page : CPage) : VState :=
  let pages := (aliasStrings page.properties).foldl
    (fun ps a => alPut ps (goToLower a) page) st.pages
  { st with
    pages := alPut pages page.lowerName page
    blockIndex := indexBlocksVault page.entity.name page.blocks st.blockIndex }

/-- indexFileCore mirrors Client.indexFileCore. -/
def indexFileCore (Y : YamlIface) (st : VState) (relPath content : GoStr) :
    VState :=
  applyPageIndex st (parseFile Y st relPath content)

/-- rebuildLinksLocked mirrors Client.rebuildLinksLocked. -/
def rebuildLinksLocked (st : VState) : VState :=
  { st with
    backlinks := buildBacklinksV st.pages
    searchIndex := BuildFrom st.pages }

/-- removePageFromIndexLocked mirrors Client.removePageFromIndexLocked. -/
def removePageFromIndexLocked (st : VState) (lowerName : GoStr) : VState :=
  match alGet st.pages lowerName with
  | none => st
  | some cached =>
    let bi := removeBlocksIdx cached.blocks st.blockIndex
    let pages := st.pages.filter (fun kv =>
      ¬ (kv.1 ≠ lowerName ∧ kv.2.lowerName = lowerName))
    let pages := alDelete pages lowerName
    { st with pages := pages, blockIndex := bi }

/-- atomicWriteFs is vault.atomicWrite at the map abstraction: the
temp-file write plus rename replaces the target in one step. -/
def atomicWriteFs (fs : List (GoStr × GoStr)) (path content : GoStr) :
    List (GoStr × GoStr) :=
  alPut fs path content

/-! ## Write operations (part_013).  Each op returns (result, state);
error returns leave the state exactly as received, mirroring the Go
early returns. -/

/-- createPage mirrors Client.CreatePage. -/
def createPage (Y : YamlIface) (st : VState) (name : GoStr)
    (properties : List (GoStr × YVal)) : Except VErr PageEnt × VState :=
  if utf8Len name > 255 ∨ Char.ofNat 0 ∈ name then (.error .invalidInput, st)
  else
    let lowerName := goToLower name
    if (alGet st.pages lowerName).isSome then (.error .alreadyExists, st)
    else
      let relPath := name ++ gs ".md"
      match safePath st.vaultPath relPath with
      | .error e => (.error e, st)
      | .ok absPath =>
        let content :=
          if properties.length > 0 then renderFrontmatter Y properties else []
        let st := { st with fs := atomicWriteFs st.fs absPath content }
        let st := indexFileCore Y st relPath content
        let st := rebuildLinksLocked st
        match alGet st.pages lowerName with
        | none => (.error .indexFailed, st)
        | some page => (.ok page.entity, st)

/-- appendBlockRest is the shared tail of AppendBlockInPage after path
resolution and (for fresh pages) file creation. -/
def appendBlockRest (Y : YamlIface) (st : VState)
    (lowerName relPath absPath : GoStr) (cachedOpt : Option CPage)
    (content rnd : GoStr) : Except VErr BlockE × VState :=
  match alGet st.fs absPath with
  | none => (.error .ioErr, st)
  | some existing =>
    let uc := extractUUID content
    let blockUUID := if uc.1 = [] then rnd else uc.1
    let content2 := if uc.1 = [] then embedUUID uc.2 rnd else uc.2
    let newContent0 :=
      if existing ≠ [] ∧ ¬ (gs "\n").isSuffixOf existing then existing ++ ['\n']
      else existing
    let newContent := newContent0 ++ content2 ++ ['\n']
    let st := { st with fs := atomicWriteFs st.fs absPath newContent }
    let fileRelPath :=
      match cachedOpt with
      | some c => c.filePath
      | none => relPath
    let st := indexFileCore Y st fileRelPath newContent
    let st := rebuildLinksLocked st
    match alGet st.pages lowerName with
    | some cached2 =>
      match cached2.blocks with
      | .nil => (.ok (.mk blockUUID uc.2 .nil), st)
      | bs =>
        match lastBlockL bs with
        | some last => (.ok last, st)
        | none => (.ok (.mk blockUUID uc.2 .nil), st)
    | none => (.ok (.mk blockUUID uc.2 .nil), st)

/-- appendBlockInPage mirrors Client.AppendBlockInPage; rnd stands for
the random UUID the environment supplies. -/
def appendBlockInPage (Y : YamlIface) (st : VState)
    (page content rnd : GoStr) : Except VErr BlockE × VState :=
  let lowerName := goToLower page
  match alGet st.pages lowerName with
  | none =>
    let relPath := page ++ gs ".md"
    match safePath st.vaultPath relPath with
    | .error e => (.error e, st)
    | .ok absPath =>
      let st1 := { st with fs := atomicWriteFs st.fs absPath [] }
      let st2 := indexFileCore Y st1 relPath []
      appendBlockRest Y st2 lowerName relPath absPath
        (alGet st2.pages lowerName) content rnd
  | some cached =>
    match safePath st.vaultPath cached.filePath with
    | .error e => (.error e, st)
    | .ok absPath =>
      appendBlockRest Y st lowerName cached.filePath absPath (some cached)
        content rnd

/-- prependBlockInPage mirrors Client.PrependBlockInPage. -/
def prependBlockInPage (Y : YamlIface) (st : VState)
    (page content rnd : GoStr) : Except VErr BlockE × VState :=
  let lowerName := goToLower page
  let uc := extractUUID content
  let blockUUID := if uc.1 = [] then rnd else uc.1
  let content2 := if uc.1 = [] then embedUUID uc.2 rnd else uc.2
  match alGet st.pages lowerName with
  | none =>
    let relPath := page ++ gs ".md"
    match safePath st.vaultPath relPath with
    | .error e => (.error e, st)
    | .ok absPath =>
      let st := { st with fs := atomicWriteFs st.fs absPath (content2 ++ ['\n']) }
      let st := indexFileCore Y st relPath (content2 ++ ['\n'])
      let st := rebuildLinksLocked st
      match alGet st.pages lowerName with
      | some cached =>
        match cached.blocks with
        | .cons b _ => (.ok b, st)
        | .nil => (.ok (.mk blockUUID uc.2 .nil), st)
      | none => (.ok (.mk blockUUID uc.2 .nil), st)
  | some cached =>
    match safePath st.vaultPath cached.filePath with
    | .error e => (.error e, st)
    | .ok absPath =>
      match alGet st.fs absPath with
      | none => (.error .ioErr, st)
      | some existing =>
        let pb := parseFrontmatter Y existing
        let newContent :=
          match pb.1 with
          | some props => renderFrontmatter Y props ++ content2 ++ '\n' :: pb.2
          | none => content2 ++ '\n' :: existing
        let st := { st with fs := atomicWriteFs st.fs absPath newContent }
        let st := indexFileCore Y st cached.filePath newContent
        let st := rebuildLinksLocked st
        match alGet st.pages lowerName with
        | some cached2 =>
          match cached2.blocks with
          | .cons b _ => (.ok b, st)
          | .nil => (.ok (.mk blockUUID uc.2 .nil), st)
        | none => (.ok (.mk blockUUID uc.2 .nil), st)

/-- updateBlockWrite is the shared write-and-reindex tail of
UpdateBlock. -/
def updateBlockWrite (Y : YamlIface) (st : VState) (filePath absPath : GoStr)
    (fileStr oldInFile newInFile : GoStr) : Except VErr Unit × VState :=
  let newContent := replaceFirst fileStr oldInFile newInFile
  let st := { st with fs := atomicWriteFs st.fs absPath newContent }
  let st := indexFileCore Y st filePath newContent
  let st := rebuildLinksLocked st
  (.ok (), st)

/-- updateBlock mirrors Client.UpdateBlock. -/
def updateBlock (Y : YamlIface) (st : VState) (uuid content : GoStr) :
    Except VErr Unit × VState :=
  match alGet st.blockIndex uuid with
  | none => (.error .notFound, st)
  | some lookup =>
    match alGet st.pages (goToLower lookup.page) with
    | none => (.error .notFound, st)
    | some cached =>
      match safePath st.vaultPath cached.filePath with
      | .error e => (.error e, st)
      | .ok absPath =>
        match alGet st.fs absPath with
        | none => (.error .ioErr, st)
        | some fileStr =>
          let oldContent := lookup.content
          let oldContentWithUUID := embedUUID oldContent uuid
          if containsSub fileStr oldContentWithUUID then
            let pc := extractUUID content
            let newInFile :=
              if pc.1 = [] ∨ pc.1 = uuid then embedUUID pc.2 uuid else content
            updateBlockWrite Y st cached.filePath absPath fileStr
              oldContentWithUUID newInFile
          else if containsSub fileStr oldContent then
            let ec := extractUUID content
            let cleanContent := if ec.2 ≠ content then ec.2 else content
            updateBlockWrite Y st cached.filePath absPath fileStr oldContent
              (embedUUID cleanContent uuid)
          else (.error .notFound, st)

/-- removeBlock mirrors Client.RemoveBlock. -/
def removeBlock (Y : YamlIface) (st : VState) (uuid : GoStr) :
    Except VErr Unit × VState :=
  match alGet st.blockIndex uuid with
  | none => (.error .notFound, st)
  | some lookup =>
    match alGet st.pages (goToLower lookup.page) with
    | none => (.error .notFound, st)
    | some cached =>
      match safePath st.vaultPath cached.filePath with
      | .error e => (.error e, st)
      | .ok absPath =>
        match alGet st.fs absPath with
        | none => (.error .ioErr, st)
        | some fileStr =>
          let oldContent := lookup.content
          let withU := embedUUID oldContent uuid
          if containsSub fileStr (withU ++ ['\n']) then
            updateBlockWrite Y st cached.filePath absPath fileStr
              (withU ++ ['\n']) []
          else if containsSub fileStr withU then
            updateBlockWrite Y st cached.filePath absPath fileStr withU []
          else if containsSub fileStr (oldContent ++ ['\n']) then
            updateBlockWrite Y st cached.filePath absPath fileStr
              (oldContent ++ ['\n']) []
          else if containsSub fileStr oldContent then
            updateBlockWrite Y st cached.filePath absPath fileStr oldContent []
          else (.error .notFound, st)

/-- indexOfSub mirrors strings.Index (none for not found). -/
def indexOfSub : GoStr → GoStr → Option Nat
  | s, pat =>
    if pat.isPrefixOf s then some 0
    else
      match s with
      | [] => none
      | _ :: rest => (indexOfSub rest pat).map (· + 1)

/-- insertBlock mirrors Client.InsertBlock. -/
def insertBlock (Y : YamlIface) (st : VState) (srcUUID content rnd : GoStr) :
    Except VErr BlockE × VState :=
  match alGet st.blockIndex srcUUID with
  | none => (.error .notFound, st)
  | some lookup =>
    match alGet st.pages (goToLower lookup.page) with
    | none => (.error .notFound, st)
    | some cached =>
      match safePath st.vaultPath cached.filePath with
      | .error e => (.error e, st)
      | .ok absPath =>
        match alGet st.fs absPath with
        | none => (.error .ioErr, st)
        | some fileStr =>
          let parentContent := lookup.content
          match indexOfSub fileStr parentContent with
          | none => (.error .notFound, st)
          | some idx =>
            let insertPos := idx + parentContent.length
            let lvl := headingLevel ((splitNl parentContent).headD [])
            let childContent :=
              if lvl > 0 ∧ lvl < 6 ∧
                  headingLevel ((splitNl content).headD []) = 0 then
                List.replicate (lvl + 1) '#' ++ ' ' :: content
              else content
            let uc := extractUUID childContent
            let blockUUID := if uc.1 = [] then rnd else uc.1
            let childContent2 := if uc.1 = [] then embedUUID uc.2 rnd else uc.2
            let newContent := fileStr.take insertPos ++ '\n' :: childContent2 ++
              fileStr.drop insertPos
            let st := { st with fs := atomicWriteFs st.fs absPath newContent }
            let st := indexFileCore Y st cached.filePath newContent
            let st := rebuildLinksLocked st
            match alGet st.pages (goToLower lookup.page) with
            | some cached2 =>
              match findBlockByContentL childContent2 cached2.blocks with
              | some b => (.ok b, st)
              | none => (.ok (.mk blockUUID uc.2 .nil), st)
            | none => (.ok (.mk blockUUID uc.2 .nil), st)

/-- moveBlock mirrors Client.MoveBlock with the "before" option. -/
def moveBlock (Y : YamlIface) (st : VState) (uuid targetUUID : GoStr)
    (before : Bool) : Except VErr Unit × VState :=
  match alGet st.blockIndex uuid with
  | none => (.error .notFound, st)
  | some srcLookup =>
    match alGet st.blockIndex targetUUID with
    | none => (.error .notFound, st)
    | some tgtLookup =>
      let srcContent := srcLookup.content
      let tgtContent := tgtLookup.content
      if goToLower srcLookup.page = goToLower tgtLookup.page then
        match alGet st.pages (goToLower srcLookup.page) with
        | none => (.error .notFound, st)
        | some cached =>
          match safePath st.vaultPath cached.filePath with
          | .error e => (.error e, st)
          | .ok absPath =>
            match alGet st.fs absPath with
            | none => (.error .ioErr, st)
            | some existing =>
              let f1 := replaceFirst existing (srcContent ++ ['\n']) []
              let f2 :=
                if before then
                  replaceFirst f1 tgtContent (srcContent ++ '\n' :: tgtContent)
                else
                  replaceFirst f1 tgtContent (tgtContent ++ '\n' :: srcContent)
              let st := { st with fs := atomicWriteFs st.fs absPath f2 }
              let st := indexFileCore Y st cached.filePath f2
              let st := rebuildLinksLocked st
              (.ok (), st)
      else
        match alGet st.pages (goToLower srcLookup.page) with
        | none => (.error .notFound, st)
        | some srcCached =>
          match alGet st.pages (goToLower tgtLookup.page) with
          | none => (.error .notFound, st)
          | some tgtCached =>
            match safePath st.vaultPath srcCached.filePath with
            | .error e => (.error e, st)
            | .ok srcAbsPath =>
              match safePath st.vaultPath tgtCached.filePath with
              | .error e => (.error e, st)
              | .ok tgtAbsPath =>
                match alGet st.fs srcAbsPath with
                | none => (.error .ioErr, st)
                | some srcFile =>
                  let srcStr0 := replaceFirst srcFile (srcContent ++ ['\n']) []
                  let srcStr :=
                    if srcStr0 = srcFile then replaceFirst srcFile srcContent []
                    else srcStr0
                  let st := { st with fs := atomicWriteFs st.fs srcAbsPath srcStr }
                  match alGet st.fs tgtAbsPath with
                  | none => (.error .ioErr, st)
                  | some tgtFile =>
                    let tgtStr :=
                      if before then
                        replaceFirst tgtFile tgtContent
                          (srcContent ++ '\n' :: tgtContent)
                      else
                        replaceFirst tgtFile tgtContent
                          (tgtContent ++ '\n' :: srcContent)
                    let st := { st with fs := atomicWriteFs st.fs tgtAbsPath tgtStr }
                    let st := indexFileCore Y st srcCached.filePath srcStr
                    let st := indexFileCore Y st tgtCached.filePath tgtStr
                    let st := rebuildLinksLocked st
                    (.ok (), st)

/-- updateLinksAcrossVault mirrors Client.updateLinksAcrossVaultLocked
(per-file errors are logged and skipped; the fold carries the seen
set). -/
def updateLinksAcrossVault (Y : YamlIface) (st : VState)
    (oldName newName lowerOld : GoStr) : VState :=
  let oldLink := gs "[[" ++ oldName ++ gs "]]"
  let newLink := gs "[[" ++ newName ++ gs "]]"
  (st.pages.foldl (fun (acc : VState × List GoStr) kv =>
    let page := kv.2
    if page.lowerName ∈ acc.2 then acc
    else
      let seen := acc.2 ++ [page.lowerName]
      if page.lowerName = lowerOld then (acc.1, seen)
      else
        match safePath acc.1.vaultPath page.filePath with
        | .error _ => (acc.1, seen)
        | .ok absPath =>
          match alGet acc.1.fs absPath with
          | none => (acc.1, seen)
          | some content =>
            if ¬ containsSub content oldLink then (acc.1, seen)
            else
              let updated := replaceAll oldLink newLink content
              let st1 := { acc.1 with fs := atomicWriteFs acc.1.fs absPath updated }
              (indexFileCore Y st1 page.filePath updated, seen)) (st, [])).1

/-- renamePage mirrors Client.RenamePage (the empty-directory cleanup
has no effect in the map filesystem). -/
def renamePage (Y : YamlIface) (st : VState) (oldName newName : GoStr) :
    Except VErr Unit × VState :=
  if utf8Len newName > 255 ∨ Char.ofNat 0 ∈ newName then
    (.error .invalidInput, st)
  else
    let lowerOld := goToLower oldName
    match alGet st.pages lowerOld with
    | none => (.error .notFound, st)
    | some cached =>
      let lowerNew := goToLower newName
      if (alGet st.pages lowerNew).isSome then (.error .alreadyExists, st)
      else
        match safePath st.vaultPath cached.filePath with
        | .error e => (.error e, st)
        | .ok oldPath =>
          let newRelPath := newName ++ gs ".md"
          match safePath st.vaultPath newRelPath with
          | .error e => (.error e, st)
          | .ok newAbsPath =>
            match alGet st.fs oldPath with
            | none => (.error .ioErr, st)
            | some fileContent =>
              let st := { st with
                fs := alPut (alDelete st.fs oldPath) newAbsPath fileContent }
              let st := updateLinksAcrossVault Y st oldName newName lowerOld
              let st := removePageFromIndexLocked st lowerOld
              let st :=
                match alGet st.fs newAbsPath with
                | some content2 => indexFileCore Y st newRelPath content2
                | none => st
              let st := rebuildLinksLocked st
              (.ok (), st)

/-- trivYaml is a trivial concrete yaml backend for closed evaluations:
every parse yields a nil mapping, every render yields the empty
document. -/
def trivYaml : YamlIface :=
  { parse := fun _ => some none, render := fun _ => some [] }

/-- isOkE tests an Except for success. -/
def isOkE {ε α : Type} : Except ε α → Bool
  | .ok _ => true
  | .error _ => false

/-- name256 is a 256-byte page name: one byte over the documented
255-code-unit limit. -/
def name256 : GoStr := List.replicate 256 'a'

/-- stEmptyV is an empty vault rooted at /v. -/
def stEmptyV : VState :=
  ⟨gs "/v", [], [], [], [], ⟨[], []⟩, []⟩

set_option maxRecDepth 100000 in
/-- C1: the 255-code-unit / null-byte validation is absent from
AppendBlockInPage — a 256-character page name is accepted and the page
file is created. -/
theorem C1_counterexample :
    utf8Len name256 = 256 ∧
    isOkE (appendBlockInPage trivYaml stEmptyV name256 (gs "hi")
      (gs "01234567-89ab-cdef-0123-456789abcdef")).1 = true ∧
    (alGet (appendBlockInPage trivYaml stEmptyV name256 (gs "hi")
      (gs "01234567-89ab-cdef-0123-456789abcdef")).2.fs
        (gs "/v/" ++ name256 ++ gs ".md")).isSome = true := by
  refine ⟨by decide, ?_, ?_⟩ <;> decide

/-- C1 (amended): safePath only ever fails with the path-escape error,
and in every write operation a safePath failure aborts the operation
with that error and the state (filesystem included) exactly as
received; the 255-code-unit / null-byte validation guards CreatePage
and RenamePage (only). -/
theorem C1_path_safety :
    (∀ v r e, safePath v r = .error e → e = .pathEscape) ∧
    (∀ Y st name props, (utf8Len name > 255 ∨ Char.ofNat 0 ∈ name) →
      createPage Y st name props = (.error .invalidInput, st)) ∧
    (∀ Y st name props e, ¬ (utf8Len name > 255 ∨ Char.ofNat 0 ∈ name) →
      alGet st.pages (goToLower name) = none →
      safePath st.vaultPath (name ++ gs ".md") = .error e →
      createPage Y st name props = (.error e, st)) ∧
    (∀ Y st page content rnd e,
      alGet st.pages (goToLower page) = none →
      safePath st.vaultPath (page ++ gs ".md") = .error e →
      appendBlockInPage Y st page content rnd = (.error e, st)) ∧
    (∀ Y st page content rnd cached e,
      alGet st.pages (goToLower page) = some cached →
      safePath st.vaultPath cached.filePath = .error e →
      appendBlockInPage Y st page content rnd = (.error e, st)) ∧
    (∀ Y st page content rnd e,
      alGet st.pages (goToLower page) = none →
      safePath st.vaultPath (page ++ gs ".md") = .error e →
      prependBlockInPage Y st page content rnd = (.error e, st)) ∧
    (∀ Y st page content rnd cached e,
      alGet st.pages (goToLower page) = some cached →
      safePath st.vaultPath cached.filePath = .error e →
      prependBlockInPage Y st page content rnd = (.error e, st)) ∧
    (∀ Y st oldName newName,
      (utf8Len newName > 255 ∨ Char.ofNat 0 ∈ newName) →
      renamePage Y st oldName newName = (.error .invalidInput, st)) ∧
    (∀ Y st oldName newName cached e,
      ¬ (utf8Len newName > 255 ∨ Char.ofNat 0 ∈ newName) →
      alGet st.pages (goToLower oldName) = some cached →
      alGet st.pages (goToLower newName) = none →
      safePath st.vaultPath cached.filePath = .error e →
      renamePage Y st oldName newName = (.error e, st)) ∧
    (∀ Y st oldName newName cached p e,
      ¬ (utf8Len newName > 255 ∨ Char.ofNat 0 ∈ newName) →
      alGet st.pages (goToLower oldName) = some cached →
      alGet st.pages (goToLower newName) = none →
      safePath st.vaultPath cached.filePath = .ok p →
      safePath st.vaultPath (newName ++ gs ".md") = .error e →
      renamePage Y st oldName newName = (.error e, st)) ∧
    (∀ Y st uuid content lookup cached e,
      alGet st.blockIndex uuid = some lookup →
      alGet st.pages (goToLower lookup.page) = some cached →
      safePath st.vaultPath cached.filePath = .error e →
      updateBlock Y st uuid content = (.error e, st)) ∧
    (∀ Y st uuid lookup cached e,
      alGet st.blockIndex uuid = some lookup →
      alGet st.pages (goToLower lookup.page) = some cached →
      safePath st.vaultPath cached.filePath = .error e →
      removeBlock Y st uuid = (.error e, st)) ∧
    (∀ Y st src content rnd lookup cached e,
      alGet st.blockIndex src = some lookup →
      alGet st.pages (goToLower lookup.page) = some cached →
      safePath st.vaultPath cached.filePath = .error e →
      insertBlock Y st src content rnd = (.error e, st)) ∧
    (∀ Y st u tu b sl tl cached e,
      alGet st.blockIndex u = some sl →
      alGet st.blockIndex tu = some tl →
      goToLower sl.page = goToLower tl.page →
      alGet st.pages (goToLower sl.page) = some cached →
      safePath st.vaultPath cached.filePath = .error e →
      moveBlock Y st u tu b = (.error e, st)) ∧
    (∀ Y st u tu b sl tl sc tc e,
      alGet st.blockIndex u = some sl →
      alGet st.blockIndex tu = some tl →
      goToLower sl.page ≠ goToLower tl.page →
      alGet st.pages (goToLower sl.page) = some sc →
      alGet st.pages (goToLower tl.page) = some tc →
      safePath st.vaultPath sc.filePath = .error e →
      moveBlock Y st u tu b = (.error e, st)) := by
  refine ⟨?_, ?_, ?_, ?_, ?_, ?_, ?_, ?_, ?_, ?_, ?_, ?_, ?_, ?_, ?_⟩
  · intro v r e h
    simp only [safePath] at h
    split at h
    · exact (Except.error.injEq _ _).mp h.symm
    · exact absurd h (by simp)
  · intro Y st name props h
    simp only [createPage, if_pos h]
  · intro Y st name props e h1 h2 h3
    simp only [createPage, if_neg h1, h2, Option.isSome_none,
      Bool.false_eq_true, if_false, h3]
  · intro Y st page content rnd e h1 h2
    simp only [appendBlockInPage, h1, h2]
  · intro Y st page content rnd cached e h1 h2
    simp only [appendBlockInPage, h1, h2]
  · intro Y st page content rnd e h1 h2
    simp only [prependBlockInPage, h1, h2]
  · intro Y st page content rnd cached e h1 h2
    simp only [prependBlockInPage, h1, h2]
  · intro Y st oldName newName h
    simp only [renamePage, if_pos h]
  · intro Y st oldName newName cached e h1 h2 h3 h4
    simp only [renamePage, if_neg h1, h2, h3, Option.isSome_none,
      Bool.false_eq_true, if_false, h4]
  · intro Y st oldName newName cached p e h1 h2 h3 h4 h5
    simp only [renamePage, if_neg h1, h2, h3, Option.isSome_none,
      Bool.false_eq_true, if_false, h4, h5]
  · intro Y st uuid content lookup cached e h1 h2 h3
    simp only [updateBlock, h1, h2, h3]
  · intro Y st uuid lookup cached e h1 h2 h3
    simp only [removeBlock, h1, h2, h3]
  · intro Y st src content rnd lookup cached e h1 h2 h3
    simp only [insertBlock, h1, h2, h3]
  · intro Y st u tu b sl tl cached e h1 h2 h3 h4 h5
    simp only [moveBlock, h1, h2, if_pos h3, h4, h5]
  · intro Y st u tu b sl tl sc tc e h1 h2 h3 h4 h5 h6
    simp only [moveBlock, h1, h2, if_neg h3, h4, h5, h6]

/-- pOkW is a cached page whose path stays inside the vault. -/
def pOkW : CPage := ⟨⟨gs "p", gs "p", false⟩, none, gs "p", gs "p.md", .nil⟩

/-- pEscW is a cached page whose stored file path escapes the vault. -/
def pEscW : CPage :=
  ⟨⟨gs "q", gs "q", false⟩, none, gs "q", gs "../esc.md", .nil⟩

/-- stW is a concrete vault state exercising every safePath failure. -/
def stW : VState :=
  ⟨gs "/v", [], [(gs "p", pOkW), (gs "q", pEscW)], [],
   [(gs "u", ⟨gs "c", gs "q"⟩), (gs "u2", ⟨gs "d", gs "q"⟩),
    (gs "u3", ⟨gs "d3", gs "p"⟩)],
   ⟨[], []⟩, [(gs "/v/p.md", gs "c")]⟩

/-- C1 witness: every conjunct of the amended theorem applied at a
concrete vault state. -/
theorem C1_path_safety_witness :
    (VErr.pathEscape = VErr.pathEscape) ∧
    createPage trivYaml stW [Char.ofNat 0] [] =
      (.error .invalidInput, stW) ∧
    createPage trivYaml stW (gs "../x") [] = (.error .pathEscape, stW) ∧
    appendBlockInPage trivYaml stW (gs "../x") (gs "c") (gs "r") =
      (.error .pathEscape, stW) ∧
    appendBlockInPage trivYaml stW (gs "q") (gs "c") (gs "r") =
      (.error .pathEscape, stW) ∧
    prependBlockInPage trivYaml stW (gs "../x") (gs "c") (gs "r") =
      (.error .pathEscape, stW) ∧
    prependBlockInPage trivYaml stW (gs "q") (gs "c") (gs "r") =
      (.error .pathEscape, stW) ∧
    renamePage trivYaml stW (gs "p") [Char.ofNat 0] =
      (.error .invalidInput, stW) ∧
    renamePage trivYaml stW (gs "q") (gs "n") = (.error .pathEscape, stW) ∧
    renamePage trivYaml stW (gs "p") (gs "../n") =
      (.error .pathEscape, stW) ∧
    updateBlock trivYaml stW (gs "u") (gs "new") =
      (.error .pathEscape, stW) ∧
    removeBlock trivYaml stW (gs "u") = (.error .pathEscape, stW) ∧
    insertBlock trivYaml stW (gs "u") (gs "c2") (gs "r") =
      (.error .pathEscape, stW) ∧
    moveBlock trivYaml stW (gs "u") (gs "u2") false =
      (.error .pathEscape, stW) ∧
    moveBlock trivYaml stW (gs "u") (gs "u3") false =
      (.error .pathEscape, stW) :=
  ⟨C1_path_safety.1 (gs "/v") (gs "../x") .pathEscape (by rfl),
   C1_path_safety.2.1 trivYaml stW [Char.ofNat 0] [] (by decide),
   C1_path_safety.2.2.1 trivYaml stW (gs "../x") [] .pathEscape
     (by decide) (by rfl) (by rfl),
   C1_path_safety.2.2.2.1 trivYaml stW (gs "../x") (gs "c") (gs "r")
     .pathEscape (by rfl) (by rfl),
   C1_path_safety.2.2.2.2.1 trivYaml stW (gs "q") (gs "c") (gs "r") pEscW
     .pathEscape (by rfl) (by rfl),
   C1_path_safety.2.2.2.2.2.1 trivYaml stW (gs "../x") (gs "c") (gs "r")
     .pathEscape (by rfl) (by rfl),
   C1_path_safety.2.2.2.2.2.2.1 trivYaml stW (gs "q") (gs "c") (gs "r")
     pEscW .pathEscape (by rfl) (by rfl),
   C1_path_safety.2.2.2.2.2.2.2.1 trivYaml stW (gs "p") [Char.ofNat 0]
     (by decide),
   C1_path_safety.2.2.2.2.2.2.2.2.1 trivYaml stW (gs "q") (gs "n") pEscW
     .pathEscape (by decide) (by rfl) (by rfl) (by rfl),
   C1_path_safety.2.2.2.2.2.2.2.2.2.1 trivYaml stW (gs "p") (gs "../n")
     pOkW (gs "/v/p.md") .pathEscape (by decide) (by rfl) (by rfl)
     (by rfl) (by rfl),
   C1_path_safety.2.2.2.2.2.2.2.2.2.2.1 trivYaml stW (gs "u") (gs "new")
     ⟨gs "c", gs "q"⟩ pEscW .pathEscape (by rfl) (by rfl) (by rfl),
   C1_path_safety.2.2.2.2.2.2.2.2.2.2.2.1 trivYaml stW (gs "u")
     ⟨gs "c", gs "q"⟩ pEscW .pathEscape (by rfl) (by rfl) (by rfl),
   C1_path_safety.2.2.2.2.2.2.2.2.2.2.2.2.1 trivYaml stW (gs "u")
     (gs "c2") (gs "r") ⟨gs "c", gs "q"⟩ pEscW .pathEscape (by rfl)
     (by rfl) (by rfl),
   C1_path_safety.2.2.2.2.2.2.2.2.2.2.2.2.2.1 trivYaml stW (gs "u")
     (gs "u2") false ⟨gs "c", gs "q"⟩ ⟨gs "d", gs "q"⟩ pEscW .pathEscape
     (by rfl) (by rfl) (by rfl) (by rfl) (by rfl),
   C1_path_safety.2.2.2.2.2.2.2.2.2.2.2.2.2.2 trivYaml stW (gs "u")
     (gs "u3") false ⟨gs "c", gs "q"⟩ ⟨gs "d3", gs "p"⟩ pEscW pOkW
     .pathEscape (by rfl) (by rfl) (by decide) (by rfl)
     (by rfl) (by rfl)⟩

lemma isPrefixOf_append_self (l t : GoStr) : l.isPrefixOf (l ++ t) = true := by
  induction l with
  | nil => simp [List.isPrefixOf]
  | cons c cs ih => simp [List.isPrefixOf, ih]

lemma containsSub_of_pre (s pat : GoStr) (h : pat.isPrefixOf s = true) :
    containsSub s pat = true := by
  unfold containsSub
  rw [h]
  simp

lemma replaceFirst_pre (pat s rep : GoStr) (h : pat ≠ []) :
    replaceFirst (pat ++ s) pat rep = rep ++ s := by
  unfold replaceFirst
  rw [if_neg h, if_pos (isPrefixOf_append_self pat s), List.drop_left]

lemma splitNl_ne_nil (s : GoStr) : splitNl s ≠ [] := by
  cases s with
  | nil => simp [splitNl]
  | cons c rest =>
    by_cases h : c = '\n'
    · simp [splitNl, h]
    · cases hsr : splitNl rest <;> simp [splitNl, h, hsr]

lemma splitNl_append_cons (a b : GoStr) :
    splitNl (a ++ '\n' :: b) = splitNl a ++ splitNl b := by
  induction a with
  | nil => simp [splitNl]
  | cons c a' ih =>
    by_cases h : c = '\n'
    · simp [splitNl, h, ih]
    · obtain ⟨l, ls, hl⟩ : ∃ l ls, splitNl a' = l :: ls := by
        cases hsr : splitNl a' with
        | nil => exact absurd hsr (splitNl_ne_nil a')
        | cons l ls => exact ⟨l, ls, rfl⟩
      simp [splitNl, h, ih, hl]

lemma splitNl_no_nl (s : GoStr) (h : '\n' ∉ s) : splitNl s = [s] := by
  induction s with
  | nil => rfl
  | cons c rest ih =>
    have hc : c ≠ '\n' := fun hc => h (hc ▸ List.mem_cons_self c rest)
    have hr : splitNl rest = [rest] := ih (fun hm => h (List.mem_cons_of_mem c hm))
    simp [splitNl, hc, hr]

lemma joinNl_splitNl (s : GoStr) : joinNl (splitNl s) = s := by
  induction s with
  | nil => rfl
  | cons c rest ih =>
    by_cases h : c = '\n'
    · subst h
      obtain ⟨l, ls, hl⟩ : ∃ l ls, splitNl rest = l :: ls := by
        cases hsr : splitNl rest with
        | nil => exact absurd hsr (splitNl_ne_nil rest)
        | cons l ls => exact ⟨l, ls, rfl⟩
      rw [hl] at ih
      simp [splitNl, hl, joinNl, ih]
    · obtain ⟨l, ls, hl⟩ : ∃ l ls, splitNl rest = l :: ls := by
        cases hsr : splitNl rest with
        | nil => exact absurd hsr (splitNl_ne_nil rest)
        | cons l ls => exact ⟨l, ls, rfl⟩
      rw [hl] at ih
      cases ls with
      | nil =>
        simp only [joinNl] at ih
        simp [splitNl, h, hl, joinNl, ih]
      | cons l2 ls2 =>
        simp only [joinNl] at ih
        simp [splitNl, h, hl, joinNl, ih]

lemma trimRightNlSp_snoc_nl (x : GoStr) :
    trimRightNlSp (x ++ ['\n']) = trimRightNlSp x := by
  simp [trimRightNlSp]

lemma dropWhile_fix_head {p : Char → Bool} {l : GoStr}
    (h : l.dropWhile p = l) (hne : l ≠ []) :
    ∃ c t, l = c :: t ∧ p c = false := by
  cases l with
  | nil => exact absurd rfl hne
  | cons c t =>
    refine ⟨c, t, rfl, ?_⟩
    by_contra hc
    have hc' : p c = true := by
      cases hpc : p c
      · exact absurd hpc hc
      · rfl
    rw [List.dropWhile_cons, hc'] at h
    simp only [if_true] at h
    have := congrArg List.length h
    have hle := (List.dropWhile_suffix (l := t) p).length_le
    simp at this
    omega

lemma trimRightNlSp_append_keep (a b : GoStr) (hb : trimRightNlSp b = b)
    (hne : b ≠ []) : trimRightNlSp (a ++ b) = a ++ b := by
  have hrb : b.reverse.dropWhile (fun c => c = '\n' || c = ' ') = b.reverse := by
    have := congrArg List.reverse hb
    simpa [trimRightNlSp] using this
  have hrne : b.reverse ≠ [] := by simp [hne]
  obtain ⟨c, t, hct, hpc⟩ := dropWhile_fix_head hrb hrne
  have key : List.dropWhile (fun c => c = '\n' || c = ' ')
      (b.reverse ++ a.reverse) = b.reverse ++ a.reverse := by
    rw [hct, List.cons_append, List.dropWhile_cons, hpc]
    simp
  unfold trimRightNlSp
  rw [List.reverse_append, key, ← List.reverse_append, List.reverse_reverse]

lemma trimLeft_cons_space (c : Char) (s : GoStr) (h : goIsSpace c = true) :
    trimLeft (c :: s) = trimLeft s := by
  simp [trimLeft, List.dropWhile_cons, h]

lemma trimSpace_cons_space (c : Char) (s : GoStr) (h : goIsSpace c = true) :
    trimSpace (c :: s) = trimSpace s := by
  simp [trimSpace, trimLeft_cons_space c s h]

lemma trimRight_prefix (s : GoStr) : ∃ t, s = trimRight s ++ t := by
  have hsuf : s.reverse.dropWhile goIsSpace <:+ s.reverse :=
    List.dropWhile_suffix goIsSpace
  obtain ⟨pre, hpre⟩ := hsuf
  refine ⟨pre.reverse, ?_⟩
  have := congrArg List.reverse hpre
  simpa [trimRight] using this.symm

lemma trimSpace_cons_ne_nil (c : Char) (t : GoStr) (h : goIsSpace c = false) :
    trimSpace (c :: t) ≠ [] := by
  have hl : trimLeft (c :: t) = c :: t := by
    simp [trimLeft, List.dropWhile_cons, h]
  simp only [trimSpace, hl]
  intro hcon
  have : (c :: t).reverse.dropWhile goIsSpace = [] := by
    have := congrArg List.reverse hcon
    simpa [trimRight] using this
  rw [List.dropWhile_eq_nil_iff] at this
  have hc := this c (by simp)
  rw [h] at hc
  exact Bool.false_ne_true hc

lemma headingLevel_head_plain (c : Char) (t : GoStr) (hs : goIsSpace c = false)
    (hh : c ≠ '#') : headingLevel (c :: t) = 0 := by
  have hl : trimLeft (c :: t) = c :: t := by
    simp [trimLeft, List.dropWhile_cons, hs]
  have hpre : hasPre (trimSpace (c :: t)) (gs "#") = false := by
    rw [trimSpace, hl]
    obtain ⟨r, hr⟩ := trimRight_prefix (c :: t)
    cases hu2 : trimRight (c :: t) with
    | nil => rfl
    | cons d t' =>
      rw [hu2, List.cons_append] at hr
      have hd : c = d := ((List.cons.injEq c t d (t' ++ r)).mp hr).1
      subst hd
      show (gs "#").isPrefixOf (c :: t') = false
      simp [gs, List.isPrefixOf, Ne.symm hh]
  simp only [headingLevel]
  rw [hpre]
  simp

lemma matchSentinelAt_cons_ne (c : Char) (t : GoStr) (h : c ≠ '<') :
    matchSentinelAt (c :: t) = none := by
  have hp : hasPre (c :: t) (gs "<!--") = false := by
    show (gs "<!--").isPrefixOf (c :: t) = false
    simp [gs, List.isPrefixOf, Ne.symm h]
  simp [matchSentinelAt, hp]

lemma matchSentinelAt_nil : matchSentinelAt ([] : GoStr) = none := by rfl

lemma stripSentinels_nomatch (fuel : Nat) (s : GoStr)
    (h : ∀ i, matchSentinelAt (s.drop i) = none) :
    stripSentinels fuel s = s := by
  induction fuel generalizing s with
  | zero => rfl
  | succ n ih =>
    cases s with
    | nil => rfl
    | cons c rest =>
      have h0 := h 0
      simp only [List.drop_zero] at h0
      rw [stripSentinels, h0]
      show c :: stripSentinels n rest = c :: rest
      exact congrArg (c :: ·) (ih rest (fun i => h (i + 1)))

lemma scanSentinel_nomatch (fuel : Nat) (s : GoStr)
    (h : ∀ i, matchSentinelAt (s.drop i) = none) :
    scanSentinel fuel s = none := by
  induction fuel generalizing s with
  | zero => rfl
  | succ n ih =>
    cases s with
    | nil => rfl
    | cons c rest =>
      have h0 := h 0
      simp only [List.drop_zero] at h0
      rw [scanSentinel, h0]
      show scanSentinel n rest = none
      exact ih rest (fun i => h (i + 1))

lemma nomatch_of_bounded (s : GoStr)
    (h : ∀ i ≤ s.length, matchSentinelAt (s.drop i) = none) :
    ∀ i, matchSentinelAt (s.drop i) = none := by
  intro i
  by_cases hi : i ≤ s.length
  · exact h i hi
  · rw [List.drop_eq_nil_of_le (by omega)]
    exact matchSentinelAt_nil

lemma extractUUID_nosent (s : GoStr)
    (h : ∀ i, matchSentinelAt (s.drop i) = none) :
    extractUUID s = ([], s) := by
  simp [extractUUID, scanSentinel_nomatch s.length s h]

lemma hex_not_reSp (c : Char) (h : hexDigitChar c = true) : reSp c = false := by
  simp only [hexDigitChar, Bool.decide_or, Bool.or_eq_true, decide_eq_true_eq] at h
  simp only [reSp, Bool.decide_or, Bool.or_eq_false_iff, decide_eq_false_iff_not]
  rcases h with ⟨h1, h2⟩ | ⟨h1, h2⟩ <;>
    refine ⟨fun hc => ?_, fun hc => ?_, fun hc => ?_, fun hc => ?_, fun hc => ?_⟩ <;>
    subst_eqs <;> first
      | (revert h1; decide)
      | (revert h2; decide)
      | (subst hc; revert h1; decide)
      | (rw [show c = Char.ofNat 12 from Char.eq_of_val_eq (by
          refine UInt32.ext ?_
          simpa using hc)] at h1
         revert h1; decide)

lemma uuidShape_ne_nil (u : GoStr) (h : uuidShape u = true) : u ≠ [] := by
  intro hc
  have := uuidShape_len u h
  rw [hc] at this
  simp at this

lemma matchSentinelAt_embed (u r : GoStr) (hu : uuidShape u = true) :
    matchSentinelAt (gs "<!-- id: " ++ u ++ gs " -->" ++ r) = some (u, r) := by
  have h36 := uuidShape_len u hu
  obtain ⟨c0, u', rfl⟩ : ∃ c0 u', u = c0 :: u' := by
    cases u with
    | nil => simp at h36
    | cons a b => exact ⟨a, b, rfl⟩
  have hc0 : hexDigitChar c0 = true := by
    have h8 : ((c0 :: u').take 8).all hexDigitChar = true := by
      simp only [uuidShape, Bool.and_eq_true, decide_eq_true_eq] at hu
      exact hu.2.1
    rw [show (8 : Nat) = 7 + 1 from rfl, List.take_succ_cons, List.all_cons,
      Bool.and_eq_true] at h8
    exact h8.1
  have hres : reSp c0 = false := hex_not_reSp c0 hc0
  have g1 : gs "<!-- id: " =
      '<' :: '!' :: '-' :: '-' :: ' ' :: 'i' :: 'd' :: ':' :: ' ' ::
        ([] : GoStr) := by decide
  have g2 : gs " -->" = ' ' :: '-' :: '-' :: '>' :: ([] : GoStr) := by decide
  rw [g1, g2]
  simp only [List.cons_append, List.nil_append, List.append_assoc]
  simp only [matchSentinelAt]
  have e1 : hasPre ('<' :: '!' :: '-' :: '-' :: ' ' :: 'i' :: 'd' :: ':' ::
      ' ' :: c0 :: (u' ++ ' ' :: '-' :: '-' :: '>' :: r)) (gs "<!--") =
      true := rfl
  rw [if_pos e1]
  have e2 : List.drop 4 ('<' :: '!' :: '-' :: '-' :: ' ' :: 'i' :: 'd' :: ':' ::
      ' ' :: c0 :: (u' ++ ' ' :: '-' :: '-' :: '>' :: r)) =
      ' ' :: 'i' :: 'd' :: ':' :: ' ' :: c0 ::
        (u' ++ ' ' :: '-' :: '-' :: '>' :: r) := rfl
  rw [e2]
  have e3 : List.dropWhile reSp (' ' :: 'i' :: 'd' :: ':' :: ' ' :: c0 ::
      (u' ++ ' ' :: '-' :: '-' :: '>' :: r)) =
      'i' :: 'd' :: ':' :: ' ' :: c0 ::
        (u' ++ ' ' :: '-' :: '-' :: '>' :: r) := by
    rw [List.dropWhile_cons]
    simp [List.dropWhile_cons, show reSp ' ' = true from rfl,
      show reSp 'i' = false from rfl]
  rw [e3]
  have e4 : hasPre ('i' :: 'd' :: ':' :: ' ' :: c0 ::
      (u' ++ ' ' :: '-' :: '-' :: '>' :: r)) (gs "id:") = true := rfl
  rw [if_pos e4]
  have e5 : List.drop 3 ('i' :: 'd' :: ':' :: ' ' :: c0 ::
      (u' ++ ' ' :: '-' :: '-' :: '>' :: r)) =
      ' ' :: c0 :: (u' ++ ' ' :: '-' :: '-' :: '>' :: r) := rfl
  rw [e5]
  have e6 : List.dropWhile reSp (' ' :: c0 ::
      (u' ++ ' ' :: '-' :: '-' :: '>' :: r)) =
      c0 :: (u' ++ ' ' :: '-' :: '-' :: '>' :: r) := by
    rw [List.dropWhile_cons]
    simp [List.dropWhile_cons, show reSp ' ' = true from rfl, hres]
  rw [e6]
  have e7 : List.take 36 (c0 :: (u' ++ ' ' :: '-' :: '-' :: '>' :: r)) =
      c0 :: u' := by
    rw [show c0 :: (u' ++ ' ' :: '-' :: '-' :: '>' :: r) =
      (c0 :: u') ++ (' ' :: '-' :: '-' :: '>' :: r) from rfl]
    exact List.take_left' h36
  have e8 : List.drop 36 (c0 :: (u' ++ ' ' :: '-' :: '-' :: '>' :: r)) =
      ' ' :: '-' :: '-' :: '>' :: r := by
    rw [show c0 :: (u' ++ ' ' :: '-' :: '-' :: '>' :: r) =
      (c0 :: u') ++ (' ' :: '-' :: '-' :: '>' :: r) from rfl]
    exact List.drop_left' h36
  rw [e7, e8, if_pos hu]
  have e9 : List.dropWhile reSp (' ' :: '-' :: '-' :: '>' :: r) =
      '-' :: '-' :: '>' :: r := by
    rw [List.dropWhile_cons]
    simp [List.dropWhile_cons, show reSp ' ' = true from rfl,
      show reSp '-' = false from rfl]
  rw [e9]
  have g3 : gs "-->" = '-' :: '-' :: '>' :: ([] : GoStr) := by decide
  have e10 : hasPre ('-' :: '-' :: '>' :: r) (gs "-->") = true := by
    show (gs "-->").isPrefixOf ('-' :: '-' :: '>' :: r) = true
    rw [g3]
    simp [List.isPrefixOf]
  rw [if_pos e10]
  rfl

lemma extractUUID_sentinel (s u after : GoStr)
    (hm : matchSentinelAt s = some (u, after))
    (hn : ∀ i, matchSentinelAt (after.drop i) = none) :
    extractUUID s = (u, trimSpace after) := by
  cases s with
  | nil => rw [matchSentinelAt_nil] at hm; exact absurd hm (by simp)
  | cons c t =>
    have hscan : scanSentinel (c :: t).length (c :: t) = some u := by
      rw [List.length_cons, scanSentinel, hm]
    have hstrip : stripSentinels (c :: t).length (c :: t) = after := by
      rw [List.length_cons, stripSentinels, hm]
      exact stripSentinels_nomatch t.length after hn
    rw [extractUUID, hscan, hstrip]

lemma embedUUID_nonheading (c u : GoStr)
    (h : headingLevel ((splitNl c).headD []) = 0) :
    embedUUID c u = gs "<!-- id: " ++ u ++ gs " -->" ++ '\n' :: c := by
  obtain ⟨l, ls, hl⟩ : ∃ l ls, splitNl c = l :: ls := by
    cases hsr : splitNl c with
    | nil => exact absurd hsr (splitNl_ne_nil c)
    | cons l ls => exact ⟨l, ls, rfl⟩
  rw [hl] at h
  simp only [List.headD_cons] at h
  rw [embedUUID, hl]
  show (if headingLevel l > 0 then
      joinNl ((trimSpace l ++ ' ' :: (gs "<!-- id: " ++ u ++ gs " -->")) :: ls)
    else gs "<!-- id: " ++ u ++ gs " -->" ++ '\n' :: c) =
    gs "<!-- id: " ++ u ++ gs " -->" ++ '\n' :: c
  rw [if_neg (by omega)]

lemma collectSects_nohead (lines : List GoStr)
    (h : ∀ l ∈ lines, headingLevel l = 0) :
    ∀ (i s0 : Nat) (acc : List GoStr),
      collectSects i ⟨0, s0, acc⟩ lines =
        if acc ++ lines = [] then [] else [⟨0, s0, acc ++ lines⟩] := by
  induction lines with
  | nil =>
    intro i s0 acc
    rw [collectSects]
    by_cases hacc : acc = []
    · subst hacc; simp
    · simp [hacc]
  | cons line rest ih =>
    intro i s0 acc
    have hline : headingLevel line = 0 := h line (by simp)
    rw [collectSects]
    simp only [hline]
    rw [if_neg (by omega)]
    rw [ih (fun l hl => h l (List.mem_cons_of_mem line hl)) (i + 1) s0
      (acc ++ [line])]
    rw [if_neg (by simp)]
    rw [if_neg (by simp)]
    simp

lemma parse_embed (p u nc : GoStr) (hu : uuidShape u = true)
    (hnlu : '\n' ∉ u)
    (hsent : ∀ i, matchSentinelAt (nc.drop i) = none)
    (hnh : ∀ l ∈ splitNl nc, headingLevel l = 0)
    (hne : nc ≠ []) (hnr : trimRightNlSp nc = nc) :
    allBlocks (parseMarkdownBlocks p (embedUUID nc u ++ ['\n'])) =
      [(u, trimSpace nc)] := by
  have hhead0 : headingLevel ((splitNl nc).headD []) = 0 := by
    obtain ⟨l, ls, hl⟩ : ∃ l ls, splitNl nc = l :: ls := by
      cases hsr : splitNl nc with
      | nil => exact absurd hsr (splitNl_ne_nil nc)
      | cons l ls => exact ⟨l, ls, rfl⟩
    rw [hl]
    exact hnh l (by rw [hl]; simp)
  rw [embedUUID_nonheading nc u hhead0]
  have g1 : gs "<!-- id: " = '<' :: gs "!-- id: " := by decide
  set comment : GoStr := gs "<!-- id: " ++ u ++ gs " -->" with hcdef
  have hw : (comment ++ '\n' :: nc) ++ ['\n'] = comment ++ '\n' :: (nc ++ ['\n']) := by
    simp
  rw [hw]
  have hsplit : splitNl (comment ++ '\n' :: (nc ++ ['\n'])) =
      comment :: (splitNl nc ++ [[]]) := by
    have hnlc : '\n' ∉ comment := by
      rw [hcdef]
      simp only [List.mem_append]
      rintro ((hc | hc) | hc)
      · revert hc; decide
      · exact hnlu hc
      · revert hc; decide
    rw [splitNl_append_cons, splitNl_no_nl comment hnlc]
    have : nc ++ ['\n'] = nc ++ '\n' :: [] := rfl
    rw [this, splitNl_append_cons]
    rfl
  have hts : trimSpace (comment ++ '\n' :: (nc ++ ['\n'])) ≠ [] := by
    have hc : comment ++ '\n' :: (nc ++ ['\n']) =
        '<' :: (gs "!-- id: " ++ u ++ gs " -->" ++ '\n' :: (nc ++ ['\n'])) := by
      rw [hcdef, g1]
      simp only [List.cons_append]
    rw [hc]
    exact trimSpace_cons_ne_nil '<' _ (by decide)
  have hall : ∀ l ∈ splitNl (comment ++ '\n' :: (nc ++ ['\n'])),
      headingLevel l = 0 := by
    rw [hsplit]
    intro l hl
    rcases List.mem_cons.mp hl with hl | hl
    · subst hl
      rw [hcdef]
      have hc : gs "<!-- id: " ++ u ++ gs " -->" =
          '<' :: (gs "!-- id: " ++ u ++ gs " -->") := by
        rw [g1]
        simp only [List.cons_append]
      rw [hc]
      exact headingLevel_head_plain '<' _ (by decide) (by decide)
    · rcases List.mem_append.mp hl with hl | hl
      · exact hnh l hl
      · simp only [List.mem_singleton] at hl
        subst hl
        decide
  have hraw : trimRightNlSp (joinNl (splitNl (comment ++ '\n' ::
      (nc ++ ['\n'])))) = comment ++ '\n' :: nc := by
    rw [joinNl_splitNl]
    rw [← hw, trimRightNlSp_snoc_nl]
    have : comment ++ '\n' :: nc = (comment ++ ['\n']) ++ nc := by simp
    rw [this, trimRightNlSp_append_keep _ nc hnr hne]
  have hmatch : matchSentinelAt (comment ++ '\n' :: nc) =
      some (u, '\n' :: nc) := by
    rw [hcdef]
    exact matchSentinelAt_embed u ('\n' :: nc) hu
  have hnafter : ∀ i, matchSentinelAt (('\n' :: nc).drop i) = none := by
    intro i
    cases i with
    | zero =>
      simp only [List.drop_zero]
      exact matchSentinelAt_cons_ne '\n' nc (by decide)
    | succ j =>
      simp only [List.drop_succ_cons]
      exact hsent j
  have hextract : extractUUID (comment ++ '\n' :: nc) = (u, trimSpace nc) := by
    rw [extractUUID_sentinel _ u ('\n' :: nc) hmatch hnafter,
      trimSpace_cons_space '\n' nc (by decide)]
  rw [hsplit] at hall hraw
  rw [parseMarkdownBlocks, if_neg (by simp [hts])]
  rw [hsplit]
  rw [collectSects_nohead (comment :: (splitNl nc ++ [[]])) hall 0 0 []]
  rw [if_neg (by simp)]
  simp only [List.nil_append, List.foldl_cons, List.foldl_nil]
  rw [buildStep]
  simp only [] at hraw ⊢
  rw [hraw]
  rw [if_neg (by
    rintro ⟨hc1, -⟩
    rw [List.append_eq_nil] at hc1
    exact (List.cons_ne_nil '\n' nc) hc1.2)]
  simp only [getOrCreateUUID, hextract]
  rw [if_pos (uuidShape_ne_nil u hu)]
  simp only [if_pos rfl]
  rfl

lemma embedUUID_ne_nil (c u : GoStr) : embedUUID c u ≠ [] := by
  rw [embedUUID]
  cases hsr : splitNl c with
  | nil => simp
  | cons l0 rest =>
    show (if headingLevel l0 > 0 then
        joinNl ((trimSpace l0 ++ ' ' ::
          (gs "<!-- id: " ++ u ++ gs " -->")) :: rest)
      else gs "<!-- id: " ++ u ++ gs " -->" ++ '\n' :: c) ≠ []
    by_cases h : headingLevel l0 > 0
    · rw [if_pos h]
      cases rest with
      | nil => simp [joinNl]
      | cons r rs => simp [joinNl]
    · rw [if_neg h]
      simp

/-- u00 is a concrete 36-character identifier of the sentinel shape. -/
def u00 : GoStr := gs "00000000-0000-0000-0000-000000000000"

/-- stC7x is a vault with one page p whose file holds exactly one block
(content "old") under the sentinel u00. -/
def stC7x : VState :=
  ⟨gs "/v", [], [(gs "p", pOkW)], [],
   [(u00, ⟨gs "old", gs "p"⟩)], ⟨[], []⟩,
   [(gs "/v/p.md", embedUUID (gs "old") u00 ++ ['\n'])]⟩

set_option maxRecDepth 400000 in
/-- C7: UpdateBlock does not store new_content verbatim — the content
is normalised (sentinels stripped, surrounding white space trimmed), so
updating to " hi" succeeds yet the re-parse holds no block with content
" hi"; the identifier still survives, attached to the trimmed "hi". -/
theorem C7_counterexample :
    (updateBlock trivYaml stC7x u00 (gs " hi")).1 = .ok () ∧
    (gs " hi") ∉ (allBlocks (parseMarkdownBlocks (gs "p.md")
      ((alGet (updateBlock trivYaml stC7x u00 (gs " hi")).2.fs
        (gs "/v/p.md")).getD []))).map (fun bc => bc.2) ∧
    (u00, gs "hi") ∈ allBlocks (parseMarkdownBlocks (gs "p.md")
      ((alGet (updateBlock trivYaml stC7x u00 (gs " hi")).2.fs
        (gs "/v/p.md")).getD [])) := by
  refine ⟨?_, ?_, ?_⟩ <;> decide

/-- C7 (amended): when the file embeds the block under its sentinel and
the new content is sentinel-free, heading-free, non-empty and free of
trailing newline/space, UpdateBlock succeeds, writes
embedUUID(new, uuid) + "\n", and a full re-parse of the written file
yields exactly one block carrying the same identifier uuid with content
TrimSpace(new) — the identifier survives, the content is stored
normalised rather than verbatim. -/
theorem C7_updateBlock (Y : YamlIface) (st : VState)
    (uuid new old page : GoStr) (cached : CPage) (absPath : GoStr)
    (hbi : alGet st.blockIndex uuid = some ⟨old, page⟩)
    (hpg : alGet st.pages (goToLower page) = some cached)
    (hsp : safePath st.vaultPath cached.filePath = .ok absPath)
    (hfs : alGet st.fs absPath = some (embedUUID old uuid ++ ['\n']))
    (hu : uuidShape uuid = true)
    (hnlu : '\n' ∉ uuid)
    (hsent : ∀ i ≤ new.length, matchSentinelAt (new.drop i) = none)
    (hnh : ∀ l ∈ splitNl new, headingLevel l = 0)
    (hne : new ≠ []) (hnr : trimRightNlSp new = new) :
    (updateBlock Y st uuid new).1 = .ok () ∧
    alGet (updateBlock Y st uuid new).2.fs absPath =
      some (embedUUID new uuid ++ ['\n']) ∧
    allBlocks (parseMarkdownBlocks cached.filePath
      (embedUUID new uuid ++ ['\n'])) = [(uuid, trimSpace new)] := by
  have hsent' : ∀ i, matchSentinelAt (new.drop i) = none :=
    nomatch_of_bounded new hsent
  have hex : extractUUID new = ([], new) := extractUUID_nosent new hsent'
  have hcont : containsSub (embedUUID old uuid ++ ['\n'])
      (embedUUID old uuid) = true :=
    containsSub_of_pre _ _ (isPrefixOf_append_self _ _)
  have hrepl : replaceFirst (embedUUID old uuid ++ ['\n'])
      (embedUUID old uuid) (embedUUID new uuid) =
      embedUUID new uuid ++ ['\n'] :=
    replaceFirst_pre (embedUUID old uuid) ['\n'] (embedUUID new uuid)
      (embedUUID_ne_nil old uuid)
  have hcompute : updateBlock Y st uuid new =
      (.ok (), rebuildLinksLocked (indexFileCore Y
        { st with fs := (atomicWriteFs st.fs absPath
            (embedUUID new uuid ++ ['\n'])) }
        cached.filePath (embedUUID new uuid ++ ['\n']))) := by
    simp only [updateBlock, hbi, hpg, hsp, hfs]
    rw [if_pos hcont]
    simp only [hex]
    rw [if_pos (Or.inl trivial)]
    simp only [updateBlockWrite, hrepl]
  refine ⟨?_, ?_, ?_⟩
  · rw [hcompute]
  · rw [hcompute]
    simp only [rebuildLinksLocked, indexFileCore, applyPageIndex,
      atomicWriteFs]
    exact alGet_alPut_self _ _ _
  · exact parse_embed cached.filePath uuid new hu hnlu hsent' hnh hne hnr

/-- C7 witness: the amended theorem at the one-block vault stC7x with
new content "hi". -/
theorem C7_updateBlock_witness :
    (updateBlock trivYaml stC7x u00 (gs "hi")).1 = .ok () ∧
    alGet (updateBlock trivYaml stC7x u00 (gs "hi")).2.fs (gs "/v/p.md") =
      some (embedUUID (gs "hi") u00 ++ ['\n']) ∧
    allBlocks (parseMarkdownBlocks (gs "p.md")
      (embedUUID (gs "hi") u00 ++ ['\n'])) = [(u00, trimSpace (gs "hi"))] :=
  C7_updateBlock trivYaml stC7x u00 (gs "hi") (gs "old") (gs "p") pOkW
    (gs "/v/p.md") (by rfl) (by rfl) (by rfl) (by rfl) (by decide)
    (by decide) (by decide) (by decide) (by decide) (by decide)

/-! ## FindConnections / bfsPaths (part_001 lines 123-156, 259-302). -/

/-- BNode is the (key, path) record bfsPaths keeps on its queue. -/
structure BNode where
  key : GoStr
  path : List GoStr

/-- bfsNeighbors is the inner loop of bfsPaths over one dequeued node's
forward-neighbour list, threading (visited, queue, paths); the Bool
records the ten-path early return. -/
def bfsNeighbors (g : GGraph) (toKey : GoStr) (maxDepth : Nat) (cur : BNode) :
    List GoStr → List GoStr × List BNode × List (List GoStr) →
      (List GoStr × List BNode × List (List GoStr)) × Bool
  | [], st => (st, false)
  | linked :: rest, (vis, q, ps) =>
    let lk := goToLower linked
    if lk = toKey then
      let ps2 := ps ++ [cur.path ++ [OriginalName g lk]]
      if 10 ≤ ps2.length then ((vis, q, ps2), true)
      else bfsNeighbors g toKey maxDepth cur rest (vis, q, ps2)
    else
      if lk ∉ vis ∧ cur.path.length < maxDepth then
        bfsNeighbors g toKey maxDepth cur rest
          (lk :: vis, q ++ [⟨lk, cur.path ++ [OriginalName g lk]⟩], ps)
      else bfsNeighbors g toKey maxDepth cur rest (vis, q, ps)

/-- bfsLoop is the dequeue loop of bfsPaths (fuelled; every iteration
dequeues one node and the fuel in bfsPaths covers every possible
enqueue). -/
def bfsLoop (g : GGraph) (toKey : GoStr) (maxDepth : Nat) :
    Nat → List GoStr → List BNode → List (List GoStr) → List (List GoStr)
  | 0, _, _, ps => ps
  | _ + 1, _, [], ps => ps
  | fuel + 1, vis, cur :: rest, ps =>
    if maxDepth + 1 < cur.path.length then ps
    else
      match bfsNeighbors g toKey maxDepth cur (alGetL g.Forward cur.key)
          (vis, rest, ps) with
      | ((_, _, ps2), true) => ps2
      | ((vis2, q2, ps2), false) => bfsLoop g toKey maxDepth fuel vis2 q2 ps2

/-- bfsPaths mirrors Graph.bfsPaths. -/
def bfsPaths (g : GGraph) (fromKey toKey : GoStr) (maxDepth : Nat) :
    List (List GoStr) :=
  bfsLoop g toKey maxDepth
    (2 + (g.Forward.map (fun kv => kv.2.length)).sum)
    [fromKey] [⟨fromKey, [OriginalName g fromKey]⟩] []

/-- hasKeyInsensitive mirrors graph.hasKeyInsensitive. -/
def hasKeyInsensitive (m : List GoStr) (target : GoStr) : Bool :=
  m.any (fun k => goToLower k = target)

/-- allNeighborsG mirrors Graph.allNeighbors (set union kept as a
first-occurrence list). -/
def allNeighborsG (g : GGraph) (key : GoStr) : List GoStr :=
  ((alGetL g.Forward key).map goToLower ++ alGetL g.Backward key).foldl
    (fun acc k => if k ∈ acc then acc else acc ++ [k]) []

/-- ConnectionResult mirrors graph.ConnectionResult. -/
structure ConnectionResult where
  From : GoStr
  To : GoStr
  DirectlyLinked : Bool
  Paths : List (List GoStr)
  SharedConnections : List GoStr

/-- FindConnections mirrors Graph.FindConnections. -/
def FindConnections (g : GGraph) (fromName toName : GoStr) (maxDepth0 : Nat) :
    ConnectionResult :=
  let fromKey := goToLower fromName
  let toKey := goToLower toName
  let maxDepth := if maxDepth0 ≤ 0 then 5 else maxDepth0
  let fwd := alGetL g.Forward fromKey
  let dl := decide (toName ∈ fwd) || hasKeyInsensitive fwd toKey
  let fromN := allNeighborsG g fromKey
  let toN := allNeighborsG g toKey
  let shared := (fromN.filter (fun n =>
    decide (n ∈ toN) && decide (n ≠ fromKey) && decide (n ≠ toKey))).map
      (OriginalName g)
  { From := OriginalName g fromKey
    To := OriginalName g toKey
    DirectlyLinked := dl
    Paths := bfsPaths g fromKey toKey maxDepth
    SharedConnections := sortLe leGS shared }

/-- IsFwdWalk g fromKey toKey ks: ks is a key-level walk of at least
one forward edge from fromKey to toKey. -/
def IsFwdWalk (g : GGraph) (fromKey toKey : GoStr) (ks : List GoStr) : Prop :=
  2 ≤ ks.length ∧ ks.getD 0 [] = fromKey ∧
    ks.getD (ks.length - 1) [] = toKey ∧
    ∀ j, j + 1 < ks.length →
      ks.getD (j + 1) [] ∈ (alGetL g.Forward (ks.getD j [])).map goToLower

/-- bfsFront: some vertex of the walk w sits on the queue at its walk
level while the rest of the walk's interior is unvisited. -/
def bfsFront (g : GGraph) (w : List GoStr) (q : List BNode)
    (vis : List GoStr) : Prop :=
  ∃ j, j ≤ w.length - 2 ∧
    (∃ n ∈ q, n.key = w.getD j [] ∧ n.path.length ≤ j + 1) ∧
    ∀ i, j < i → i ≤ w.length - 2 → w.getD i [] ∉ vis

lemma bfsNeighbors_master (g : GGraph) (toKey : GoStr) (maxDepth : Nat)
    (cur : BNode) :
    ∀ (ns vis : List GoStr) (q : List BNode) (ps : List (List GoStr)),
    ∃ (news : List BNode) (hits : List (List GoStr)) (d : Bool),
      bfsNeighbors g toKey maxDepth cur ns (vis, q, ps) =
        (((news.map BNode.key).reverse ++ vis, q ++ news, ps ++ hits), d) ∧
      (∀ n ∈ news, n.path = cur.path ++ [OriginalName g n.key] ∧
        n.key ∈ ns.map goToLower ∧ cur.path.length < maxDepth) ∧
      (∀ h ∈ hits, h = cur.path ++ [OriginalName g toKey]) ∧
      (hits ≠ [] → toKey ∈ ns.map goToLower) ∧
      (d = true → 10 ≤ (ps ++ hits).length) ∧
      (ps.length < 10 → d = false → (ps ++ hits).length < 10) ∧
      (ps.length < 10 → d = true → (ps ++ hits).length = 10) := by
  intro ns
  induction ns with
  | nil =>
    intro vis q ps
    refine ⟨[], [], false, ?_, ?_, ?_, ?_, ?_, ?_, ?_⟩ <;> simp [bfsNeighbors]
  | cons linked rest ih =>
    intro vis q ps
    rw [bfsNeighbors]
    by_cases h1 : goToLower linked = toKey
    · rw [if_pos h1]
      by_cases h2 : 10 ≤ (ps ++ [cur.path ++ [OriginalName g (goToLower linked)]]).length
      · rw [if_pos h2]
        refine ⟨[], [cur.path ++ [OriginalName g toKey]], true, ?_, ?_, ?_, ?_,
          ?_, ?_, ?_⟩
        · simp [h1]
        · simp
        · simp
        · intro _
          simp only [List.map_cons, List.mem_cons]
          exact Or.inl h1.symm
        · intro _
          rw [h1] at h2
          simpa using h2
        · intro _ hd
          exact absurd hd (by simp)
        · intro hlt _
          simp only [List.length_append, List.length_cons,
            List.length_nil] at h2 ⊢
          omega
      · rw [if_neg h2]
        obtain ⟨news, hits, d, heq, hnews, hhits, htgt, hd10, hdlt, hdeq⟩ :=
          ih vis q (ps ++ [cur.path ++ [OriginalName g (goToLower linked)]])
        refine ⟨news, (cur.path ++ [OriginalName g toKey]) :: hits, d, ?_, ?_,
          ?_, ?_, ?_, ?_, ?_⟩
        · rw [heq, h1]
          simp
        · intro n hn
          obtain ⟨hp, hk, hl⟩ := hnews n hn
          exact ⟨hp, by rw [List.map_cons]; exact List.mem_cons_of_mem _ hk, hl⟩
        · intro h hh
          rcases List.mem_cons.mp hh with hh | hh
          · exact hh
          · exact hhits h hh
        · intro _
          simp only [List.map_cons, List.mem_cons]
          exact Or.inl h1.symm
        · intro hdt
          have := hd10 hdt
          rw [h1] at this
          simpa using this
        · intro hlt hdf
          have hlt' : (ps ++ [cur.path ++ [OriginalName g (goToLower linked)]]).length < 10 := by
            simp only [List.length_append, List.length_cons,
              List.length_nil] at h2 ⊢
            omega
          have := hdlt hlt' hdf
          rw [h1] at this
          simpa using this
        · intro hlt hdt
          have hlt' : (ps ++ [cur.path ++ [OriginalName g (goToLower linked)]]).length < 10 := by
            simp only [List.length_append, List.length_cons,
              List.length_nil] at h2 ⊢
            omega
          have := hdeq hlt' hdt
          rw [h1] at this
          simp only [List.length_append, List.length_cons,
            List.length_nil] at this ⊢
          omega
    · rw [if_neg h1]
      by_cases h3 : goToLower linked ∉ vis ∧ cur.path.length < maxDepth
      · rw [if_pos h3]
        obtain ⟨news, hits, d, heq, hnews, hhits, htgt, hd10, hdlt, hdeq⟩ :=
          ih (goToLower linked :: vis)
            (q ++ [⟨goToLower linked, cur.path ++ [OriginalName g (goToLower linked)]⟩]) ps
        refine ⟨⟨goToLower linked, cur.path ++
          [OriginalName g (goToLower linked)]⟩ :: news, hits, d, ?_, ?_, ?_,
          ?_, hd10, hdlt, hdeq⟩
        · rw [heq]
          simp
        · intro n hn
          rcases List.mem_cons.mp hn with hn | hn
          · subst hn
            exact ⟨rfl, by rw [List.map_cons]; exact List.mem_cons_self _ _, h3.2⟩
          · obtain ⟨hp, hk, hl⟩ := hnews n hn
            exact ⟨hp, by rw [List.map_cons]; exact List.mem_cons_of_mem _ hk, hl⟩
        · exact hhits
        · intro hne
          have := htgt hne
          simp only [List.map_cons, List.mem_cons]
          exact Or.inr this
      · rw [if_neg h3]
        obtain ⟨news, hits, d, heq, hnews, hhits, htgt, hd10, hdlt, hdeq⟩ :=
          ih vis q ps
        refine ⟨news, hits, d, heq, ?_, hhits, ?_, hd10, hdlt, hdeq⟩
        · intro n hn
          obtain ⟨hp, hk, hl⟩ := hnews n hn
          exact ⟨hp, by rw [List.map_cons]; exact List.mem_cons_of_mem _ hk, hl⟩
        · intro hne
          have := htgt hne
          simp only [List.map_cons, List.mem_cons]
          exact Or.inr this

lemma bfsNeighbors_hits_target (g : GGraph) (toKey : GoStr) (maxDepth : Nat)
    (cur : BNode) :
    ∀ (ns vis : List GoStr) (q : List BNode) (ps : List (List GoStr)),
    (∃ x ∈ ns, goToLower x = toKey) →
    ((bfsNeighbors g toKey maxDepth cur ns (vis, q, ps)).1).2.2 ≠ [] := by
  intro ns
  induction ns with
  | nil =>
    intro vis q ps hx
    obtain ⟨x, hx, -⟩ := hx
    exact absurd hx (List.not_mem_nil x)
  | cons linked rest ih =>
    intro vis q ps hx
    rw [bfsNeighbors]
    by_cases h1 : goToLower linked = toKey
    · rw [if_pos h1]
      by_cases h2 : 10 ≤ (ps ++ [cur.path ++ [OriginalName g (goToLower linked)]]).length
      · rw [if_pos h2]
        simp
      · rw [if_neg h2]
        obtain ⟨news, hits, d, heq, -, -, -, -, -, -⟩ :=
          bfsNeighbors_master g toKey maxDepth cur rest vis q
            (ps ++ [cur.path ++ [OriginalName g (goToLower linked)]])
        rw [heq]
        simp
    · rw [if_neg h1]
      have hx' : ∃ x ∈ rest, goToLower x = toKey := by
        obtain ⟨x, hxm, hxe⟩ := hx
        rcases List.mem_cons.mp hxm with hxm | hxm
        · exact absurd (hxm ▸ hxe) h1
        · exact ⟨x, hxm, hxe⟩
      by_cases h3 : goToLower linked ∉ vis ∧ cur.path.length < maxDepth
      · rw [if_pos h3]
        exact ih _ _ _ hx'
      · rw [if_neg h3]
        exact ih _ _ _ hx'

lemma bfsNeighbors_front (g : GGraph) (toKey : GoStr) (maxDepth : Nat)
    (cur : BNode) (w : List GoStr)
    (hint : ∀ j, 1 ≤ j → j < w.length - 1 → w.getD j [] ≠ toKey) :
    ∀ (ns vis : List GoStr) (q : List BNode) (ps : List (List GoStr)),
    (∃ j, j ≤ w.length - 2 ∧ cur.path.length ≤ j + 1 ∧
      ((∃ n ∈ q, n.key = w.getD j [] ∧ n.path.length ≤ j + 1) ∨
       (∃ x ∈ ns, goToLower x = w.getD j [] ∧ w.getD j [] ∉ vis ∧
         cur.path.length < maxDepth ∧ cur.path.length + 1 ≤ j + 1)) ∧
      (∀ i, j < i → i ≤ w.length - 2 → w.getD i [] ∉ vis)) →
    ((bfsNeighbors g toKey maxDepth cur ns (vis, q, ps)).1).2.2 ≠ [] ∨
      bfsFront g w ((bfsNeighbors g toKey maxDepth cur ns (vis, q, ps)).1).2.1
        ((bfsNeighbors g toKey maxDepth cur ns (vis, q, ps)).1).1 := by
  intro ns
  induction ns with
  | nil =>
    intro vis q ps hH
    obtain ⟨j, hj, hcur, hdisj, hneg⟩ := hH
    rcases hdisj with hq | hx
    · right
      rw [bfsNeighbors]
      exact ⟨j, hj, hq, hneg⟩
    · obtain ⟨x, hxm, -⟩ := hx
      exact absurd hxm (List.not_mem_nil x)
  | cons linked rest ih =>
    intro vis q ps hH
    obtain ⟨j, hj, hcur, hdisj, hneg⟩ := hH
    rw [bfsNeighbors]
    by_cases h1 : goToLower linked = toKey
    · -- target hit: the paths list becomes (and stays) non-empty
      rw [if_pos h1]
      by_cases h2 : 10 ≤ (ps ++ [cur.path ++ [OriginalName g (goToLower linked)]]).length
      · rw [if_pos h2]
        left
        simp
      · rw [if_neg h2]
        left
        obtain ⟨news, hits, d, heq, -, -, -, -, -, -⟩ :=
          bfsNeighbors_master g toKey maxDepth cur rest vis q
            (ps ++ [cur.path ++ [OriginalName g (goToLower linked)]])
        rw [heq]
        simp
    · rw [if_neg h1]
      by_cases h3 : goToLower linked ∉ vis ∧ cur.path.length < maxDepth
      · rw [if_pos h3]
        apply ih
        -- rebuild the frontier hypothesis for the extended state
        by_cases hcase : ∃ i, j < i ∧ i ≤ w.length - 2 ∧
            w.getD i [] = goToLower linked
        · -- the new key lies on the walk ahead of j: advance the frontier
          set P : Nat → Prop := fun i => j < i ∧ i ≤ w.length - 2 ∧
            w.getD i [] = goToLower linked with hP
          obtain ⟨i0, hi0⟩ := hcase
          have hi0le : i0 ≤ w.length - 2 := hi0.2.1
          have hPj : P (Nat.findGreatest P (w.length - 2)) :=
            Nat.findGreatest_spec (P := P) hi0le hi0
          set j2 := Nat.findGreatest P (w.length - 2) with hj2
          refine ⟨j2, hPj.2.1, ?_, Or.inl ?_, ?_⟩
          · omega
          · refine ⟨⟨goToLower linked, cur.path ++
              [OriginalName g (goToLower linked)]⟩, by simp, ?_, ?_⟩
            · exact hPj.2.2.symm
            · simp only [List.length_append, List.length_cons, List.length_nil]
              omega
          · intro i hi1 hi2
            have hne1 : w.getD i [] ≠ goToLower linked := by
              intro hc
              exact Nat.findGreatest_is_greatest hi1 hi2 ⟨by omega, hi2, hc⟩
            have hne2 : w.getD i [] ∉ vis := hneg i (by omega) hi2
            simp only [List.mem_cons]
            rintro (hc | hc)
            · exact hne1 hc
            · exact hne2 hc
        · -- the new key is off the walk (beyond j): keep the frontier
          push_neg at hcase
          refine ⟨j, hj, hcur, ?_, ?_⟩
          · rcases hdisj with hq | hx
            · obtain ⟨n, hn, hk, hl⟩ := hq
              exact Or.inl ⟨n, by simp [List.mem_append]; exact Or.inl hn,
                hk, hl⟩
            · obtain ⟨x, hxm, hxe, hxv, hxd, hxl⟩ := hx
              by_cases hxj : w.getD j [] = goToLower linked
              · -- the witness key is enqueued right now
                refine Or.inl ⟨⟨goToLower linked, cur.path ++
                  [OriginalName g (goToLower linked)]⟩, by simp, hxj.symm, ?_⟩
                simp only [List.length_append, List.length_cons,
                  List.length_nil]
                omega
              · rcases List.mem_cons.mp hxm with hxm | hxm
                · exact absurd (hxm ▸ hxe) (fun hc => hxj hc.symm)
                · refine Or.inr ⟨x, hxm, hxe, ?_, hxd, hxl⟩
                  simp only [List.mem_cons]
                  rintro (hc | hc)
                  · exact hxj hc
                  · exact hxv hc
          · intro i hi1 hi2
            have hne2 : w.getD i [] ∉ vis := hneg i hi1 hi2
            simp only [List.mem_cons]
            rintro (hc | hc)
            · exact hcase i hi1 hi2 hc
            · exact hne2 hc
      · rw [if_neg h3]
        apply ih
        refine ⟨j, hj, hcur, ?_, hneg⟩
        rcases hdisj with hq | hx
        · exact Or.inl hq
        · obtain ⟨x, hxm, hxe, hxv, hxd, hxl⟩ := hx
          rcases List.mem_cons.mp hxm with hxm | hxm
          · exfalso
            rw [hxm] at hxe
            rw [hxe] at h3
            exact h3 ⟨hxv, hxd⟩
          · exact Or.inr ⟨x, hxm, hxe, hxv, hxd, hxl⟩

lemma getD_app_lt {α : Type} (l l' : List α) (d : α) :
    ∀ n, n < l.length → (l ++ l').getD n d = l.getD n d := by
  induction l with
  | nil => intro n hn; simp at hn
  | cons c t ih =>
    intro n hn
    cases n with
    | zero => rfl
    | succ m =>
      simp only [List.cons_append, List.getD_cons_succ]
      exact ih m (by simpa using hn)

lemma getD_app_len {α : Type} (l : List α) (k d : α) :
    (l ++ [k]).getD l.length d = k := by
  induction l with
  | nil => rfl
  | cons c t ih => simpa using ih

lemma getD_take_lt {α : Type} (l : List α) (d : α) :
    ∀ m j, j < m → (l.take m).getD j d = l.getD j d := by
  induction l with
  | nil => intro m j _; simp
  | cons c t ih =>
    intro m j hj
    cases m with
    | zero => omega
    | succ m' =>
      cases j with
      | zero => rfl
      | succ j' =>
        simp only [List.take_succ_cons, List.getD_cons_succ]
        exact ih m' j' (by omega)

lemma pairwise_of_all {α : Type} (R : α → α → Prop) (l : List α)
    (h : ∀ a ∈ l, ∀ b ∈ l, R a b) : l.Pairwise R := by
  induction l with
  | nil => exact List.Pairwise.nil
  | cons c t ih =>
    refine List.Pairwise.cons ?_ (ih ?_)
    · intro b hb
      exact h c (by simp) b (List.mem_cons_of_mem c hb)
    · intro a ha b hb
      exact h a (List.mem_cons_of_mem c ha) b (List.mem_cons_of_mem c hb)

lemma headD_append_left {α : Type} (l l' : List α) (d : α) (h : l ≠ []) :
    (l ++ l').headD d = l.headD d := by
  cases l with
  | nil => exact absurd rfl h
  | cons c t => rfl

lemma headD_mem {α : Type} (l : List α) (d : α) (h : l ≠ []) :
    l.headD d ∈ l := by
  cases l with
  | nil => exact absurd rfl h
  | cons c t => simp

/-- NodeOK: a queue node's path is the OriginalName image of a forward
key-chain from fromKey ending at the node's key. -/
def NodeOK (g : GGraph) (fromKey : GoStr) (n : BNode) : Prop :=
  ∃ ks : List GoStr, ks ≠ [] ∧ ks.getD 0 [] = fromKey ∧
    ks.getD (ks.length - 1) [] = n.key ∧
    (∀ j, j + 1 < ks.length →
      ks.getD (j + 1) [] ∈ (alGetL g.Forward (ks.getD j [])).map goToLower) ∧
    n.path = ks.map (OriginalName g)

/-- PathOK: a returned path is the OriginalName image of a forward walk
from fromKey to toKey. -/
def PathOK (g : GGraph) (fromKey toKey : GoStr) (p : List GoStr) : Prop :=
  ∃ ks, IsFwdWalk g fromKey toKey ks ∧ p = ks.map (OriginalName g)

lemma nodeOK_extend (g : GGraph) (fromKey : GoStr) (cur : BNode)
    (hcur : NodeOK g fromKey cur) (k : GoStr)
    (hk : k ∈ (alGetL g.Forward cur.key).map goToLower) :
    ∃ ks : List GoStr, 2 ≤ ks.length ∧ ks.getD 0 [] = fromKey ∧
      ks.getD (ks.length - 1) [] = k ∧
      (∀ j, j + 1 < ks.length →
        ks.getD (j + 1) [] ∈ (alGetL g.Forward (ks.getD j [])).map goToLower) ∧
      cur.path ++ [OriginalName g k] = ks.map (OriginalName g) := by
  obtain ⟨ks, hne, h0, hlast, hedges, hpath⟩ := hcur
  have hpos : 1 ≤ ks.length := List.length_pos.mpr hne
  refine ⟨ks ++ [k], ?_, ?_, ?_, ?_, ?_⟩
  · simp only [List.length_append, List.length_cons, List.length_nil]
    omega
  · rw [getD_app_lt ks [k] [] 0 hpos]
    exact h0
  · have hlen : (ks ++ [k]).length - 1 = ks.length := by
      simp only [List.length_append, List.length_cons, List.length_nil]
      omega
    rw [hlen, getD_app_len]
  · intro j hj
    simp only [List.length_append, List.length_cons, List.length_nil] at hj
    by_cases hjl : j + 1 < ks.length
    · rw [getD_app_lt ks [k] [] (j + 1) hjl,
        getD_app_lt ks [k] [] j (by omega)]
      exact hedges j hjl
    · have hje : j + 1 = ks.length := by omega
      rw [hje, getD_app_len, getD_app_lt ks [k] [] j (by omega)]
      have hjj : j = ks.length - 1 := by omega
      rw [hjj, hlast]
      exact hk
  · rw [List.map_append, hpath]
    rfl

lemma bfs_queue_inv (maxDepth : Nat) (cur : BNode) (rest news : List BNode)
    (hsort : ((cur :: rest).map (fun n => n.path.length)).Pairwise (· ≤ ·))
    (htwo : ∀ a ∈ cur :: rest, ∀ b ∈ cur :: rest,
      b.path.length ≤ a.path.length + 1)
    (hD : ∀ n ∈ cur :: rest, n.path.length ≤ maxDepth)
    (hnews : ∀ n ∈ news,
      n.path.length = cur.path.length + 1 ∧ cur.path.length < maxDepth) :
    ((rest ++ news).map (fun n => n.path.length)).Pairwise (· ≤ ·) ∧
    (∀ a ∈ rest ++ news, ∀ b ∈ rest ++ news,
      b.path.length ≤ a.path.length + 1) ∧
    (∀ n ∈ rest ++ news, n.path.length ≤ maxDepth) := by
  have hcur_le : ∀ b ∈ rest, cur.path.length ≤ b.path.length := by
    have := hsort
    rw [List.map_cons, List.pairwise_cons] at this
    intro b hb
    exact this.1 _ (List.mem_map_of_mem _ hb)
  have hrest_sort : (rest.map (fun n => n.path.length)).Pairwise (· ≤ ·) := by
    have := hsort
    rw [List.map_cons, List.pairwise_cons] at this
    exact this.2
  refine ⟨?_, ?_, ?_⟩
  · rw [List.map_append, List.pairwise_append]
    refine ⟨hrest_sort, ?_, ?_⟩
    · apply pairwise_of_all
      intro a ha b hb
      rw [List.mem_map] at ha hb
      obtain ⟨na, hna, rfl⟩ := ha
      obtain ⟨nb, hnb, rfl⟩ := hb
      rw [(hnews na hna).1, (hnews nb hnb).1]
    · intro a ha b hb
      rw [List.mem_map] at ha hb
      obtain ⟨na, hna, rfl⟩ := ha
      obtain ⟨nb, hnb, rfl⟩ := hb
      rw [(hnews nb hnb).1]
      have h1 := htwo cur (by simp) na (List.mem_cons_of_mem cur hna)
      omega
  · intro a ha b hb
    rcases List.mem_append.mp ha with ha | ha <;>
      rcases List.mem_append.mp hb with hb | hb
    · exact htwo a (List.mem_cons_of_mem cur ha) b
        (List.mem_cons_of_mem cur hb)
    · rw [(hnews b hb).1]
      have := hcur_le a ha
      omega
    · have hb1 := htwo cur (by simp) b (List.mem_cons_of_mem cur hb)
      rw [(hnews a ha).1]
      omega
    · rw [(hnews a ha).1, (hnews b hb).1]
      omega
  · intro n hn
    rcases List.mem_append.mp hn with hn | hn
    · exact hD n (List.mem_cons_of_mem cur hn)
    · rw [(hnews n hn).1]
      exact (hnews n hn).2

lemma bfsLoop_cap (g : GGraph) (toKey : GoStr) (maxDepth : Nat) :
    ∀ (fuel : Nat) (vis : List GoStr) (q : List BNode)
      (ps : List (List GoStr)), ps.length < 10 →
    (bfsLoop g toKey maxDepth fuel vis q ps).length ≤ 10 := by
  intro fuel
  induction fuel with
  | zero =>
    intro vis q ps hlt
    rw [bfsLoop]
    omega
  | succ fuel ih =>
    intro vis q ps hlt
    cases q with
    | nil =>
      rw [bfsLoop]
      omega
    | cons cur rest =>
      rw [bfsLoop]
      by_cases hbr : maxDepth + 1 < cur.path.length
      · rw [if_pos hbr]
        omega
      · rw [if_neg hbr]
        obtain ⟨news, hits, d, heq, hnews, hhits, htgt, hd10, hdlt, hdeq⟩ :=
          bfsNeighbors_master g toKey maxDepth cur (alGetL g.Forward cur.key)
            vis rest ps
        rw [heq]
        cases d with
        | true =>
          show (ps ++ hits).length ≤ 10
          rw [hdeq hlt rfl]
        | false =>
          show (bfsLoop g toKey maxDepth fuel _ _ _).length ≤ 10
          exact ih _ _ _ (hdlt hlt rfl)

lemma bfsLoop_len (g : GGraph) (toKey : GoStr) (maxDepth : Nat) :
    ∀ (fuel : Nat) (vis : List GoStr) (q : List BNode)
      (ps : List (List GoStr)),
    (∀ n ∈ q, n.path.length ≤ maxDepth) →
    (∀ p ∈ ps, p.length ≤ maxDepth + 1) →
    ∀ p ∈ bfsLoop g toKey maxDepth fuel vis q ps,
      p.length ≤ maxDepth + 1 := by
  intro fuel
  induction fuel with
  | zero =>
    intro vis q ps _ hps
    rw [bfsLoop]
    exact hps
  | succ fuel ih =>
    intro vis q ps hq hps
    cases q with
    | nil =>
      rw [bfsLoop]
      exact hps
    | cons cur rest =>
      rw [bfsLoop]
      by_cases hbr : maxDepth + 1 < cur.path.length
      · rw [if_pos hbr]
        exact hps
      · rw [if_neg hbr]
        obtain ⟨news, hits, d, heq, hnews, hhits, htgt, hd10, hdlt, hdeq⟩ :=
          bfsNeighbors_master g toKey maxDepth cur (alGetL g.Forward cur.key)
            vis rest ps
        rw [heq]
        have hps2 : ∀ p ∈ ps ++ hits, p.length ≤ maxDepth + 1 := by
          intro p hp
          rcases List.mem_append.mp hp with hp | hp
          · exact hps p hp
          · rw [hhits p hp]
            simp only [List.length_append, List.length_cons, List.length_nil]
            have := hq cur (by simp)
            omega
        cases d with
        | true => exact hps2
        | false =>
          apply ih
          · intro n hn
            rcases List.mem_append.mp hn with hn | hn
            · exact hq n (List.mem_cons_of_mem cur hn)
            · obtain ⟨hp, -, hl⟩ := hnews n hn
              rw [hp]
              simp only [List.length_append, List.length_cons, List.length_nil]
              omega
          · exact hps2

lemma bfsLoop_walk (g : GGraph) (fromKey toKey : GoStr) (maxDepth : Nat) :
    ∀ (fuel : Nat) (vis : List GoStr) (q : List BNode)
      (ps : List (List GoStr)),
    (∀ n ∈ q, NodeOK g fromKey n) →
    (∀ p ∈ ps, PathOK g fromKey toKey p) →
    ∀ p ∈ bfsLoop g toKey maxDepth fuel vis q ps,
      PathOK g fromKey toKey p := by
  intro fuel
  induction fuel with
  | zero =>
    intro vis q ps _ hps
    rw [bfsLoop]
    exact hps
  | succ fuel ih =>
    intro vis q ps hq hps
    cases q with
    | nil =>
      rw [bfsLoop]
      exact hps
    | cons cur rest =>
      rw [bfsLoop]
      by_cases hbr : maxDepth + 1 < cur.path.length
      · rw [if_pos hbr]
        exact hps
      · rw [if_neg hbr]
        obtain ⟨news, hits, d, heq, hnews, hhits, htgt, hd10, hdlt, hdeq⟩ :=
          bfsNeighbors_master g toKey maxDepth cur (alGetL g.Forward cur.key)
            vis rest ps
        rw [heq]
        have hcur : NodeOK g fromKey cur := hq cur (by simp)
        have hps2 : ∀ p ∈ ps ++ hits, PathOK g fromKey toKey p := by
          intro p hp
          rcases List.mem_append.mp hp with hp | hp
          · exact hps p hp
          · have hpe := hhits p hp
            have htk : toKey ∈ (alGetL g.Forward cur.key).map goToLower := by
              apply htgt
              intro hc
              rw [hc] at hp
              exact List.not_mem_nil p hp
            obtain ⟨ks, h2, h0, hl, he, hpath⟩ :=
              nodeOK_extend g fromKey cur hcur toKey htk
            exact ⟨ks, ⟨h2, h0, hl, he⟩, by rw [hpe, hpath]⟩
        cases d with
        | true => exact hps2
        | false =>
          apply ih
          · intro n hn
            rcases List.mem_append.mp hn with hn | hn
            · exact hq n (List.mem_cons_of_mem cur hn)
            · obtain ⟨hp, hk, -⟩ := hnews n hn
              obtain ⟨ks, h2, h0, hl, he, hpath⟩ :=
                nodeOK_extend g fromKey cur hcur n.key hk
              refine ⟨ks, ?_, h0, hl, he, hp.trans hpath⟩
              intro hc
              rw [hc] at h2
              simp at h2
          · exact hps2

lemma bfsLoop_sorted (g : GGraph) (toKey : GoStr) (maxDepth : Nat) :
    ∀ (fuel : Nat) (vis : List GoStr) (q : List BNode)
      (ps : List (List GoStr)),
    ((q.map (fun n => n.path.length)).Pairwise (· ≤ ·)) →
    (∀ a ∈ q, ∀ b ∈ q, b.path.length ≤ a.path.length + 1) →
    (∀ n ∈ q, n.path.length ≤ maxDepth) →
    ((ps.map List.length).Pairwise (· ≤ ·)) →
    (∀ p ∈ ps, ∀ n ∈ q, p.length ≤ n.path.length + 1) →
    ((bfsLoop g toKey maxDepth fuel vis q ps).map List.length).Pairwise
      (· ≤ ·) := by
  intro fuel
  induction fuel with
  | zero =>
    intro vis q ps _ _ _ hpair _
    rw [bfsLoop]
    exact hpair
  | succ fuel ih =>
    intro vis q ps hsort htwo hD hpair hcouple
    cases q with
    | nil =>
      rw [bfsLoop]
      exact hpair
    | cons cur rest =>
      rw [bfsLoop]
      by_cases hbr : maxDepth + 1 < cur.path.length
      · rw [if_pos hbr]
        exact hpair
      · rw [if_neg hbr]
        obtain ⟨news, hits, d, heq, hnews, hhits, htgt, hd10, hdlt, hdeq⟩ :=
          bfsNeighbors_master g toKey maxDepth cur (alGetL g.Forward cur.key)
            vis rest ps
        rw [heq]
        have hcur_le : ∀ b ∈ rest, cur.path.length ≤ b.path.length := by
          have := hsort
          rw [List.map_cons, List.pairwise_cons] at this
          intro b hb
          exact this.1 _ (List.mem_map_of_mem _ hb)
        have hhitlen : ∀ p ∈ hits, p.length = cur.path.length + 1 := by
          intro p hp
          rw [hhits p hp]
          simp
        have hpair2 : ((ps ++ hits).map List.length).Pairwise (· ≤ ·) := by
          rw [List.map_append, List.pairwise_append]
          refine ⟨hpair, ?_, ?_⟩
          · apply pairwise_of_all
            intro a ha b hb
            rw [List.mem_map] at ha hb
            obtain ⟨pa, hpa, rfl⟩ := ha
            obtain ⟨pb, hpb, rfl⟩ := hb
            rw [hhitlen pa hpa, hhitlen pb hpb]
          · intro a ha b hb
            rw [List.mem_map] at ha hb
            obtain ⟨pa, hpa, rfl⟩ := ha
            obtain ⟨pb, hpb, rfl⟩ := hb
            rw [hhitlen pb hpb]
            exact hcouple pa hpa cur (by simp)
        cases d with
        | true => exact hpair2
        | false =>
          have hnewlen : ∀ n ∈ news,
              n.path.length = cur.path.length + 1 ∧
                cur.path.length < maxDepth := by
            intro n hn
            obtain ⟨hp, -, hl⟩ := hnews n hn
            refine ⟨?_, hl⟩
            rw [hp]
            simp
          obtain ⟨hsort2, htwo2, hD2⟩ :=
            bfs_queue_inv maxDepth cur rest news hsort htwo hD hnewlen
          apply ih _ _ _ hsort2 htwo2 hD2 hpair2
          intro p hp n hn
          rcases List.mem_append.mp hp with hp | hp
          · rcases List.mem_append.mp hn with hn | hn
            · exact hcouple p hp n (List.mem_cons_of_mem cur hn)
            · have h1 := hcouple p hp cur (by simp)
              rw [(hnewlen n hn).1]
              omega
          · rw [hhitlen p hp]
            rcases List.mem_append.mp hn with hn | hn
            · have := hcur_le n hn
              omega
            · rw [(hnewlen n hn).1]
              omega

lemma bfsLoop_shortest (g : GGraph) (toKey : GoStr) (maxDepth : Nat)
    (w : List GoStr) (hS : 2 ≤ w.length)
    (hlast : w.getD (w.length - 1) [] = toKey)
    (hedges : ∀ j, j + 1 < w.length →
      w.getD (j + 1) [] ∈ (alGetL g.Forward (w.getD j [])).map goToLower)
    (hint : ∀ j, 1 ≤ j → j < w.length - 1 → w.getD j [] ≠ toKey) :
    ∀ (fuel : Nat) (vis : List GoStr) (q : List BNode)
      (ps : List (List GoStr)),
    ((q.map (fun n => n.path.length)).Pairwise (· ≤ ·)) →
    (∀ a ∈ q, ∀ b ∈ q, b.path.length ≤ a.path.length + 1) →
    (∀ n ∈ q, n.path.length ≤ maxDepth) →
    (ps ≠ [] → (ps.headD []).length ≤ w.length) →
    (ps = [] → (maxDepth + 1 ≤ w.length ∨ bfsFront g w q vis)) →
    bfsLoop g toKey maxDepth fuel vis q ps ≠ [] →
    ((bfsLoop g toKey maxDepth fuel vis q ps).headD []).length ≤
      w.length := by
  intro fuel
  induction fuel with
  | zero =>
    intro vis q ps _ _ _ hI1 _ hne
    rw [bfsLoop] at hne ⊢
    exact hI1 hne
  | succ fuel ih =>
    intro vis q ps hsort htwo hD hI1 hF
    cases q with
    | nil =>
      rw [bfsLoop]
      exact hI1
    | cons cur rest =>
      rw [bfsLoop]
      by_cases hbr : maxDepth + 1 < cur.path.length
      · rw [if_pos hbr]
        exact hI1
      · rw [if_neg hbr]
        obtain ⟨news, hits, d, heq, hnews, hhits, htgt, hd10, hdlt, hdeq⟩ :=
          bfsNeighbors_master g toKey maxDepth cur (alGetL g.Forward cur.key)
            vis rest ps
        rw [heq]
        have hcur_le_head : ∀ n ∈ cur :: rest,
            cur.path.length ≤ n.path.length := by
          intro n hn
          rcases List.mem_cons.mp hn with hn | hn
          · rw [hn]
          · have hs := hsort
            rw [List.map_cons, List.pairwise_cons] at hs
            exact hs.1 _ (List.mem_map_of_mem _ hn)
        have hhitlen : ∀ p ∈ hits, p.length = cur.path.length + 1 := by
          intro p hp
          rw [hhits p hp]
          simp
        have hcurbound : ps = [] → cur.path.length + 1 ≤ w.length := by
          intro hps
          rcases hF hps with hγ | hfr
          · have := hD cur (by simp)
            omega
          · obtain ⟨j, hj, ⟨n, hn, hk, hl⟩, hneg⟩ := hfr
            have h1 := hcur_le_head n hn
            omega
        have hI1' : ps ++ hits ≠ [] →
            ((ps ++ hits).headD []).length ≤ w.length := by
          intro hne2
          by_cases hps : ps = []
          · subst hps
            simp only [List.nil_append] at hne2 ⊢
            have hh := headD_mem hits [] hne2
            rw [hhitlen _ hh]
            exact hcurbound rfl
          · rw [headD_append_left _ _ _ hps]
            exact hI1 hps
        cases d with
        | true => exact hI1'
        | false =>
          have hnewlen : ∀ n ∈ news,
              n.path.length = cur.path.length + 1 ∧
                cur.path.length < maxDepth := by
            intro n hn
            obtain ⟨hp, -, hl⟩ := hnews n hn
            refine ⟨?_, hl⟩
            rw [hp]
            simp
          obtain ⟨hsort2, htwo2, hD2⟩ :=
            bfs_queue_inv maxDepth cur rest news hsort htwo hD hnewlen
          apply ih _ _ _ hsort2 htwo2 hD2 hI1'
          intro hps2
          have hps : ps = [] := (List.append_eq_nil.mp hps2).1
          rcases hF hps with hγ | hfr
          · exact Or.inl hγ
          · obtain ⟨j, hj, ⟨n, hn, hk, hl⟩, hneg⟩ := hfr
            rcases List.mem_cons.mp hn with hncur | hnrest
            · subst hncur
              by_cases hj1 : j + 1 ≤ w.length - 2
              · by_cases hcd : n.path.length < maxDepth
                · have hedge : w.getD (j + 1) [] ∈
                      (alGetL g.Forward n.key).map goToLower := by
                    rw [hk]
                    exact hedges j (by omega)
                  obtain ⟨x, hxm, hxe⟩ := List.mem_map.mp hedge
                  have hfr2 := bfsNeighbors_front g toKey maxDepth n w hint
                    (alGetL g.Forward n.key) vis rest ps
                    ⟨j + 1, hj1, by omega,
                      Or.inr ⟨x, hxm, hxe, hneg (j + 1) (by omega) hj1,
                        hcd, by omega⟩,
                      fun i hi1 hi2 => hneg i (by omega) hi2⟩
                  rw [heq] at hfr2
                  rcases hfr2 with hne2 | hfront
                  · exact absurd hps2 hne2
                  · exact Or.inr hfront
                · left
                  omega
              · exfalso
                have hedge : w.getD (j + 1) [] ∈
                    (alGetL g.Forward n.key).map goToLower := by
                  rw [hk]
                  exact hedges j (by omega)
                have htk : w.getD (j + 1) [] = toKey := by
                  have hje : j + 1 = w.length - 1 := by omega
                  rw [hje, hlast]
                obtain ⟨x, hxm, hxe⟩ := List.mem_map.mp hedge
                have hht := bfsNeighbors_hits_target g toKey maxDepth n
                  (alGetL g.Forward n.key) vis rest ps
                  ⟨x, hxm, by rw [hxe, htk]⟩
                rw [heq] at hht
                exact hht hps2
            · have h1 := hcur_le_head n (List.mem_cons_of_mem cur hnrest)
              have hfr2 := bfsNeighbors_front g toKey maxDepth cur w hint
                (alGetL g.Forward cur.key) vis rest ps
                ⟨j, hj, by omega, Or.inl ⟨n, hnrest, hk, hl⟩, hneg⟩
              rw [heq] at hfr2
              rcases hfr2 with hne2 | hfront
              · exact absurd hps2 hne2
              · exact Or.inr hfront

lemma walk_cut (g : GGraph) (fromKey toKey : GoStr) (w : List GoStr)
    (hw : IsFwdWalk g fromKey toKey w) :
    ∃ w2 : List GoStr, w2.length ≤ w.length ∧ 2 ≤ w2.length ∧
      w2.getD 0 [] = fromKey ∧ w2.getD (w2.length - 1) [] = toKey ∧
      (∀ j, j + 1 < w2.length →
        w2.getD (j + 1) [] ∈
          (alGetL g.Forward (w2.getD j [])).map goToLower) ∧
      (∀ j, 1 ≤ j → j < w2.length - 1 → w2.getD j [] ≠ toKey) := by
  obtain ⟨hlen, h0, hlast, hedges⟩ := hw
  have hPex : ∃ i, 1 ≤ i ∧ i < w.length ∧ w.getD i [] = toKey :=
    ⟨w.length - 1, by omega, by omega, hlast⟩
  obtain ⟨hi1, hiw, hitk⟩ := Nat.find_spec hPex
  have hlen2 : (w.take (Nat.find hPex + 1)).length = Nat.find hPex + 1 := by
    rw [List.length_take]
    omega
  refine ⟨w.take (Nat.find hPex + 1), ?_, ?_, ?_, ?_, ?_, ?_⟩
  · rw [hlen2]
    omega
  · rw [hlen2]
    omega
  · rw [getD_take_lt w [] (Nat.find hPex + 1) 0 (by omega)]
    exact h0
  · rw [hlen2]
    have he : Nat.find hPex + 1 - 1 = Nat.find hPex := by omega
    rw [he, getD_take_lt w [] (Nat.find hPex + 1) (Nat.find hPex) (by omega)]
    exact hitk
  · intro j hj
    rw [hlen2] at hj
    rw [getD_take_lt w [] (Nat.find hPex + 1) (j + 1) (by omega),
      getD_take_lt w [] (Nat.find hPex + 1) j (by omega)]
    exact hedges j (by omega)
  · intro j hj1 hj2
    rw [hlen2] at hj2
    rw [getD_take_lt w [] (Nat.find hPex + 1) j (by omega)]
    have hmin := Nat.find_min hPex (m := j) (by omega)
    intro hc
    exact hmin ⟨hj1, by omega, hc⟩

lemma findConnections_paths (g : GGraph) (a b : GoStr) (md : Nat)
    (h : 0 < md) : (FindConnections g a b md).Paths =
      bfsPaths g (goToLower a) (goToLower b) md := by
  simp only [FindConnections]
  rw [if_neg (by omega)]

/-- C2: FindConnections returns at most ten paths, each a forward-edge
walk of at most max_depth+1 vertices rendered through OriginalName,
listed in non-decreasing length order, and when any path is returned
the first one is at least as short as every forward walk between the
endpoints. -/
theorem C2_findConnections (g : GGraph) (fromName toName : GoStr)
    (maxDepth : Nat) (hmd : 0 < maxDepth) :
    (FindConnections g fromName toName maxDepth).Paths.length ≤ 10 ∧
    (∀ p ∈ (FindConnections g fromName toName maxDepth).Paths,
      p.length ≤ maxDepth + 1) ∧
    (∀ p ∈ (FindConnections g fromName toName maxDepth).Paths,
      ∃ ks, IsFwdWalk g (goToLower fromName) (goToLower toName) ks ∧
        p = ks.map (OriginalName g)) ∧
    (((FindConnections g fromName toName maxDepth).Paths.map
      List.length).Pairwise (· ≤ ·)) ∧
    (∀ ks, IsFwdWalk g (goToLower fromName) (goToLower toName) ks →
      (FindConnections g fromName toName maxDepth).Paths ≠ [] →
      ((FindConnections g fromName toName maxDepth).Paths.headD
        []).length ≤ ks.length) := by
  rw [findConnections_paths g fromName toName maxDepth hmd, bfsPaths]
  have hq0D : ∀ n ∈ [(⟨goToLower fromName,
      [OriginalName g (goToLower fromName)]⟩ : BNode)],
      n.path.length ≤ maxDepth := by
    intro n hn
    rw [List.mem_singleton] at hn
    subst hn
    simp only [List.length_cons, List.length_nil]
    omega
  have hq0sort : (([(⟨goToLower fromName,
      [OriginalName g (goToLower fromName)]⟩ : BNode)].map
        (fun n => n.path.length)).Pairwise (· ≤ ·)) := by simp
  have hq0two : ∀ a ∈ [(⟨goToLower fromName,
      [OriginalName g (goToLower fromName)]⟩ : BNode)],
      ∀ b ∈ [(⟨goToLower fromName,
        [OriginalName g (goToLower fromName)]⟩ : BNode)],
      b.path.length ≤ a.path.length + 1 := by
    intro a ha b hb
    rw [List.mem_singleton] at ha hb
    subst ha
    subst hb
    omega
  refine ⟨?_, ?_, ?_, ?_, ?_⟩
  · exact bfsLoop_cap g (goToLower toName) maxDepth _ _ _ [] (by simp)
  · exact bfsLoop_len g (goToLower toName) maxDepth _ _ _ [] hq0D
      (by simp)
  · intro p hp
    have hall := bfsLoop_walk g (goToLower fromName) (goToLower toName)
      maxDepth _ _ _ [] ?hq ?hps p hp
    · exact hall
    case hq =>
      intro n hn
      rw [List.mem_singleton] at hn
      subst hn
      refine ⟨[goToLower fromName], by simp, rfl, rfl, ?_, rfl⟩
      intro j hj
      simp at hj
    case hps =>
      intro p hp
      simp at hp
  · exact bfsLoop_sorted g (goToLower toName) maxDepth _ _ _ [] hq0sort
      hq0two hq0D (by simp) (by simp)
  · intro ks hks hne
    obtain ⟨w2, hwle, hw2, hw0, hwlast, hwedges, hwint⟩ :=
      walk_cut g (goToLower fromName) (goToLower toName) ks hks
    have hfront : ([] : List (List GoStr)) = [] →
        maxDepth + 1 ≤ w2.length ∨
        bfsFront g w2 [(⟨goToLower fromName,
          [OriginalName g (goToLower fromName)]⟩ : BNode)]
          [goToLower fromName] := by
      intro _
      right
      have hP0 : 0 ≤ w2.length - 2 ∧ w2.getD 0 [] = goToLower fromName :=
        ⟨by omega, hw0⟩
      have hPj := Nat.findGreatest_spec (P := fun i =>
        i ≤ w2.length - 2 ∧ w2.getD i [] = goToLower fromName)
        (Nat.zero_le (w2.length - 2)) hP0
      refine ⟨Nat.findGreatest (fun i =>
        i ≤ w2.length - 2 ∧ w2.getD i [] = goToLower fromName)
        (w2.length - 2), hPj.1, ?_, ?_⟩
      · refine ⟨⟨goToLower fromName,
          [OriginalName g (goToLower fromName)]⟩, by simp, hPj.2.symm, ?_⟩
        simp only [List.length_cons, List.length_nil]
        omega
      · intro i hi1 hi2
        rw [List.mem_singleton]
        intro hc
        exact Nat.findGreatest_is_greatest hi1 hi2 ⟨hi2, hc⟩
    have hmain := bfsLoop_shortest g (goToLower toName) maxDepth w2 hw2
      hwlast hwedges hwint _ _ _ [] hq0sort hq0two hq0D
      (fun h => absurd rfl h) hfront hne
    exact le_trans hmain hwle

/-- gW is a three-vertex chain a -> b -> c. -/
def gW : GGraph :=
  ⟨[(gs "a", [gs "b"]), (gs "b", [gs "c"])], [], [], []⟩

example : (FindConnections gW (gs "a") (gs "c") 2).Paths =
    [[gs "a", gs "b", gs "c"]] := by decide
example : (FindConnections gW (gs "a") (gs "b") 2).DirectlyLinked = true := by
  decide
example : (FindConnections gW (gs "a") (gs "c") 1).Paths = [] := by decide

/-- C2 witness: the theorem applied to the chain a -> b -> c with
max_depth 2. -/
theorem C2_findConnections_witness :
    0 < 2 ∧
    ((FindConnections gW (gs "a") (gs "c") 2).Paths.length ≤ 10 ∧
    (∀ p ∈ (FindConnections gW (gs "a") (gs "c") 2).Paths,
      p.length ≤ 2 + 1) ∧
    (∀ p ∈ (FindConnections gW (gs "a") (gs "c") 2).Paths,
      ∃ ks, IsFwdWalk gW (goToLower (gs "a")) (goToLower (gs "c")) ks ∧
        p = ks.map (OriginalName gW)) ∧
    (((FindConnections gW (gs "a") (gs "c") 2).Paths.map
      List.length).Pairwise (· ≤ ·)) ∧
    (∀ ks, IsFwdWalk gW (goToLower (gs "a")) (goToLower (gs "c")) ks →
      (FindConnections gW (gs "a") (gs "c") 2).Paths ≠ [] →
      ((FindConnections gW (gs "a") (gs "c") 2).Paths.headD
        []).length ≤ ks.length)) :=
  ⟨by decide, C2_findConnections gW (gs "a") (gs "c") 2 (by decide)⟩

end Graphthulhu
